import Mathlib

/-!
# MacroPad firmware: EEPROM channel and input controls

A shallow embedding of `Firmware/src/eeprom.cpp` / `eeprom.h` (the 24C* I²C
EEPROM driver) and of `Firmware/src/input.cpp` / `input.h` (event queue,
switch debouncing, rotary encoder decoding, potentiometer hysteresis),
followed by theorems about them.

Conventions.
* `uint` / `uint32_t` values are natural numbers below `2 ^ 32`; every
  arithmetic operation that can wrap in the C++ code is written with an
  explicit `% 2 ^ 32` (`uadd`, `usub`, `umul`).
* Hardware registers the driver writes are fields of the state; values the
  driver reads from the hardware (pin levels, interrupt status, free FIFO
  entries, ADC readings, the clock) are arguments.
-/

namespace MacroPad

/-! ## Machine arithmetic -/

/-- Range of a 32-bit unsigned integer. -/
def U32 : Nat := 4294967296

/-- Conversion of a natural number to `uint` (wraps). -/
def toU32 (a : Nat) : Nat := a % U32

/-- Addition on `uint` (wraps). -/
def uadd (a b : Nat) : Nat := (a + b) % U32

/-- Subtraction on `uint` (wraps); for operands below `2 ^ 32`. -/
def usub (a b : Nat) : Nat := (a + U32 - b % U32) % U32

/-- Multiplication on `uint` (wraps). -/
def umul (a b : Nat) : Nat := (a * b) % U32

/-! ## EEPROM driver (`eeprom.h`, `eeprom.cpp`) -/

/-- Supported 24C* series EEPROM types (`enum EepRomType`). -/
inductive EepRomType where
  | EEPROM_24C01
  | EEPROM_24C02
  | EEPROM_24C04
  | EEPROM_24C08
  | EEPROM_24C16
  | EEPROM_24C32
  | EEPROM_24C64
  | EEPROM_24C128
  | EEPROM_24C256
  | EEPROM_24C512
  | EEPROM_24C1024
  deriving DecidableEq, Repr

/-- One entry of the `PARAMS` table. -/
structure Params where
  /-- Total number of memory address bits. -/
  addressBits : Nat
  /-- Number of memory address bytes sent as payload data. -/
  addressBytes : Nat
  /-- Page size for writing. -/
  pageSize : Nat
  deriving DecidableEq, Repr

/-- The `PARAMS` table, indexed by the EEPROM type. -/
def PARAMS : EepRomType → Params
  | .EEPROM_24C01 => ⟨7, 1, 8⟩
  | .EEPROM_24C02 => ⟨8, 1, 8⟩
  | .EEPROM_24C04 => ⟨9, 1, 16⟩
  | .EEPROM_24C08 => ⟨10, 1, 16⟩
  | .EEPROM_24C16 => ⟨11, 1, 16⟩
  | .EEPROM_24C32 => ⟨12, 2, 32⟩
  | .EEPROM_24C64 => ⟨13, 2, 32⟩
  | .EEPROM_24C128 => ⟨14, 2, 64⟩
  | .EEPROM_24C256 => ⟨15, 2, 64⟩
  | .EEPROM_24C512 => ⟨16, 2, 64⟩
  | .EEPROM_24C1024 => ⟨17, 2, 128⟩

/-- Result of a read or write operation (`EepRom::Result`). -/
inductive Result where
  | NONE
  | ONGOING
  | SUCCESS
  | CANCELLED
  deriving DecidableEq, Repr

/-- Driver state (`EepRom::State`). -/
inductive State where
  | IDLE
  | READ_RETRY_DELAY
  | READ_RECEIVING
  | WRITE_RETRY_DELAY
  | WRITE_TRANSMITTING
  deriving DecidableEq, Repr

/-- One word written to the `data_cmd` register: the RESTART, STOP and CMD
(`true` = receive, `false` = transmit) bits and the data byte. -/
structure DataCmd where
  restart : Bool
  stop : Bool
  cmd : Bool
  dat : Nat
  deriving DecidableEq, Repr

/-- The interrupt sources the driver looks at (`intr_stat` when read,
`intr_mask` when written). -/
structure Intr where
  rxFull : Bool
  txEmpty : Bool
  txAbrt : Bool
  deriving DecidableEq, Repr

/-- The anonymous union of `readOp` and `writeOp`. Both members have the same
layout, so one record stands for both: `bytesEnqueued` is also
`readOp.bytesRequested` and `bytesTransmitted` is also
`readOp.bytesReceived`. `data` holds the contents of the caller's buffer. -/
structure Op where
  data : List Nat
  length : Nat
  memAddress : Nat
  bytesEnqueued : Nat
  bytesTransmitted : Nat
  deriving DecidableEq, Repr

/-- An `EepRom` instance together with the registers of its I²C peripheral.
`txFifo` is the transmit queue: the driver appends to it, the peripheral
empties it. -/
structure EepRom where
  type : EepRomType
  i2cAddress : Nat
  state : State
  result : Result
  op : Op
  /-- `alarm`: is the retry alarm armed? -/
  alarm : Bool
  /-- `i2cIrqInst == this` -/
  i2cIrqInst : Bool
  /-- Is the I²C interrupt enabled (`irq_set_enabled`)? -/
  irqEnabled : Bool
  enable : Bool
  tar : Nat
  intr_mask : Intr
  rx_tl : Nat
  txFifo : List DataCmd
  deriving DecidableEq, Repr

namespace EepRom

/-- `EepRom::getCapacity` -/
def getCapacity (type : EepRomType) : Nat :=
  toU32 (1 <<< (PARAMS type).addressBits)

/-- `EepRom::EepRom`: idle, no previous operation. -/
def new (type : EepRomType) (i2cAddress : Nat) : EepRom :=
  { type := type, i2cAddress := i2cAddress, state := .IDLE, result := .NONE,
    op := ⟨[], 0, 0, 0, 0⟩, alarm := false, i2cIrqInst := false,
    irqEnabled := false, enable := false, tar := 0,
    intr_mask := ⟨false, false, false⟩, rx_tl := 0, txFifo := [] }

/-- `EepRom::calcI2cAddress` -/
def calcI2cAddress (s : EepRom) (memAddress : Nat) : Nat :=
  if (PARAMS s.type).addressBits > 8 * (PARAMS s.type).addressBytes then
    let overflowingBits := (memAddress >>> (8 * (PARAMS s.type).addressBytes)) % 256
    (s.i2cAddress ||| overflowingBits) % 256
  else
    s.i2cAddress

/-- The address bytes put into the TX FIFO at the start of a transaction:
`for(int i = addressBytes - 1; i >= 0; i--)`, most significant byte first,
no RESTART, no STOP, command transmit. -/
def addressCmds (addressBytes currentAddress : Nat) : List DataCmd :=
  ((List.range addressBytes).reverse).map fun i =>
    ⟨false, false, false, (currentAddress >>> (8 * i)) &&& 0xff⟩

/-- The "START and send memory address" block shared by both fill methods:
disable the peripheral, set the target address, enable, push address bytes. -/
def sendAddress (s : EepRom) (currentAddress : Nat) : EepRom :=
  { s with
    enable := true
    tar := s.calcI2cAddress currentAddress
    txFifo := s.txFifo ++ addressCmds (PARAMS s.type).addressBytes currentAddress }

/-- `EepRom::readFillTxFifo`; `txFifoFree` is what
`i2c_get_write_available` returns. -/
def readFillTxFifo (s : EepRom) (txFifoFree : Nat) : EepRom :=
  if s.op.bytesTransmitted = s.op.length then
    { s with state := .IDLE, result := .SUCCESS, enable := false }
  else
    let currentAddress := uadd s.op.memAddress s.op.bytesTransmitted
    let starting : Bool := s.op.bytesTransmitted = 0
    let len := txFifoFree
    let len := if starting then usub len (PARAMS s.type).addressBytes else len
    let reachesEnd : Bool :=
      uadd currentAddress len ≥ uadd s.op.memAddress s.op.length
    let len := if reachesEnd then
      usub (uadd s.op.memAddress s.op.length) currentAddress else len
    let stopping := reachesEnd
    let s := if starting then s.sendAddress currentAddress else s
    let cmds : List DataCmd := (List.range len).map fun i =>
      ⟨starting && i = 0, stopping && i = usub len 1, true, 0⟩
    { s with
      txFifo := s.txFifo ++ cmds
      op := { s.op with bytesEnqueued := uadd s.op.bytesEnqueued len }
      state := .READ_RECEIVING
      i2cIrqInst := true
      intr_mask := ⟨true, false, true⟩
      rx_tl := usub len 1
      irqEnabled := true }

/-- The three values `writeFillTxFifo` decides before touching the FIFO:
whether a new transaction is started, whether it is stopped after the last
payload byte, and the number of payload bytes. -/
structure FillPlan where
  starting : Bool
  stopping : Bool
  len : Nat
  deriving DecidableEq, Repr

/-- The planning part of `EepRom::writeFillTxFifo` (from "Current memory
address" to the page-boundary check). -/
def writeFillPlan (type : EepRomType) (op : Op) (txFifoFree : Nat) : FillPlan :=
  let pageSize := (PARAMS type).pageSize
  let currentAddress := uadd op.memAddress op.bytesTransmitted
  let starting : Bool := op.bytesTransmitted = 0
  let starting : Bool := if currentAddress % pageSize = 0 then true else starting
  let len := txFifoFree
  let len := if starting then usub len (PARAMS type).addressBytes else len
  let reachesEnd : Bool :=
    uadd currentAddress len ≥ uadd op.memAddress op.length
  let len := if reachesEnd then
    usub (uadd op.memAddress op.length) currentAddress else len
  let stopping := reachesEnd
  let reachesPage : Bool :=
    uadd currentAddress len / pageSize > currentAddress / pageSize
  let len := if reachesPage then
    usub pageSize (currentAddress % pageSize) else len
  let stopping := if reachesPage then true else stopping
  ⟨starting, stopping, len⟩

/-- The payload words `writeFillTxFifo` pushes in its loop
`for(uint i = 0; i < len; i++)`: byte `data[bytesEnqueued]` with
`bytesEnqueued` counting up from its value before the loop, STOP on the
last one when stopping. -/
def payloadCmds (data : List Nat) (bytesEnqueued : Nat) (stopping : Bool) (len : Nat) :
    List DataCmd :=
  (List.range len).map fun i =>
    ⟨false, stopping && i = usub len 1, false, data.getD (bytesEnqueued + i) 0⟩

/-- `EepRom::writeFillTxFifo`; `txFifoFree` is what
`i2c_get_write_available` returns. -/
def writeFillTxFifo (s : EepRom) (txFifoFree : Nat) : EepRom :=
  if s.op.bytesTransmitted = s.op.length then
    { s with state := .IDLE, result := .SUCCESS, enable := false }
  else
    let currentAddress := uadd s.op.memAddress s.op.bytesTransmitted
    let plan := writeFillPlan s.type s.op txFifoFree
    let s := if plan.starting then s.sendAddress currentAddress else s
    { s with
      txFifo := s.txFifo ++ payloadCmds s.op.data s.op.bytesEnqueued plan.stopping plan.len
      op := { s.op with bytesEnqueued := uadd s.op.bytesEnqueued plan.len }
      state := .WRITE_TRANSMITTING
      i2cIrqInst := true
      intr_mask := ⟨false, true, true⟩
      irqEnabled := true }

/-- The parameter check at the top of `startReading` and `startWriting`:
`none` when the method returns `true` right away, otherwise the (possibly
trimmed) length of the request. -/
def checkParameters (type : EepRomType) (memAddress length : Nat) : Option Nat :=
  let capacity := getCapacity type
  if memAddress > capacity then none
  else
    let length := if uadd memAddress length > capacity
      then usub capacity memAddress else length
    if length = 0 then none else some length

/-- `EepRom::startReading`. `dest` is the contents of the destination
buffer; returns the return value and the new state. -/
def startReading (s : EepRom) (dest : List Nat) (memAddress length : Nat)
    (txFifoFree : Nat) : Bool × EepRom :=
  match checkParameters s.type memAddress length with
  | none => (true, s)
  | some length =>
    if s.state ≠ .IDLE then (false, s)
    else
      let s := { s with
        op := ⟨dest, length, memAddress, 0, 0⟩
        result := .ONGOING }
      (true, s.readFillTxFifo txFifoFree)

/-- `EepRom::startWriting`. `src` is the contents of the source buffer;
returns the return value and the new state. -/
def startWriting (s : EepRom) (src : List Nat) (memAddress length : Nat)
    (txFifoFree : Nat) : Bool × EepRom :=
  match checkParameters s.type memAddress length with
  | none => (true, s)
  | some length =>
    if s.state ≠ .IDLE then (false, s)
    else
      let s := { s with
        op := ⟨src, length, memAddress, 0, 0⟩
        result := .ONGOING }
      (true, s.writeFillTxFifo txFifoFree)

/-- `EepRom::getResult` -/
def getResult (s : EepRom) : Result := s.result

/-- `EepRom::cancel`. Aborting and disabling the peripheral flushes its
transmit queue. -/
def cancel (s : EepRom) : EepRom :=
  let s := { s with
    alarm := if s.state = State.READ_RETRY_DELAY ∨ s.state = State.WRITE_RETRY_DELAY
      then false else s.alarm
    irqEnabled := false
    intr_mask := ⟨false, false, false⟩
    i2cIrqInst := false
    state := .IDLE
    result := .CANCELLED }
  if s.enable then { s with enable := false, txFifo := [] } else s

/-- `EepRom::alarmCallback` -/
def alarmCallback (s : EepRom) (txFifoFree : Nat) : EepRom :=
  match s.state with
  | .WRITE_RETRY_DELAY => s.writeFillTxFifo txFifoFree
  | .READ_RETRY_DELAY => s.readFillTxFifo txFifoFree
  | _ => s

/-- The receive loop of `i2cCallback`:
`for(i = bytesReceived; i < bytesRequested; i++) data[i] = data_cmd`.
`rxFifo` is what the successive reads of `data_cmd` return. -/
def receive (data : List Nat) (i bytesRequested : Nat) (rxFifo : List Nat) : List Nat :=
  (List.range (bytesRequested - i)).foldl
    (fun d k => d.set (i + k) (rxFifo.getD k 0 % 256)) data

/-- `EepRom::i2cCallback`. `intr_stat` is the interrupt status register,
`rxFifo` the contents of the receive queue. -/
def i2cCallback (s : EepRom) (intr_stat : Intr) (rxFifo : List Nat)
    (txFifoFree : Nat) : EepRom :=
  let s := { s with
    irqEnabled := false
    intr_mask := ⟨false, false, false⟩
    i2cIrqInst := false }
  match s.state with
  | .WRITE_TRANSMITTING =>
    if intr_stat.txAbrt then
      { s with
        op := { s.op with bytesEnqueued := s.op.bytesTransmitted }
        state := .WRITE_RETRY_DELAY
        alarm := true }
    else if intr_stat.txEmpty then
      writeFillTxFifo
        { s with op := { s.op with bytesTransmitted := s.op.bytesEnqueued } }
        txFifoFree
    else s
  | .READ_RECEIVING =>
    if intr_stat.txAbrt then
      { s with
        op := { s.op with bytesEnqueued := s.op.bytesTransmitted }
        state := .READ_RETRY_DELAY
        alarm := true }
    else if intr_stat.rxFull then
      readFillTxFifo
        { s with op := { s.op with
            data := receive s.op.data s.op.bytesTransmitted s.op.bytesEnqueued rxFifo
            bytesTransmitted := s.op.bytesEnqueued } }
        txFifoFree
    else s
  | _ => s

/-- `EepRom::i2cCallbackHelper`: forwards to the instance registered in
`i2cIrqInst`, if any. -/
def i2cCallbackHelper (s : EepRom) (intr_stat : Intr) (rxFifo : List Nat)
    (txFifoFree : Nat) : EepRom :=
  if s.i2cIrqInst then s.i2cCallback intr_stat rxFifo txFifoFree else s

/-- What can wake the processor from `__wfi()` while a blocking call waits:
the I²C interrupt (after the peripheral has emptied the transmit queue or
flushed it on an abort) or the retry alarm. -/
inductive Irq where
  | i2c (intr_stat : Intr) (rxFifo : List Nat) (txFifoFree : Nat)
  | alarm (txFifoFree : Nat)
  deriving DecidableEq, Repr

/-- Runs the handler of one interrupt. -/
def handle (s : EepRom) : Irq → EepRom
  | .i2c intr_stat rxFifo txFifoFree =>
    if s.irqEnabled then
      i2cCallbackHelper { s with txFifo := [] } intr_stat rxFifo txFifoFree
    else s
  | .alarm txFifoFree =>
    if s.alarm then alarmCallback { s with alarm := false } txFifoFree else s

/-- The wait loop of the blocking calls:
`while(getResult() == Result::ONGOING) __wfi(); return getResult();`
with the interrupts that arrive while waiting. `none`: still waiting when
the interrupts run out. -/
def waitResult (s : EepRom) : List Irq → Option (Result × EepRom)
  | [] => if s.getResult = Result.ONGOING then none else some (s.getResult, s)
  | irq :: irqs =>
    if s.getResult = Result.ONGOING then waitResult (s.handle irq) irqs
    else some (s.getResult, s)

/-- `EepRom::read` (blocking). -/
def read (s : EepRom) (dest : List Nat) (memAddress length : Nat)
    (txFifoFree : Nat) (irqs : List Irq) : Option (Result × EepRom) :=
  let r := s.startReading dest memAddress length txFifoFree
  if !r.1 then some (.CANCELLED, r.2) else waitResult r.2 irqs

/-- `EepRom::write` (blocking). -/
def write (s : EepRom) (src : List Nat) (memAddress length : Nat)
    (txFifoFree : Nat) (irqs : List Irq) : Option (Result × EepRom) :=
  let r := s.startWriting src memAddress length txFifoFree
  if !r.1 then some (.CANCELLED, r.2) else waitResult r.2 irqs

end EepRom

/-- The capacity-truncated length in the words of the specification:
nothing at or past the capacity, otherwise `min(L, capacity − A)`. -/
def specEffectiveLength (type : EepRomType) (memAddress length : Nat) : Nat :=
  if memAddress ≥ EepRom.getCapacity type then 0
  else min length (EepRom.getCapacity type - memAddress)

/-- The length that the driver itself records: the one `startReading` /
`startWriting` go on with after their parameter check (`0`: they return
`true` right away). It is the capacity-truncated length of the specification
only when `memAddress + length` does not wrap (`checkedLength_of_no_wrap`). -/
def checkedLength (type : EepRomType) (memAddress length : Nat) : Nat :=
  (EepRom.checkParameters type memAddress length).getD 0

/-- The transfer-complete interrupt of a write: `TX_EMPTY` is raised, the
transmit queue has been emptied and has 16 free entries. -/
def txEmptyIrq : EepRom.Irq := .i2c ⟨false, true, false⟩ [] 16

/-- The channel after `n` transfer-complete interrupts (no abort). -/
def afterTxEmpty (s : EepRom) : Nat → EepRom
  | 0 => s
  | n + 1 => (afterTxEmpty s n).handle txEmptyIrq

/-- The words put into the transmit queue over an abort-free write, in
order: the queue contents left by the fill step of `s` and by the fill steps
after each of up to `n` further transfer-complete interrupts. -/
def writeStream (s : EepRom) : Nat → List DataCmd
  | 0 => []
  | n + 1 =>
    if s.state = State.IDLE then [] else s.txFifo ++ writeStream (s.handle txEmptyIrq) n

/-- Cuts a sequence of queue words into bus transactions: a transaction
ends with the word that carries STOP. `acc` holds the words of the
transaction under way. -/
def transactionsFrom (acc : List DataCmd) : List DataCmd → List (List DataCmd)
  | [] => if acc = [] then [] else [acc]
  | c :: cs =>
    if c.stop = true then (acc ++ [c]) :: transactionsFrom [] cs
    else transactionsFrom (acc ++ [c]) cs

/-- The bus transactions of a sequence of queue words. -/
def transactions (cmds : List DataCmd) : List (List DataCmd) :=
  transactionsFrom [] cmds

/-- The channel `sn` is waiting for the transfer-complete interrupt of a
fill step of the write of the `L` bytes `src` at address `A`: the step began
with `bytesTransmitted` bytes done, and left in the transmit queue what
`writeFillPlan` planned. -/
structure WriteFilled (s : EepRom) (src : List Nat) (A L : Nat) (sn : EepRom) : Prop where
  state_eq : sn.state = State.WRITE_TRANSMITTING
  irqEnabled_eq : sn.irqEnabled = true
  i2cIrqInst_eq : sn.i2cIrqInst = true
  unfinished : sn.op.bytesTransmitted < L
  bytesEnqueued_eq : sn.op.bytesEnqueued
    = sn.op.bytesTransmitted + (EepRom.writeFillPlan s.type sn.op 16).len
  txFifo_eq : sn.txFifo
    = (if (EepRom.writeFillPlan s.type sn.op 16).starting
        then EepRom.addressCmds (PARAMS s.type).addressBytes (A + sn.op.bytesTransmitted)
        else [])
      ++ EepRom.payloadCmds src sn.op.bytesTransmitted
          (EepRom.writeFillPlan s.type sn.op 16).stopping
          (EepRom.writeFillPlan s.type sn.op 16).len
  tar_eq : (EepRom.writeFillPlan s.type sn.op 16).starting = true →
    sn.tar = s.calcI2cAddress (A + sn.op.bytesTransmitted) ∧ sn.enable = true

/-- Invariant of an abort-free write of the `L` bytes `src` at address `A`
started on the channel `s`: the request is the one recorded by
`startWriting`, and the channel is idle again or a fill step is in flight. -/
structure WriteInv (s : EepRom) (src : List Nat) (A L : Nat) (sn : EepRom) : Prop where
  type_eq : sn.type = s.type
  i2cAddress_eq : sn.i2cAddress = s.i2cAddress
  data_eq : sn.op.data = src
  memAddress_eq : sn.op.memAddress = A
  length_eq : sn.op.length = L
  progress : (sn.state = State.IDLE ∧ sn.irqEnabled = false ∧ sn.result = Result.SUCCESS)
    ∨ (WriteFilled s src A L sn ∧ sn.result = Result.ONGOING)

/-- A bus transaction of the write of `L` bytes at `A` that stays within one
page: address bytes for an address `a`, then `k > 0` payload bytes for the
addresses `a … a + k − 1`, all inside the written range and all in the page
of `a`. -/
def TransactionInPage (type : EepRomType) (A L : Nat) (txn : List DataCmd) : Prop :=
  ∃ a k, 0 < k ∧ A ≤ a ∧ a + k ≤ A + L
    ∧ txn.length = (PARAMS type).addressBytes + k
    ∧ txn.take (PARAMS type).addressBytes
        = EepRom.addressCmds (PARAMS type).addressBytes a
    ∧ (a + k - 1) / (PARAMS type).pageSize = a / (PARAMS type).pageSize

/-- The words `acc` are the beginning of a transaction that has not been
stopped and whose payload has reached the address `cur` without leaving the
page it started in. -/
def OpenTransaction (type : EepRomType) (A cur : Nat) (acc : List DataCmd) : Prop :=
  ∃ a k, 0 < k ∧ A ≤ a ∧ a + k = cur
    ∧ acc.length = (PARAMS type).addressBytes + k
    ∧ acc.take (PARAMS type).addressBytes
        = EepRom.addressCmds (PARAMS type).addressBytes a
    ∧ (a + k - 1) / (PARAMS type).pageSize = a / (PARAMS type).pageSize

/-! ## Input controls (`input.h`, `input.cpp`) -/

/-- `EventQueue<Event, MAX_CAPACITY>`: ring buffer with `head`, `tail` and
`numEvents`. -/
structure EventQueue (Event : Type) (MAX_CAPACITY : Nat) where
  buffer : List Event
  head : Nat
  tail : Nat
  numEvents : Nat
  deriving DecidableEq, Repr

namespace EventQueue

variable {Event : Type} {MAX_CAPACITY : Nat}

/-- `EventQueue::EventQueue`: the empty queue. The slots of `buffer` hold
default-constructed events. -/
def new [Inhabited Event] : EventQueue Event MAX_CAPACITY :=
  ⟨List.replicate MAX_CAPACITY default, 0, 0, 0⟩

/-- `EventQueue::insert` -/
def insert (q : EventQueue Event MAX_CAPACITY) (event : Event) :
    EventQueue Event MAX_CAPACITY :=
  let buffer := q.buffer.set q.head event
  let head := uadd q.head 1 % MAX_CAPACITY
  if q.numEvents < MAX_CAPACITY then
    { buffer := buffer, head := head, tail := q.tail, numEvents := uadd q.numEvents 1 }
  else
    { buffer := buffer, head := head, tail := uadd q.tail 1 % MAX_CAPACITY,
      numEvents := q.numEvents }

/-- `EventQueue::extract`: the extracted event (a default-constructed one
when the queue is empty) and the queue afterwards. -/
def extract [Inhabited Event] (q : EventQueue Event MAX_CAPACITY) :
    Event × EventQueue Event MAX_CAPACITY :=
  if q.numEvents ≠ 0 then
    (q.buffer.getD q.tail default,
      { q with numEvents := usub q.numEvents 1, tail := uadd q.tail 1 % MAX_CAPACITY })
  else
    (default, q)

/-- `EventQueue::size` -/
def size (q : EventQueue Event MAX_CAPACITY) : Nat := q.numEvents

end EventQueue

/-- `absolute_time_diff_us(from, to)`: the signed 64-bit difference
`to - from` of two microsecond timestamps (`t0` = from, `t1` = to). -/
def absolute_time_diff_us (t0 t1 : Nat) : Int :=
  let d : Nat := (t1 + 2 ^ 64 - t0 % 2 ^ 64) % 2 ^ 64
  if d < 2 ^ 63 then (d : Int) else (d : Int) - 2 ^ 64

/-- The duration field of an event:
`static_cast<uint>(absolute_time_diff_us(tsLastEvent, now) / 1000)`. -/
def durationMs (tsLastEvent now : Nat) : Nat :=
  (((absolute_time_diff_us tsLastEvent now).tdiv 1000) % (2 ^ 32 : Int)).toNat

/-- `SWITCH_EVENT_QUEUE_SIZE` -/
def SWITCH_EVENT_QUEUE_SIZE : Nat := 8

/-- `ROTENC_EVENT_QUEUE_SIZE` -/
def ROTENC_EVENT_QUEUE_SIZE : Nat := 8

/-- `POTI_EVENT_QUEUE_SIZE` -/
def POTI_EVENT_QUEUE_SIZE : Nat := 8

/-- The `type` of a `Switch::Event`. -/
inductive Switch.EventType where
  | PRESS
  | RELEASE
  deriving DecidableEq, Repr, Inhabited

/-- `Switch::Event` -/
structure Switch.Event where
  type : Switch.EventType
  duration : Nat
  deriving DecidableEq, Repr, Inhabited

/-- `class Switch` (without the pin number; the pin level is an argument of
`update`). -/
structure Switch where
  pressed : Bool
  buffer : Nat
  debounceDuration : Nat
  events : EventQueue Switch.Event SWITCH_EVENT_QUEUE_SIZE
  tsLastEvent : Nat
  deriving DecidableEq, Repr

namespace Switch

/-- `Switch::Switch`; `now` is what `get_absolute_time` returns. The mask
`(1 << debounceDuration) - 1` is an `int` expression; for a duration of 31
its value is taken as two's-complement arithmetic gives it, `2 ^ 31 - 1`. -/
def new (debounceDuration : Nat) (now : Nat) : Switch :=
  let debounceDuration :=
    if debounceDuration < 1 ∨ debounceDuration > 31 then 10 else debounceDuration
  { pressed := false
    debounceDuration := debounceDuration
    events := EventQueue.new
    buffer := (1 <<< debounceDuration) - 1
    tsLastEvent := now }

/-- `Switch::update`; `pin` is what `gpio_get(pin)` returns (`true` = high,
switch open), `now` what `get_absolute_time` returns. -/
def update (s : Switch) (pin : Bool) (now : Nat) : Switch :=
  let buffer := (toU32 (s.buffer <<< 1) &&& ((1 <<< s.debounceDuration) - 1))
    ||| (if pin then 1 else 0)
  if buffer = 0 ∧ s.pressed = false then
    { s with
      buffer := buffer
      pressed := true
      events := s.events.insert ⟨.PRESS, durationMs s.tsLastEvent now⟩
      tsLastEvent := now }
  else if buffer = (1 <<< s.debounceDuration) - 1 ∧ s.pressed = true then
    { s with
      buffer := buffer
      pressed := false
      events := s.events.insert ⟨.RELEASE, durationMs s.tsLastEvent now⟩
      tsLastEvent := now }
  else
    { s with buffer := buffer }

/-- The switch after a sequence of `update` calls, one per sample
(pin level, time). -/
def run (s : Switch) (samples : List (Bool × Nat)) : Switch :=
  samples.foldl (fun s x => s.update x.1 x.2) s

end Switch

/-- The value of a list of bits, least significant bit first. -/
def bitsVal : List Bool → Nat
  | [] => 0
  | b :: bs => (if b then 1 else 0) + 2 * bitsVal bs

/-- The `d` most recent pin levels after the samples `samples` (oldest
first), most recent level first; before the first `d` samples it is filled
up with the level high (`true`), the level the constructor puts in the
register. -/
def Switch.window (d : Nat) (samples : List (Bool × Nat)) : List Bool :=
  ((samples.reverse.map Prod.fst) ++ List.replicate d true).take d

/-- The `type` of a `RotaryEncoder::Event`. -/
inductive RotaryEncoder.EventType where
  | LEFT
  | RIGHT
  deriving DecidableEq, Repr, Inhabited

/-- `RotaryEncoder::Event` -/
structure RotaryEncoder.Event where
  type : RotaryEncoder.EventType
  duration : Nat
  deriving DecidableEq, Repr, Inhabited

/-- The states of the decoding finite state machine. -/
inductive RotaryEncoder.State where
  | N
  | L1
  | L2
  | L3
  | R1
  | R2
  | R3
  deriving DecidableEq, Repr

/-- `class RotaryEncoder` (without the pin numbers). -/
structure RotaryEncoder where
  state : RotaryEncoder.State
  events : EventQueue RotaryEncoder.Event ROTENC_EVENT_QUEUE_SIZE
  tsLastEvent : Nat
  deriving DecidableEq, Repr

namespace RotaryEncoder

/-- `RotaryEncoder::RotaryEncoder` -/
def new (now : Nat) : RotaryEncoder :=
  { state := .N, events := EventQueue.new, tsLastEvent := now }

/-- The value `pins` computed at the top of `update` from the two pin
levels: bit 0 = A activated (low), bit 1 = B activated (low). -/
def pins (pinA pinB : Bool) : Nat :=
  (if pinA then 0 else 1) ||| (if pinB then 0 else 2)

/-- `RotaryEncoder::update`; `pinA`, `pinB` are what `gpio_get` returns for
the two pins, `now` what `get_absolute_time` returns. -/
def update (s : RotaryEncoder) (pinA pinB : Bool) (now : Nat) : RotaryEncoder :=
  let pins := pins pinA pinB
  match s.state with
  | .N =>
    if pins = 0b01 then { s with state := .L1 }
    else if pins = 0b10 then { s with state := .R1 }
    else s
  | .L1 =>
    if pins = 0b11 then { s with state := .L2 }
    else if pins = 0b00 then { s with state := .N }
    else s
  | .L2 =>
    if pins = 0b10 then { s with state := .L3 }
    else if pins = 0b01 then { s with state := .L1 }
    else s
  | .L3 =>
    if pins = 0b00 then
      { state := .N
        events := s.events.insert ⟨.LEFT, durationMs s.tsLastEvent now⟩
        tsLastEvent := now }
    else if pins = 0b11 then { s with state := .L2 }
    else s
  | .R1 =>
    if pins = 0b11 then { s with state := .R2 }
    else if pins = 0b00 then { s with state := .N }
    else s
  | .R2 =>
    if pins = 0b01 then { s with state := .R3 }
    else if pins = 0b10 then { s with state := .R1 }
    else s
  | .R3 =>
    if pins = 0b00 then
      { state := .N
        events := s.events.insert ⟨.RIGHT, durationMs s.tsLastEvent now⟩
        tsLastEvent := now }
    else if pins = 0b11 then { s with state := .R2 }
    else s

/-- One sample of the two pins: level of pin A, level of pin B, time. -/
structure Sample where
  pinA : Bool
  pinB : Bool
  now : Nat
  deriving DecidableEq, Repr

/-- The encoder after a sequence of `update` calls, one per sample. -/
def run (s : RotaryEncoder) (samples : List Sample) : RotaryEncoder :=
  samples.foldl (fun s x => s.update x.pinA x.pinB x.now) s

end RotaryEncoder

/-- `Potentiometer::Event` -/
structure Potentiometer.Event where
  delta : Int
  position : Nat
  duration : Nat
  deriving DecidableEq, Repr, Inhabited

/-- `class Potentiometer` (without the pin number). -/
structure Potentiometer where
  position : Nat
  adcMin : Nat
  adcMax : Nat
  hysteresis : Nat
  events : EventQueue Potentiometer.Event POTI_EVENT_QUEUE_SIZE
  tsLastEvent : Nat
  deriving DecidableEq, Repr

namespace Potentiometer

/-- `Potentiometer::Potentiometer`. The member initialisers copy the
arguments (`uint16_t`); the bounds checks in the constructor body assign to
`adcMax`, `adcMin` and `hysteresis`, which there name the parameters, not
the members of the same names. `now` is what `get_absolute_time` returns. -/
def new (adcMin adcMax hysteresis : Nat) (now : Nat) : Potentiometer :=
  let adcMin := adcMin % 65536
  let adcMax := adcMax % 65536
  let hysteresis := hysteresis % 65536
  let members : Potentiometer :=
    { position := 0, events := EventQueue.new, adcMin := adcMin, adcMax := adcMax,
      hysteresis := hysteresis, tsLastEvent := 0 }
  let adcMax := if adcMax > 4095 then 4095 else adcMax
  let adcMin := if adcMin > adcMax then adcMax else adcMin
  let _hysteresis := if hysteresis > (adcMax - adcMin + 1) / 256
    then (adcMax - adcMin + 1) / 256 else hysteresis
  { members with tsLastEvent := now }

/-- The position of a raw reading in exact arithmetic: the reading clamped
to `[adcMin, adcMax]` and rescaled linearly to 0..255. -/
def linearPos (p : Potentiometer) (raw : Nat) : Nat :=
  (min (max raw p.adcMin) p.adcMax - p.adcMin) * 256 / (p.adcMax - p.adcMin + 1)

/-- Unsigned 32-bit division as `rawToPos` uses it. C++ leaves the quotient
for a zero divisor undefined; `divZero a` stands for what the platform
delivers for `a / 0`. -/
def udiv (divZero : Nat → Nat) (a b : Nat) : Nat :=
  if b = 0 then toU32 (divZero a) else a / b

/-- `Potentiometer::rawToPos`. `raw` is a `uint`; `adcMax - adcMin + 1` is
computed in `int` and converted to `uint` for the division; the result is
cast to `uint8_t`. -/
def rawToPos (p : Potentiometer) (divZero : Nat → Nat) (raw : Nat) : Nat :=
  let raw := if raw < p.adcMin then p.adcMin else raw
  let raw := if raw > p.adcMax then p.adcMax else raw
  udiv divZero (umul (usub raw p.adcMin) 256) (toU32 (p.adcMax + U32 - p.adcMin + 1)) % 256

/-- `Potentiometer::update`; `adc` is what `adc_read` returns (stored in a
`uint16_t`), `now` what `get_absolute_time` returns (stored in a `uint`). -/
def update (p : Potentiometer) (divZero : Nat → Nat) (adc : Nat) (now : Nat) :
    Potentiometer :=
  let newRaw := adc % 65536
  let oldPos := p.position
  let newPos := p.rawToPos divZero newRaw
  let position :=
    if newPos < p.position then
      if newPos = 255 ∨ p.rawToPos divZero (newRaw + p.hysteresis) = newPos then newPos
      else (newPos + 1) % 256
    else if newPos > p.position then
      if newPos = 0 ∨ p.rawToPos divZero (usub newRaw p.hysteresis) = newPos then newPos
      else (newPos + 255) % 256
    else p.position
  if position ≠ oldPos then
    let now := toU32 now
    { p with
      position := position
      events := p.events.insert
        ⟨(newPos : Int) - (oldPos : Int), newPos, durationMs p.tsLastEvent now⟩
      tsLastEvent := now }
  else
    { p with position := position }

/-- `Potentiometer::getPosition` -/
def getPosition (p : Potentiometer) : Nat := p.position

end Potentiometer

/-! ## Event queue: sequences of calls -/

namespace EventQueue
variable {Event : Type} {MAX_CAPACITY : Nat}

/-- Inserting a list of events one after the other, the first of the list
first. -/
def insertAll (q : EventQueue Event MAX_CAPACITY) (events : List Event) :
    EventQueue Event MAX_CAPACITY :=
  events.foldl insert q

/-- The events returned by `k` calls of `extract` in a row (first call first)
and the queue afterwards. -/
def extractN [Inhabited Event] :
    Nat → EventQueue Event MAX_CAPACITY → List Event × EventQueue Event MAX_CAPACITY
  | 0, q => ([], q)
  | k + 1, q => (q.extract.1 :: (extractN k q.extract.2).1, (extractN k q.extract.2).2)

/-- One call on a queue: `insert(event)` or `extract()`. -/
inductive Request (Event : Type) where
  | insert (event : Event)
  | extract

/-- The queue after one call. -/
def step [Inhabited Event] (q : EventQueue Event MAX_CAPACITY) :
    Request Event → EventQueue Event MAX_CAPACITY
  | .insert event => q.insert event
  | .extract => q.extract.2

/-- The queue after a sequence of calls. -/
def run [Inhabited Event] (q : EventQueue Event MAX_CAPACITY)
    (requests : List (Request Event)) : EventQueue Event MAX_CAPACITY :=
  requests.foldl step q

/-- The events held by the queue, oldest first: the `numEvents` slots of the
ring starting at `tail`. -/
def contents [Inhabited Event] (q : EventQueue Event MAX_CAPACITY) : List Event :=
  (List.range q.numEvents).map
    (fun i => q.buffer.getD ((q.tail + i) % MAX_CAPACITY) default)

/-- Representation invariant of the ring buffer. -/
structure WF (q : EventQueue Event MAX_CAPACITY) : Prop where
  len : q.buffer.length = MAX_CAPACITY
  head_lt : q.head < MAX_CAPACITY
  tail_lt : q.tail < MAX_CAPACITY
  num_le : q.numEvents ≤ MAX_CAPACITY
  head_eq : q.head = (q.tail + q.numEvents) % MAX_CAPACITY

end EventQueue

/-! ## USB HID report channels (`hid.h`, `hid.cpp`) -/

/-- The modulus of 64-bit unsigned arithmetic (`uint64_t`, `absolute_time_t`). -/
def U64 : Nat := 18446744073709551616

/-- `HID_KEY_NONE` -/
def HID_KEY_NONE : Nat := 0

/-- Report ids of the input reports of the misc interface
(`usb_descriptors.h`). -/
def REPORT_ID_CONSUMER_CONTROL : Nat := 1

/-- `REPORT_ID_SYSTEM_CONTROL` -/
def REPORT_ID_SYSTEM_CONTROL : Nat := 2

/-- `REPORT_ID_SLIDER` -/
def REPORT_ID_SLIDER : Nat := 3

/-- `ActionType` (its declaration is in `settings.h`). -/
inductive ActionType where
  | NONE
  | SWITCH_PROFILE
  | INPUT
  deriving DecidableEq, Repr

/-- The `input` member of an `Action`, with the members that
`UsbHidKeyboard::addActionToReport` reads: the array
`keys[MAX_KEYS_PER_ACTION]` (so `keys.length` is `MAX_KEYS_PER_ACTION`) and
`modifiers`. -/
structure ActionInput where
  keys : List Nat
  modifiers : Nat
  deriving DecidableEq, Repr

/-- `Action` (its declaration is in `settings.h`). -/
structure Action where
  type : ActionType
  input : ActionInput
  deriving DecidableEq, Repr

/-- One call `tud_hid_n_report(interface, report_id, report, len)`: the report
id and the `len` bytes handed to the USB stack. -/
structure Transmission where
  report_id : Nat
  report : List Nat
  deriving DecidableEq, Repr

/-- The report struct of `UsbHidKeyboard`; `keycode` has `KRO` entries, six
if `KRO < 6`. -/
structure KeyboardReport where
  modifier : Nat
  reserved : Nat
  keycode : List Nat
  deriving DecidableEq, Repr

/-- The bytes of the (packed) report struct. -/
def KeyboardReport.bytes (r : KeyboardReport) : List Nat :=
  r.modifier :: r.reserved :: r.keycode

/-- `UsbHidKeyboard` -/
structure UsbHidKeyboard where
  currentReport : KeyboardReport
  previousReport : KeyboardReport
  newReport : KeyboardReport
  idleRate : Nat
  previousReportTime : Nat
  deriving DecidableEq, Repr

namespace UsbHidKeyboard

/-- `sizeof(newReport.keycode)` for a given `KRO` (a constant of
`settings.h`). -/
def keycodeSize (KRO : Nat) : Nat := if KRO < 6 then 6 else KRO

/-- `UsbHidKeyboard::UsbHidKeyboard`. The object is a global of `main.cpp`,
so the members the constructor leaves out (`newReport`, `idleRate`) are
zero. -/
def new (KRO : Nat) : UsbHidKeyboard :=
  { currentReport := ⟨0, 0, List.replicate (keycodeSize KRO) 0⟩
    previousReport := ⟨0, 0xff, List.replicate (keycodeSize KRO) 0⟩
    newReport := ⟨0, 0, List.replicate (keycodeSize KRO) 0⟩
    idleRate := 0
    previousReportTime := 0 }

/-- `UsbHidKeyboard::setIdle`; `now` is what `get_absolute_time` returns.
The `int` value `4000 * (this->idleRate - idleRate)` is converted to
`uint64_t` for the addition. -/
def setIdle (k : UsbHidKeyboard) (idleRate : Nat) (now : Nat) : Bool × UsbHidKeyboard :=
  let idleRate := idleRate % 256
  let previousReportTime :=
    if k.idleRate = 0 ∧ idleRate ≠ 0 then
      (now + U64 - (4000 * idleRate) % U64) % U64
    else if idleRate ≠ 0 ∧ absolute_time_diff_us k.previousReportTime now
        > 4000 * ((k.idleRate : Int) - 1) then
      (((k.previousReportTime : Int) + 4000 * ((k.idleRate : Int) - (idleRate : Int)))
        % (U64 : Int)).toNat
    else k.previousReportTime
  (true, { k with idleRate := idleRate, previousReportTime := previousReportTime })

/-- `UsbHidKeyboard::sendReport`. `now` is what `get_absolute_time` returns,
`reportProtocol` whether `tud_hid_n_get_protocol` returns
`HID_PROTOCOL_REPORT`, `accepted` what `tud_hid_n_report` returns if it is
called. Returns the call of `tud_hid_n_report`, if there is one, and the new
state. -/
def sendReport (k : UsbHidKeyboard) (previousReportId : Nat) (now : Nat)
    (reportProtocol : Bool) (accepted : Bool) : Option Transmission × UsbHidKeyboard :=
  let _ := previousReportId
  if (k.idleRate ≠ 0
        ∧ (absolute_time_diff_us k.previousReportTime now).tdiv 1000 > 4 * (k.idleRate : Int))
      ∨ k.currentReport ≠ k.previousReport then
    let len := if reportProtocol then k.currentReport.bytes.length else 8
    (some ⟨0, k.currentReport.bytes.take len⟩,
      if accepted then
        { k with previousReport := k.currentReport, previousReportTime := now }
      else k)
  else (none, k)

/-- `UsbHidKeyboard::startAssemblingReport` -/
def startAssemblingReport (k : UsbHidKeyboard) : UsbHidKeyboard :=
  { k with newReport := ⟨0, 0, List.replicate k.newReport.keycode.length 0⟩ }

/-- The loop of `addActionToReport` that adds the action to the report:
`slots` are the entries `keycode[i]`, `keycode[i + 1]`, ... still to visit
and `j` is the loop's `j`. -/
def fillKeys (keys : List Nat) (needed : Nat) : List Nat → Nat → List Nat
  | [], _ => []
  | slot :: slots, j =>
    if j < needed then
      if slot = HID_KEY_NONE then keys.getD j 0 :: fillKeys keys needed slots (j + 1)
      else slot :: fillKeys keys needed slots j
    else slot :: slots

/-- `UsbHidKeyboard::addActionToReport` -/
def addActionToReport (k : UsbHidKeyboard) (action : Action) : UsbHidKeyboard :=
  if action.type ≠ .INPUT then k
  else
    let available := k.newReport.keycode.countP (fun c => c = HID_KEY_NONE)
    let needed := action.input.keys.countP (fun c => c ≠ HID_KEY_NONE)
    let keycode :=
      if needed ≤ available then fillKeys action.input.keys needed k.newReport.keycode 0
      else k.newReport.keycode.set 0 0x01
    { k with newReport :=
        { k.newReport with
          keycode := keycode
          modifier := (k.newReport.modifier ||| action.input.modifiers) % 256 } }

/-- `UsbHidKeyboard::finishAssemblingReport` -/
def finishAssemblingReport (k : UsbHidKeyboard) : UsbHidKeyboard :=
  { k with currentReport := k.newReport }

/-- The calls `addActionToReport` for a list of actions, in order. -/
def addActions (k : UsbHidKeyboard) (actions : List Action) : UsbHidKeyboard :=
  actions.foldl addActionToReport k

end UsbHidKeyboard

/-- `hid_mouse_report_t`; the signed members hold their byte. -/
structure MouseReport where
  buttons : Nat
  x : Nat
  y : Nat
  wheel : Nat
  pan : Nat
  deriving DecidableEq, Repr

/-- The bytes of the report struct. -/
def MouseReport.bytes (r : MouseReport) : List Nat :=
  [r.buttons, r.x, r.y, r.wheel, r.pan]

/-- `UsbHidMouse` -/
structure UsbHidMouse where
  currentReport : MouseReport
  previousReport : MouseReport
  newReport : MouseReport
  deriving DecidableEq, Repr

namespace UsbHidMouse

/-- `UsbHidMouse::UsbHidMouse` -/
def new : UsbHidMouse :=
  { currentReport := ⟨0, 0, 0, 0, 0⟩
    previousReport := ⟨0xd0, 0, 0, 0, 0⟩
    newReport := ⟨0, 0, 0, 0, 0⟩ }

/-- `UsbHidMouse::sendReport`; `reportProtocol` and `accepted` as for the
keyboard. -/
def sendReport (m : UsbHidMouse) (previousReportId : Nat) (reportProtocol : Bool)
    (accepted : Bool) : Option Transmission × UsbHidMouse :=
  let _ := previousReportId
  if m.currentReport ≠ m.previousReport then
    let len := if reportProtocol then m.currentReport.bytes.length else 3
    (some ⟨0, m.currentReport.bytes.take len⟩,
      if accepted then { m with previousReport := m.currentReport } else m)
  else (none, m)

/-- `UsbHidMouse::startAssemblingReport` -/
def startAssemblingReport (m : UsbHidMouse) : UsbHidMouse :=
  { m with newReport := ⟨0, 0, 0, 0, 0⟩ }

/-- `UsbHidMouse::finishAssemblingReport` -/
def finishAssemblingReport (m : UsbHidMouse) : UsbHidMouse :=
  { m with currentReport := m.newReport }

end UsbHidMouse

/-- `UsbHidComposite`: consumer control (16 bit), system control and slider
(8 bit each) reports. -/
structure UsbHidComposite where
  currentCCReport : Nat
  previousCCReport : Nat
  newCCReport : Nat
  currentSCReport : Nat
  previousSCReport : Nat
  newSCReport : Nat
  currentSliderReport : Nat
  previousSliderReport : Nat
  newSliderReport : Nat
  deriving DecidableEq, Repr

namespace UsbHidComposite

/-- `UsbHidComposite::UsbHidComposite`; the object is a global, the members
the constructor leaves out are zero. -/
def new : UsbHidComposite :=
  { currentCCReport := 0, currentSCReport := 0, currentSliderReport := 0
    previousCCReport := 0xffff, previousSCReport := 0xfc, previousSliderReport := 0
    newCCReport := 0, newSCReport := 0, newSliderReport := 0 }

/-- `UsbHidComposite::sendReport`: the `switch(previousReportId + 1)` with
its fall-through from one case to the next; `accepted` is what
`tud_hid_n_report` returns if it is called. -/
def sendReport (c : UsbHidComposite) (previousReportId : Nat) (accepted : Bool) :
    Option Transmission × UsbHidComposite :=
  let start := previousReportId % 256 + 1
  if start = REPORT_ID_CONSUMER_CONTROL ∧ c.currentCCReport ≠ c.previousCCReport then
    (some ⟨REPORT_ID_CONSUMER_CONTROL, [c.currentCCReport % 256, c.currentCCReport / 256 % 256]⟩,
      if accepted then { c with previousCCReport := c.currentCCReport } else c)
  else if (start = REPORT_ID_CONSUMER_CONTROL ∨ start = REPORT_ID_SYSTEM_CONTROL)
      ∧ c.currentSCReport ≠ c.previousSCReport then
    (some ⟨REPORT_ID_SYSTEM_CONTROL, [c.currentSCReport]⟩,
      if accepted then { c with previousSCReport := c.currentSCReport } else c)
  else if (start = REPORT_ID_CONSUMER_CONTROL ∨ start = REPORT_ID_SYSTEM_CONTROL
        ∨ start = REPORT_ID_SLIDER)
      ∧ c.currentSliderReport ≠ c.previousSliderReport then
    (some ⟨REPORT_ID_SLIDER, [c.currentSliderReport]⟩,
      if accepted then { c with previousSliderReport := c.currentSliderReport } else c)
  else (none, c)

/-- `UsbHidComposite::startAssemblingReport` -/
def startAssemblingReport (c : UsbHidComposite) : UsbHidComposite :=
  { c with newCCReport := 0, newSCReport := 0, newSliderReport := 0 }

/-- `UsbHidComposite::finishAssemblingReport` -/
def finishAssemblingReport (c : UsbHidComposite) : UsbHidComposite :=
  { c with
    currentCCReport := c.newCCReport
    currentSCReport := c.newSCReport
    currentSliderReport := c.newSliderReport }

/-- `UsbHidComposite::setSlider` -/
def setSlider (c : UsbHidComposite) (value : Nat) : UsbHidComposite :=
  { c with newSliderReport := value % 256 }

end UsbHidComposite

namespace UsbHidComposite

/-- The current value of the sub-report with the given report id. -/
def currentOf (c : UsbHidComposite) : Nat → Nat
  | 1 => c.currentCCReport
  | 2 => c.currentSCReport
  | 3 => c.currentSliderReport
  | _ => 0

/-- The value of the sub-report with the given report id that was sent
last. -/
def previousOf (c : UsbHidComposite) : Nat → Nat
  | 1 => c.previousCCReport
  | 2 => c.previousSCReport
  | 3 => c.previousSliderReport
  | _ => 0

/-- The bytes of the current value of the sub-report with the given report
id: two bytes, low byte first, for consumer control, one byte for the
others. -/
def reportOf (c : UsbHidComposite) : Nat → List Nat
  | 1 => [c.currentCCReport % 256, c.currentCCReport / 256 % 256]
  | 2 => [c.currentSCReport]
  | 3 => [c.currentSliderReport]
  | _ => []

end UsbHidComposite

/-- The non-empty keys of an action, in the order of its key array. -/
def nonEmptyKeys (action : Action) : List Nat :=
  action.input.keys.filter (fun c => c ≠ HID_KEY_NONE)

/-- The non-empty keys of an action are stored contiguously from index 0 of
its key array. -/
def KeysContiguous (action : Action) : Prop :=
  action.input.keys.take (nonEmptyKeys action).length = nonEmptyKeys action

instance (action : Action) : Decidable (KeysContiguous action) := by
  unfold KeysContiguous
  infer_instance

/-! ## Feature reports of the misc interface (`main.cpp`, `usb_descriptors.h`) -/

/-- `Mode` (`usb_descriptors.h`) -/
inductive Mode where
  | INITIALISING
  | NORMAL
  | MAINTENANCE
  | LOADING_SETTINGS
  | STORING_SETTINGS
  deriving DecidableEq, Repr

/-- `static_cast<uint8_t>(mode)` -/
def Mode.toByte : Mode → Nat
  | .INITIALISING => 0
  | .NORMAL => 1
  | .MAINTENANCE => 2
  | .LOADING_SETTINGS => 3
  | .STORING_SETTINGS => 4

/-- The globals of `main.cpp` that the feature reports read and write:
`settings` holds the bytes of the `Settings` record (its declaration is in
`settings.h`), so `settings.length` is `sizeof(Settings)`. -/
structure Firmware where
  settings : List Nat
  mode : Mode
  eeprom : EepRom
  settingsAddress : Nat
  settingsLength : Nat
  deriving DecidableEq, Repr

/-- `memcpy(mem + offset, src, src.length)` into the object `mem`; a byte
that would land past the end of `mem` is not stored. -/
def storeBytes (mem : List Nat) (offset : Nat) : List Nat → List Nat
  | [] => mem
  | b :: bs => storeBytes (mem.set offset b) (offset + 1) bs

/-- `memcpy(buffer, mem + offset, length)`: the bytes copied; a byte past the
end of `mem` reads as 0. -/
def loadBytes (mem : List Nat) (offset length : Nat) : List Nat :=
  (List.range length).map (fun i => mem.getD (offset + i) 0)

namespace Firmware

/-- The initial values of the globals, for a given content of `settings`:
mode `INITIALISING`, the `EEPROM_24C512` at the default bus address, address
0 and length `sizeof(Settings) < 63 ? sizeof(Settings) : 63`. -/
def init (settings : List Nat) : Firmware :=
  { settings := settings
    mode := .INITIALISING
    eeprom := EepRom.new .EEPROM_24C512 0b1010000
    settingsAddress := 0
    settingsLength := (if settings.length < 63 then settings.length else 63) % 256 }

/-- `tud_hid_set_report_cb` for a feature report on the misc interface, case
`REPORT_ID_MODE`. `buffer` is the payload (`bufsize` its length),
`txFifoFree` the free space of the I²C transmit queue that `startReading` or
`startWriting` finds. -/
def set_report_MODE (d : Firmware) (buffer : List Nat) (txFifoFree : Nat) : Firmware :=
  if buffer.length ≠ 1 then d
  else if d.mode = .NORMAL ∧ buffer.getD 0 0 = Mode.MAINTENANCE.toByte then
    { d with mode := .MAINTENANCE }
  else if d.mode = .MAINTENANCE ∧ buffer.getD 0 0 = Mode.NORMAL.toByte then
    { d with mode := .NORMAL }
  else if d.mode = .MAINTENANCE ∧ buffer.getD 0 0 = Mode.LOADING_SETTINGS.toByte then
    { d with
      mode := .LOADING_SETTINGS
      eeprom := (d.eeprom.startReading d.settings 0 (toU32 d.settings.length) txFifoFree).2 }
  else if d.mode = .MAINTENANCE ∧ buffer.getD 0 0 = Mode.STORING_SETTINGS.toByte then
    { d with
      mode := .STORING_SETTINGS
      eeprom := (d.eeprom.startWriting d.settings 0 (toU32 d.settings.length) txFifoFree).2 }
  else d

/-- `tud_hid_set_report_cb` for a feature report on the misc interface, case
`REPORT_ID_SETTINGS_ADDRESS`. The `int` value assembled from the first four
bytes is converted to unsigned for the `%`. -/
def set_report_SETTINGS_ADDRESS (d : Firmware) (buffer : List Nat) : Firmware :=
  if buffer.length < 5 then d
  else
    let word := toU32 (buffer.getD 0 0 % 256 ||| (buffer.getD 1 0 % 256) <<< 8
      ||| (buffer.getD 2 0 % 256) <<< 16 ||| (buffer.getD 3 0 % 256) <<< 24)
    let settingsAddress := word % d.settings.length
    let settingsLength := buffer.getD 4 0 % 256
    let settingsLength :=
      if uadd settingsAddress settingsLength > d.settings.length then
        usub d.settings.length settingsAddress % 256
      else settingsLength
    { d with settingsAddress := settingsAddress, settingsLength := settingsLength }

/-- `tud_hid_set_report_cb` for a feature report on the misc interface, case
`REPORT_ID_SETTINGS_DATA`. -/
def set_report_SETTINGS_DATA (d : Firmware) (buffer : List Nat) : Firmware :=
  if buffer.length < d.settingsLength then d
  else
    let settings := storeBytes d.settings d.settingsAddress (buffer.take d.settingsLength)
    let settingsAddress := uadd d.settingsAddress d.settingsLength % d.settings.length
    let settingsLength :=
      if uadd settingsAddress d.settingsLength > d.settings.length then
        usub d.settings.length settingsAddress % 256
      else d.settingsLength
    { d with
      settings := settings
      settingsAddress := settingsAddress
      settingsLength := settingsLength }

/-- `tud_hid_get_report_cb` for a feature report on the misc interface, case
`REPORT_ID_SETTINGS_ADDRESS`: the return value and the bytes written to
`buffer`. -/
def get_report_SETTINGS_ADDRESS (d : Firmware) (reqlen : Nat) : Nat × List Nat :=
  if reqlen < 5 then (0, [])
  else
    (3, [d.settingsAddress &&& 0xff, (d.settingsAddress >>> 8) &&& 0xff,
      (d.settingsAddress >>> 16) &&& 0xff, (d.settingsAddress >>> 24) &&& 0xff,
      d.settingsLength])

/-- `tud_hid_get_report_cb` for a feature report on the misc interface, case
`REPORT_ID_SETTINGS_DATA`: the return value, the bytes written to `buffer`
and the globals afterwards. -/
def get_report_SETTINGS_DATA (d : Firmware) (reqlen : Nat) : Nat × List Nat × Firmware :=
  if reqlen < d.settingsLength then (0, [], d)
  else
    let buffer := loadBytes d.settings d.settingsAddress d.settingsLength
    let bytesSent := d.settingsLength
    let settingsAddress := uadd d.settingsAddress d.settingsLength % d.settings.length
    let settingsLength :=
      if uadd settingsAddress d.settingsLength > d.settings.length then
        usub d.settings.length settingsAddress % 256
      else d.settingsLength
    (bytesSent, buffer,
      { d with settingsAddress := settingsAddress, settingsLength := settingsLength })

/-- The report that the USB stack sends to the host for a callback result:
the first `length` bytes of the buffer. -/
def reportOfBuffer (result : Nat × List Nat) : List Nat := result.2.take result.1

/-- Successive `GET_REPORT` requests for the settings data, one per entry of
`reqlens` (the buffer length of that request): the bytes returned, one report
after the other, and the globals afterwards. -/
def readAll (d : Firmware) : List Nat → List Nat × Firmware
  | [] => ([], d)
  | reqlen :: reqlens =>
    ((d.get_report_SETTINGS_DATA reqlen).2.1.take (d.get_report_SETTINGS_DATA reqlen).1
        ++ (readAll (d.get_report_SETTINGS_DATA reqlen).2.2 reqlens).1,
      (readAll (d.get_report_SETTINGS_DATA reqlen).2.2 reqlens).2)

/-- One request that touches the settings window. -/
inductive Request where
  | setAddress (buffer : List Nat)
  | getData (reqlen : Nat)
  | setData (buffer : List Nat)

/-- The globals after one request. -/
def step (d : Firmware) : Request → Firmware
  | .setAddress buffer => d.set_report_SETTINGS_ADDRESS buffer
  | .getData reqlen => (d.get_report_SETTINGS_DATA reqlen).2.2
  | .setData buffer => d.set_report_SETTINGS_DATA buffer

/-- The globals after a sequence of requests. -/
def run (d : Firmware) (requests : List Request) : Firmware :=
  requests.foldl step d

end Firmware

/-! ## Rotary encoder: the chains of the state machine -/

namespace RotaryEncoder

/-- The value of `pins` with which a state is entered and held: `00` for
`N`, then `01`, `11`, `10` along the left chain and `10`, `11`, `01` along
the right chain. -/
def pattern : State → Nat
  | .N => 0b00
  | .L1 => 0b01
  | .L2 => 0b11
  | .L3 => 0b10
  | .R1 => 0b10
  | .R2 => 0b11
  | .R3 => 0b01

/-- The state that follows a state in its chain (`N` follows `L3` and
`R3`). -/
def next : State → State
  | .N => .N
  | .L1 => .L2
  | .L2 => .L3
  | .L3 => .N
  | .R1 => .R2
  | .R2 => .R3
  | .R3 => .N

/-- The state that precedes a state in its chain (`N` precedes `L1` and
`R1`). -/
def previous : State → State
  | .N => .N
  | .L1 => .N
  | .L2 => .L1
  | .L3 => .L2
  | .R1 => .N
  | .R2 => .R1
  | .R3 => .R2

end RotaryEncoder

/-! ## Macro list (`settingstools.h`) -/

/-- `MAX_ACTIVE_MACROS` -/
def MAX_ACTIVE_MACROS : Nat := 32

/-- One entry of the array `macros` of `MacroList`: the flag `occupied`, the
pointer to the macro (the member `macro`, here `macroRef`, as a number) and
the counter `tick`. -/
structure MacroSlot where
  occupied : Bool
  macroRef : Nat
  tick : Nat
  deriving DecidableEq, Repr

/-- `class MacroList`: the array `macros[MAX_ACTIVE_MACROS]`. -/
structure MacroList where
  macros : List MacroSlot
  deriving DecidableEq, Repr

namespace MacroList

/-- Modelled from the spec: the search of `MacroList::add` through the
slots, lowest index first ("inserts into the first free pool slot"): the
slots with the macro put into the first free one, at tick 0, or `none` when
there is no free slot. -/
def addTo (macroRef : Nat) : List MacroSlot → Option (List MacroSlot)
  | [] => none
  | slot :: slots =>
    if slot.occupied then (addTo macroRef slots).map (fun rest => slot :: rest)
    else some (⟨true, macroRef, 0⟩ :: slots)

/-- Modelled from the spec: `MacroList::add`, which `settingstools.h`
declares and documents ("Returns true if the macro was successfully added,
false if the list is full") and whose body is in a file that is not among
the sources. The spec: "`add(macro)` inserts into the first free pool slot;
silently drops on a full pool". Returns the return value and the list
afterwards. -/
def add (l : MacroList) (macroRef : Nat) : Bool × MacroList :=
  match addTo macroRef l.macros with
  | none => (false, l)
  | some macros => (true, ⟨macros⟩)

end MacroList

/-- The number that a sequence of transmitted bytes encodes, most
significant byte first. -/
def bytesValue (cmds : List DataCmd) : Nat :=
  cmds.foldl (fun v c => v * 256 + c.dat) 0

namespace EepRom

/-- One thing that happens to a channel: a call of `startReading`,
`startWriting` or `cancel`, or an interrupt (transfer complete, abort, retry
alarm). -/
inductive Call where
  | startReading (dest : List Nat) (memAddress length txFifoFree : Nat)
  | startWriting (src : List Nat) (memAddress length txFifoFree : Nat)
  | irq (irq : Irq)
  | cancel
  deriving DecidableEq, Repr

/-- The channel after one call or interrupt. -/
def perform (s : EepRom) : Call → EepRom
  | .startReading dest memAddress length txFifoFree =>
    (s.startReading dest memAddress length txFifoFree).2
  | .startWriting src memAddress length txFifoFree =>
    (s.startWriting src memAddress length txFifoFree).2
  | .irq irq => s.handle irq
  | .cancel => s.cancel

/-- The channel after a sequence of calls and interrupts. -/
def runCalls (s : EepRom) (calls : List Call) : EepRom :=
  calls.foldl perform s

end EepRom

/-- `k` payload words without STOP carrying the bytes `src[o] … src[o + k − 1]`. -/
def plainWords (src : List Nat) (o k : Nat) : List DataCmd :=
  (List.range k).map fun i => ⟨false, false, false, src.getD (o + i) 0⟩

/-- The bus transaction that writes the `k > 0` bytes `src[o] … src[o + k − 1]`
at the memory address `A + o`: the address bytes of `A + o`, then the bytes in
order, STOP on the last one. -/
def specTransaction (addressBytes A : Nat) (src : List Nat) (o k : Nat) : List DataCmd :=
  EepRom.addressCmds addressBytes (A + o) ++ plainWords src o (k - 1)
    ++ [⟨false, true, false, src.getD (o + (k - 1)) 0⟩]

/-- The bus transactions that write `src` from offset `o` on in chunks of the
lengths `ks`, one transaction per chunk. -/
def specTransactions (addressBytes A : Nat) (src : List Nat) :
    Nat → List Nat → List (List DataCmd)
  | _, [] => []
  | o, k :: ks =>
    specTransaction addressBytes A src o k :: specTransactions addressBytes A src (o + k) ks

/-- The payload bytes of a list of bus transactions, in order: the data
bytes of the words that follow the address bytes of each transaction. -/
def payloadBytes (addressBytes : Nat) (txns : List (List DataCmd)) : List Nat :=
  (txns.map fun txn => (txn.drop addressBytes).map DataCmd.dat).flatten

end MacroPad

/-! # Theorems -/

namespace MacroPad

open EepRom

/-! ## EEPROM: parameter check of `startReading` / `startWriting` -/

theorem getCapacity_eq (type : EepRomType) :
    getCapacity type = 2 ^ (PARAMS type).addressBits := by
  cases type <;> rfl

theorem getCapacity_le (type : EepRomType) : getCapacity type ≤ 131072 := by
  cases type <;> decide

theorem getCapacity_pos (type : EepRomType) : 0 < getCapacity type := by
  cases type <;> decide

/-- When `memAddress + length` does not wrap, the parameter check trims the
length exactly as the specification says. -/
theorem checkedLength_of_no_wrap (type : EepRomType) (A L : Nat)
    (h : A + L < 2 ^ 32) :
    checkedLength type A L = specEffectiveLength type A L := by
  have hc := getCapacity_le type
  unfold checkedLength specEffectiveLength checkParameters uadd usub U32
  simp only []
  split_ifs <;> simp_all <;> omega

/-- A request at the capacity whose end does not wrap, or anywhere past the
capacity, does not pass the parameter check. -/
theorem checkParameters_past_end (type : EepRomType) (A L : Nat)
    (h : A > getCapacity type ∨ (A = getCapacity type ∧ A + L < 2 ^ 32)) :
    checkParameters type A L = none := by
  have hc := getCapacity_le type
  unfold checkParameters uadd usub U32
  simp only []
  split_ifs <;> simp_all <;> omega

theorem startReading_of_none (s : EepRom) (dest : List Nat) (A L F : Nat)
    (h : checkParameters s.type A L = none) :
    s.startReading dest A L F = (true, s) := by
  simp [startReading, h]

theorem startWriting_of_none (s : EepRom) (src : List Nat) (A L F : Nat)
    (h : checkParameters s.type A L = none) :
    s.startWriting src A L F = (true, s) := by
  simp [startWriting, h]

theorem startReading_of_some (s : EepRom) (dest : List Nat) (A L F l : Nat)
    (h : checkParameters s.type A L = some l) (hs : s.state = State.IDLE) :
    s.startReading dest A L F
      = (true, readFillTxFifo
          { s with op := ⟨dest, l, A, 0, 0⟩, result := Result.ONGOING } F) := by
  simp [startReading, h, hs]

theorem startWriting_of_some (s : EepRom) (src : List Nat) (A L F l : Nat)
    (h : checkParameters s.type A L = some l) (hs : s.state = State.IDLE) :
    s.startWriting src A L F
      = (true, writeFillTxFifo
          { s with op := ⟨src, l, A, 0, 0⟩, result := Result.ONGOING } F) := by
  simp [startWriting, h, hs]

theorem sendAddress_op (s : EepRom) (a : Nat) : (s.sendAddress a).op = s.op := rfl

theorem readFillTxFifo_length (s : EepRom) (F : Nat) :
    (s.readFillTxFifo F).op.length = s.op.length := by
  unfold readFillTxFifo
  dsimp only
  split_ifs <;> rfl

theorem writeFillTxFifo_length (s : EepRom) (F : Nat) :
    (s.writeFillTxFifo F).op.length = s.op.length := by
  unfold writeFillTxFifo
  dsimp only
  split_ifs <;> rfl

/-- C2 (evaluation at the failing input): on an idle 24C01 channel
(capacity 128) a request of 4294967295 bytes at address 1 is recorded with
its full length by both `startReading` and `startWriting`, because
`memAddress + length` wraps to 0 in 32-bit arithmetic; the
capacity-truncated length would be 127. -/
theorem C2_length_not_trimmed_when_sum_wraps :
    ((EepRom.new .EEPROM_24C01 0x50).startReading [] 1 4294967295 16).2.op.length
        = 4294967295
      ∧ ((EepRom.new .EEPROM_24C01 0x50).startWriting [] 1 4294967295 16).2.op.length
        = 4294967295
      ∧ specEffectiveLength .EEPROM_24C01 1 4294967295 = 127 := by
  have hcp : checkParameters (EepRom.new .EEPROM_24C01 0x50).type 1 4294967295
      = some 4294967295 := by decide
  refine ⟨?_, ?_, by decide⟩
  · rw [startReading_of_some _ _ _ _ _ _ hcp rfl, readFillTxFifo_length]
  · rw [startWriting_of_some _ _ _ _ _ _ hcp rfl, writeFillTxFifo_length]

/-- A request whose start address is past the capacity, or at the capacity
with `memAddress + length` not wrapping: `startReading` and `startWriting`
return `true` and leave the channel as it was, its transmit queue and its
result included; the blocking `read` and `write` then only wait on the
channel as it stands, so they return the result the channel had before
whenever that is not `ONGOING`. -/
theorem request_past_end_is_no_op (s : EepRom) (buf : List Nat) (A L F : Nat)
    (irqs : List Irq)
    (h : A > getCapacity s.type ∨ (A = getCapacity s.type ∧ A + L < 2 ^ 32)) :
    s.startReading buf A L F = (true, s)
      ∧ s.startWriting buf A L F = (true, s)
      ∧ s.read buf A L F irqs = s.waitResult irqs
      ∧ s.write buf A L F irqs = s.waitResult irqs
      ∧ (s.result ≠ Result.ONGOING →
          s.read buf A L F irqs = some (s.result, s)
            ∧ s.write buf A L F irqs = some (s.result, s)) := by
  have hn := checkParameters_past_end s.type A L h
  have hr := startReading_of_none s buf A L F hn
  have hw := startWriting_of_none s buf A L F hn
  have hwait : s.result ≠ Result.ONGOING → s.waitResult irqs = some (s.result, s) := by
    intro hres
    cases irqs <;> simp [waitResult, getResult, hres]
  refine ⟨hr, hw, ?_, ?_, ?_⟩
  · simp [EepRom.read, hr]
  · simp [EepRom.write, hw]
  · intro hres
    simp [EepRom.read, EepRom.write, hr, hw, hwait hres]

/-- C3 (evaluation at the failing input): on a 24C01 channel (capacity 128)
`startReading` and `startWriting` of one byte at address 128 return `true`
and change nothing, but the blocking `read` and `write` return the result
that the channel had before: `Result::NONE` on a freshly constructed channel
and `Result::CANCELLED` after a `cancel`, not `Result::SUCCESS`. -/
theorem C3_blocking_call_past_end_returns_earlier_result :
    (EepRom.new .EEPROM_24C01 0x50).startReading [] 128 1 16
        = (true, EepRom.new .EEPROM_24C01 0x50)
      ∧ (EepRom.new .EEPROM_24C01 0x50).startWriting [0] 128 1 16
        = (true, EepRom.new .EEPROM_24C01 0x50)
      ∧ (EepRom.new .EEPROM_24C01 0x50).read [] 128 1 16 []
        = some (Result.NONE, EepRom.new .EEPROM_24C01 0x50)
      ∧ (EepRom.new .EEPROM_24C01 0x50).write [0] 128 1 16 []
        = some (Result.NONE, EepRom.new .EEPROM_24C01 0x50)
      ∧ (EepRom.new .EEPROM_24C01 0x50).cancel.read [] 128 1 16 []
        = some (Result.CANCELLED, (EepRom.new .EEPROM_24C01 0x50).cancel)
      ∧ (EepRom.new .EEPROM_24C01 0x50).cancel.write [0] 128 1 16 []
        = some (Result.CANCELLED, (EepRom.new .EEPROM_24C01 0x50).cancel) := by
  refine ⟨?_, ?_, ?_, ?_, ?_, ?_⟩ <;> rfl

/-- In terms of the length that the driver's parameter check leaves:
`startReading` and `startWriting` return `false` exactly when that length is
non-zero and the state is not `IDLE`; when they return `false`, and when
that length is zero (they then return `true`), the whole channel (buffer,
address, length, byte counters, state, result, registers) is unchanged. When
`memAddress + length` does not wrap, that length is the capacity-truncated
length of the specification. -/
theorem start_fails_iff_busy (s : EepRom) (buf : List Nat) (A L F : Nat) :
    ((s.startReading buf A L F).1 = false
        ↔ (checkedLength s.type A L ≠ 0 ∧ s.state ≠ State.IDLE))
      ∧ ((s.startWriting buf A L F).1 = false
        ↔ (checkedLength s.type A L ≠ 0 ∧ s.state ≠ State.IDLE))
      ∧ ((s.startReading buf A L F).1 = false ∨ checkedLength s.type A L = 0 →
          (s.startReading buf A L F).2 = s)
      ∧ ((s.startWriting buf A L F).1 = false ∨ checkedLength s.type A L = 0 →
          (s.startWriting buf A L F).2 = s)
      ∧ (checkedLength s.type A L = 0 →
          (s.startReading buf A L F).1 = true ∧ (s.startWriting buf A L F).1 = true)
      ∧ (A + L < 2 ^ 32 →
          checkedLength s.type A L = specEffectiveLength s.type A L) := by
  have hsome : ∀ l, checkParameters s.type A L = some l → l ≠ 0 := by
    intro l hl
    unfold checkParameters at hl
    simp only [] at hl
    split_ifs at hl <;> simp_all
  unfold checkedLength
  cases hcp : checkParameters s.type A L with
  | none =>
    simp [startReading, startWriting, hcp]
    intro h
    have := checkedLength_of_no_wrap s.type A L h
    simpa [checkedLength, hcp] using this
  | some l =>
    have hl := hsome l hcp
    by_cases hst : s.state = State.IDLE
    · simp [startReading, startWriting, hcp, hst, hl]
      intro h
      have := checkedLength_of_no_wrap s.type A L h
      simpa [checkedLength, hcp] using this
    · simp [startReading, startWriting, hcp, hst, hl]
      intro h
      have := checkedLength_of_no_wrap s.type A L h
      simpa [checkedLength, hcp] using this

/-! ## EEPROM: the fill step of a write -/

/-- The steps of `writeFillPlan`, one equation per local variable. -/
theorem writeFillPlan_cases (ty : EepRomType) (op : Op) (F : Nat) (Q : FillPlan → Prop)
    (h : ∀ (cur len0 len1 len2 : Nat) (starting reachesEnd reachesPage : Bool),
      cur = uadd op.memAddress op.bytesTransmitted →
      starting = (if cur % (PARAMS ty).pageSize = 0 then true
        else decide (op.bytesTransmitted = 0)) →
      len0 = (if starting = true then usub F (PARAMS ty).addressBytes else F) →
      reachesEnd = decide (uadd cur len0 ≥ uadd op.memAddress op.length) →
      len1 = (if reachesEnd = true then usub (uadd op.memAddress op.length) cur else len0) →
      reachesPage = decide (uadd cur len1 / (PARAMS ty).pageSize > cur / (PARAMS ty).pageSize) →
      len2 = (if reachesPage = true then usub (PARAMS ty).pageSize (cur % (PARAMS ty).pageSize)
        else len1) →
      Q ⟨starting, if reachesPage = true then true else reachesEnd, len2⟩) :
    Q (writeFillPlan ty op F) :=
  h _ _ _ _ _ _ _ rfl rfl rfl rfl rfl rfl rfl

set_option maxHeartbeats 4000000 in
theorem writeFillPlan_spec (ty : EepRomType) (op : Op)
    (ht : op.bytesTransmitted < op.length)
    (hcap : op.memAddress + op.length ≤ getCapacity ty) :
    ((writeFillPlan ty op 16).starting = true ↔
        (op.bytesTransmitted = 0
          ∨ (op.memAddress + op.bytesTransmitted) % (PARAMS ty).pageSize = 0))
      ∧ 0 < (writeFillPlan ty op 16).len
      ∧ op.bytesTransmitted + (writeFillPlan ty op 16).len ≤ op.length
      ∧ op.memAddress + op.bytesTransmitted + (writeFillPlan ty op 16).len
          ≤ ((op.memAddress + op.bytesTransmitted) / (PARAMS ty).pageSize + 1)
              * (PARAMS ty).pageSize
      ∧ (writeFillPlan ty op 16).len
          + (if (writeFillPlan ty op 16).starting then (PARAMS ty).addressBytes else 0) ≤ 16
      ∧ ((writeFillPlan ty op 16).stopping = true ↔
          (op.bytesTransmitted + (writeFillPlan ty op 16).len = op.length
            ∨ (op.memAddress + op.bytesTransmitted + (writeFillPlan ty op 16).len)
                % (PARAMS ty).pageSize = 0)) := by
  obtain ⟨data, L, A, e, t⟩ := op
  simp only at ht hcap
  have hc := getCapacity_le ty
  have hcap2 : A + L ≤ 131072 := le_trans hcap hc
  clear hcap hc
  apply writeFillPlan_cases ty _ 16
    (fun pl => (pl.starting = true ↔ (t = 0 ∨ (A + t) % (PARAMS ty).pageSize = 0))
      ∧ 0 < pl.len ∧ t + pl.len ≤ L
      ∧ A + t + pl.len ≤ ((A + t) / (PARAMS ty).pageSize + 1) * (PARAMS ty).pageSize
      ∧ pl.len + (if pl.starting then (PARAMS ty).addressBytes else 0) ≤ 16
      ∧ (pl.stopping = true ↔
          (t + pl.len = L ∨ (A + t + pl.len) % (PARAMS ty).pageSize = 0)))
  intro cur len0 len1 len2 starting reachesEnd reachesPage hcur hs hl0 hre hl1 hrp hl2
  simp only at hcur hs hl0 hre hl1 hrp hl2 ⊢
  have hcur2 : cur = A + t := by rw [hcur]; unfold uadd U32; omega
  subst hcur2
  have hAL : uadd A L = A + L := by unfold uadd U32; omega
  rw [hAL] at hre hl1
  have hl0b : 14 ≤ len0 ∧ len0 ≤ 16 := by
    cases ty <;> simp only [PARAMS, usub, U32] at hl0 <;> split_ifs at hl0 <;> omega
  have h1 : uadd (A + t) len0 = A + t + len0 := by unfold uadd U32; omega
  have h2 : usub (A + L) (A + t) = L - t := by unfold usub U32; omega
  rw [h1] at hre
  rw [h2] at hl1
  have hl1b : 1 ≤ len1 ∧ len1 ≤ 16 := by
    rw [hl1]; split_ifs with hc
    · rw [hre] at hc; simp only [decide_eq_true_eq, ge_iff_le] at hc; omega
    · omega
  have h3 : uadd (A + t) len1 = A + t + len1 := by unfold uadd U32; omega
  rw [h3] at hrp
  have hs2 : starting = true ↔ ((A + t) % (PARAMS ty).pageSize = 0 ∨ t = 0) := by
    rw [hs]; split_ifs with hc <;> simp [hc]
  have hre2 : reachesEnd = true ↔ A + L ≤ A + t + len0 := by
    rw [hre]; simp
  have hrp2 : reachesPage = true ↔
      (A + t + len1) / (PARAMS ty).pageSize > (A + t) / (PARAMS ty).pageSize := by
    rw [hrp]; simp
  have hst2 : (if reachesPage = true then true else reachesEnd) = true ↔
      (reachesPage = true ∨ reachesEnd = true) := by
    cases reachesPage <;> cases reachesEnd <;> simp
  simp only [hs2] at hl0
  simp only [hre2] at hl1
  simp only [hrp2] at hl2
  rw [hst2]
  simp only [hs2, hrp2, hre2]
  clear hs hre hrp hcur hAL h1 h2 h3 hs2 hre2 hrp2 hst2
  subst hl2
  have hP : (PARAMS ty).pageSize = 8 ∨ (PARAMS ty).pageSize = 16 ∨ (PARAMS ty).pageSize = 32
      ∨ (PARAMS ty).pageSize = 64 ∨ (PARAMS ty).pageSize = 128 := by
    cases ty <;> simp [PARAMS]
  have hnb : (PARAMS ty).addressBytes = 1 ∨ (PARAMS ty).addressBytes = 2 := by
    cases ty <;> simp [PARAMS]
  generalize (PARAMS ty).pageSize = P at *
  generalize (PARAMS ty).addressBytes = nb at *
  have hu : ∀ x, x ≤ 16 → 0 < x → usub 16 x = 16 - x := by
    intro x h1 h2; unfold usub U32; omega
  have hu2 : usub P ((A + t) % P) = P - (A + t) % P := by
    unfold usub U32
    rcases hP with h | h | h | h | h <;> subst h <;> omega
  rw [hu2]
  rw [hu nb (by omega) (by omega)] at hl0
  rcases hP with h | h | h | h | h <;> subst h <;> split_ifs at hl0 hl1 ⊢ <;>
    refine ⟨?_, ?_, ?_, ?_, ?_, ?_⟩ <;> omega

theorem writeFillPlan_congr (ty : EepRomType) (op : Op) (e : Nat) (F : Nat) :
    writeFillPlan ty { op with bytesEnqueued := e } F = writeFillPlan ty op F := rfl

/-- What a fill step of an unfinished write does to the channel, with the
transmit queue empty beforehand. -/
theorem writeFillTxFifo_unfinished (s : EepRom) (F : Nat)
    (h : s.op.bytesTransmitted ≠ s.op.length) :
    s.writeFillTxFifo F =
      { s with
        enable := if (writeFillPlan s.type s.op F).starting then true else s.enable
        tar := if (writeFillPlan s.type s.op F).starting
          then s.calcI2cAddress (uadd s.op.memAddress s.op.bytesTransmitted) else s.tar
        txFifo := s.txFifo
          ++ (if (writeFillPlan s.type s.op F).starting
              then addressCmds (PARAMS s.type).addressBytes
                (uadd s.op.memAddress s.op.bytesTransmitted) else [])
          ++ payloadCmds s.op.data s.op.bytesEnqueued
              (writeFillPlan s.type s.op F).stopping (writeFillPlan s.type s.op F).len
        op := { s.op with
          bytesEnqueued := uadd s.op.bytesEnqueued (writeFillPlan s.type s.op F).len }
        state := State.WRITE_TRANSMITTING
        i2cIrqInst := true
        intr_mask := ⟨false, true, true⟩
        irqEnabled := true } := by
  unfold writeFillTxFifo
  rw [if_neg h]
  dsimp only
  split_ifs with hs
  · simp [sendAddress]
  · simp

theorem writeFillTxFifo_finished (s : EepRom) (F : Nat)
    (h : s.op.bytesTransmitted = s.op.length) :
    s.writeFillTxFifo F =
      { s with state := State.IDLE, result := Result.SUCCESS, enable := false } := by
  unfold writeFillTxFifo
  rw [if_pos h]

/-- The transfer-complete interrupt of a write in progress: the counter of
transmitted bytes catches up and the next fill step runs. -/
theorem handle_txEmptyIrq (s : EepRom) (hs : s.state = State.WRITE_TRANSMITTING)
    (hi : s.irqEnabled = true) (hq : s.i2cIrqInst = true) :
    s.handle txEmptyIrq =
      writeFillTxFifo
        { s with
          txFifo := []
          irqEnabled := false
          intr_mask := ⟨false, false, false⟩
          i2cIrqInst := false
          op := { s.op with bytesTransmitted := s.op.bytesEnqueued } } 16 := by
  simp [handle, txEmptyIrq, i2cCallbackHelper, i2cCallback, hs, hi, hq]

theorem handle_irq_disabled (s : EepRom) (irq : Irq) (hi : s.irqEnabled = false)
    (ha : s.alarm = false) : s.handle irq = s := by
  cases irq <;> simp [handle, hi, ha]


theorem handle_txEmptyIrq_disabled (s : EepRom) (hi : s.irqEnabled = false) :
    s.handle txEmptyIrq = s := by
  simp [handle, txEmptyIrq, hi]

theorem checkParameters_in_range (ty : EepRomType) (A L : Nat) (hL : 0 < L)
    (hcap : A + L ≤ getCapacity ty) : checkParameters ty A L = some L := by
  have hc := getCapacity_le ty
  unfold checkParameters uadd usub U32
  simp only []
  split_ifs <;> simp_all <;> omega

/-- A fill step of a write that starts with an empty transmit queue and
with all enqueued bytes transmitted. -/
theorem fill_step_ok (s : EepRom) (src : List Nat) (A L e : Nat)
    (hop : s.op = ⟨src, L, A, e, e⟩) (he : e < L) (hcap : A + L ≤ getCapacity s.type)
    (hq : s.txFifo = []) :
    (s.writeFillTxFifo 16).type = s.type
      ∧ (s.writeFillTxFifo 16).i2cAddress = s.i2cAddress
      ∧ (s.writeFillTxFifo 16).op.data = src
      ∧ (s.writeFillTxFifo 16).op.memAddress = A
      ∧ (s.writeFillTxFifo 16).op.length = L
      ∧ (s.writeFillTxFifo 16).op.bytesTransmitted = e
      ∧ (s.writeFillTxFifo 16).state = State.WRITE_TRANSMITTING
      ∧ (s.writeFillTxFifo 16).irqEnabled = true
      ∧ (s.writeFillTxFifo 16).i2cIrqInst = true
      ∧ (s.writeFillTxFifo 16).result = s.result
      ∧ (s.writeFillTxFifo 16).op.bytesEnqueued = e + (writeFillPlan s.type s.op 16).len
      ∧ (s.writeFillTxFifo 16).txFifo
          = (if (writeFillPlan s.type s.op 16).starting
              then addressCmds (PARAMS s.type).addressBytes (A + e) else [])
            ++ payloadCmds src e (writeFillPlan s.type s.op 16).stopping
                (writeFillPlan s.type s.op 16).len
      ∧ ((writeFillPlan s.type s.op 16).starting = true →
          (s.writeFillTxFifo 16).tar = s.calcI2cAddress (A + e)
            ∧ (s.writeFillTxFifo 16).enable = true) := by
  have hc := getCapacity_le s.type
  have hne : s.op.bytesTransmitted ≠ s.op.length := by rw [hop]; simp; omega
  have hsp := writeFillPlan_spec s.type s.op (by rw [hop]; exact he) (by rw [hop]; exact hcap)
  rw [writeFillTxFifo_unfinished s 16 hne]
  have hu : uadd A e = A + e := by unfold uadd U32; omega
  have hlen : (writeFillPlan s.type s.op 16).len ≤ 16 := by omega
  have hu2 : uadd e (writeFillPlan s.type s.op 16).len
      = e + (writeFillPlan s.type s.op 16).len := by
    unfold uadd U32; omega
  simp only [hq, hop, hu, hu2, List.nil_append] at hsp ⊢
  refine ⟨trivial, trivial, trivial, trivial, trivial, trivial, trivial, trivial, trivial,
    trivial, ?_, trivial, ?_⟩
  · rw [← hop]; exact hu2
  · intro h
    simp [h]



theorem calcI2cAddress_congr (s s2 : EepRom) (a : Nat) (h1 : s2.type = s.type)
    (h2 : s2.i2cAddress = s.i2cAddress) : s2.calcI2cAddress a = s.calcI2cAddress a := by
  unfold calcI2cAddress
  rw [h1, h2]

/-- A fill step on a channel whose request is the write of `src` at `A`,
with `e < L` bytes transmitted and the queue empty, leaves the channel in a
state satisfying the invariant. -/
theorem fill_step_inv (s s2 : EepRom) (src : List Nat) (A L e : Nat)
    (hty : s2.type = s.type) (hia : s2.i2cAddress = s.i2cAddress)
    (hop : s2.op = ⟨src, L, A, e, e⟩) (he : e < L) (hcap : A + L ≤ getCapacity s.type)
    (hq : s2.txFifo = []) (hres : s2.result = Result.ONGOING) :
    WriteInv s src A L (s2.writeFillTxFifo 16) := by
  have hf := fill_step_ok s2 src A L e hop he (by rw [hty]; exact hcap) hq
  obtain ⟨h1, h2, h3, h4, h5, h6, h7, h8, h9, h10, h11, h12, h13⟩ := hf
  have hpl : writeFillPlan s.type (s2.writeFillTxFifo 16).op 16
      = writeFillPlan s2.type s2.op 16 := by
    rw [hty]
    have : (s2.writeFillTxFifo 16).op
        = { s2.op with bytesEnqueued := (s2.writeFillTxFifo 16).op.bytesEnqueued } := by
      rw [hop]
      cases hx : (s2.writeFillTxFifo 16).op
      rw [hx] at h3 h4 h5 h6
      simp only at h3 h4 h5 h6
      simp [h3, h4, h5, h6]
    rw [this, writeFillPlan_congr]
  refine ⟨h1.trans hty, h2.trans hia, h3, h4, h5, Or.inr ⟨⟨h7, h8, h9, ?_, ?_, ?_, ?_⟩, ?_⟩⟩
  · rw [h6]; exact he
  · rw [hpl, h6]; exact h11
  · rw [hpl, h6, ← hty]; exact h12
  · rw [hpl, h6]
    intro h
    rw [← calcI2cAddress_congr s s2 _ hty hia]
    exact h13 h
  · rw [h10]; exact hres

/-- The invariant holds after `startWriting` and any number of
transfer-complete interrupts. -/
theorem write_run_invariant (s : EepRom) (src : List Nat) (A L : Nat)
    (hidle : s.state = State.IDLE) (hq : s.txFifo = []) (hL : 0 < L)
    (hcap : A + L ≤ getCapacity s.type) (n : Nat) :
    WriteInv s src A L (afterTxEmpty (s.startWriting src A L 16).2 n) := by
  induction n with
  | zero =>
    rw [startWriting_of_some s src A L 16 L (checkParameters_in_range s.type A L hL hcap) hidle]
    exact fill_step_inv s { s with op := ⟨src, L, A, 0, 0⟩, result := Result.ONGOING }
      src A L 0 rfl rfl rfl hL hcap hq rfl
  | succ n ih =>
    simp only [afterTxEmpty]
    generalize afterTxEmpty (s.startWriting src A L 16).2 n = sn at ih
    obtain ⟨hty, hia, hd, hm, hl, hp⟩ := ih
    rcases hp with ⟨hst, hirq, hres⟩ | ⟨⟨hst, hirq, hinst, hun, hbe, -, -⟩, hres⟩
    · rw [handle_txEmptyIrq_disabled sn hirq]
      exact ⟨hty, hia, hd, hm, hl, Or.inl ⟨hst, hirq, hres⟩⟩
    · rw [handle_txEmptyIrq sn hst hirq hinst]
      have hsp := writeFillPlan_spec s.type sn.op (by rw [hl]; exact hun)
        (by rw [hm, hl]; exact hcap)
      have hle : sn.op.bytesEnqueued ≤ L := by rw [hbe, ← hl]; exact hsp.2.2.1
      rcases Nat.lt_or_ge sn.op.bytesEnqueued L with hlt | hge
      · refine fill_step_inv s _ src A L sn.op.bytesEnqueued hty hia ?_ hlt hcap rfl hres
        simp [hd, hm, hl]
      · have heq : sn.op.bytesEnqueued = L := le_antisymm hle hge
        rw [writeFillTxFifo_finished _ 16 (by simp [heq, hl])]
        exact ⟨hty, hia, hd, hm, hl, Or.inl ⟨rfl, rfl, rfl⟩⟩

theorem write_60_70_example (ty : EepRomType) (i2cAddress : Nat) (src : List Nat)
    (hnb : (PARAMS ty).addressBytes = 2) (hP : (PARAMS ty).pageSize = 64) :
    (((EepRom.new ty i2cAddress).startWriting src 60 70 16).2.txFifo
        = [⟨false, false, false, 0⟩, ⟨false, false, false, 60⟩,
            ⟨false, false, false, src.getD 0 0⟩, ⟨false, false, false, src.getD 1 0⟩,
            ⟨false, false, false, src.getD 2 0⟩, ⟨false, true, false, src.getD 3 0⟩])
    ∧ (afterTxEmpty ((EepRom.new ty i2cAddress).startWriting src 60 70 16).2 1).txFifo.take 2
        = [⟨false, false, false, 0⟩, ⟨false, false, false, 64⟩]
    ∧ (afterTxEmpty ((EepRom.new ty i2cAddress).startWriting src 60 70 16).2 1).op.bytesTransmitted = 4 
    ∧ (afterTxEmpty ((EepRom.new ty i2cAddress).startWriting src 60 70 16).2 1).tar = i2cAddress := by
  have hpl0 : ∀ e, writeFillPlan ty ⟨src, 70, 60, e, 0⟩ 16 = ⟨true, true, 4⟩ := by
    intro e; cases ty <;> simp [PARAMS] at hnb hP <;> simp [writeFillPlan, PARAMS, uadd, usub, U32]
  have hpl1 : ∀ e, writeFillPlan ty ⟨src, 70, 60, e, 4⟩ 16 = ⟨true, false, 14⟩ := by
    intro e; cases ty <;> simp [PARAMS] at hnb hP <;> simp [writeFillPlan, PARAMS, uadd, usub, U32]
  have hcp : checkParameters ty 60 70 = some 70 := by
    cases ty <;> simp [PARAMS] at hnb hP <;> decide
  have hcalc : ∀ (s : EepRom) a, s.type = ty → s.calcI2cAddress a = s.i2cAddress := by
    intro s a h; unfold calcI2cAddress; rw [h]
    cases ty <;> simp [PARAMS] at hnb hP <;> simp [PARAMS]
  have h0 : ((EepRom.new ty i2cAddress).startWriting src 60 70 16).2
      = { EepRom.new ty i2cAddress with
          op := ⟨src, 70, 60, 4, 0⟩, result := Result.ONGOING, enable := true
          tar := i2cAddress
          txFifo := addressCmds 2 60 ++ payloadCmds src 0 true 4
          state := State.WRITE_TRANSMITTING, i2cIrqInst := true
          intr_mask := ⟨false, true, true⟩, irqEnabled := true } := by
    rw [startWriting_of_some _ src 60 70 16 70 hcp rfl]
    rw [writeFillTxFifo_unfinished _ _ (by simp)]
    simp [EepRom.new, hpl0, hnb, uadd, U32, hcalc]
  rw [h0]
  refine ⟨rfl, ?_, ?_, ?_⟩
  all_goals
    simp only [afterTxEmpty]
    rw [handle_txEmptyIrq _ rfl rfl rfl]
    rw [writeFillTxFifo_unfinished _ _ (by simp)]
    try simp [EepRom.new, hpl1, hnb, uadd, U32, hcalc, addressCmds, List.range, List.range.loop,
      (by decide : 64 &&& 255 = 64)]

theorem addressCmds_length (nb a : Nat) : (addressCmds nb a).length = nb := by
  simp [addressCmds]

theorem payloadCmds_getLast (src : List Nat) (t len : Nat) (h1 : 0 < len) (h2 : len ≤ 16) :
    (payloadCmds src t true len).getLast?.map DataCmd.stop = some true := by
  obtain ⟨k, rfl⟩ : ∃ k, len = k + 1 := ⟨len - 1, by omega⟩
  have hu : usub (k + 1) 1 = k := by unfold usub U32; omega
  simp [payloadCmds, List.range_succ, hu]

theorem bool_eq_decide (b : Bool) (p : Prop) [Decidable p] (h : b = true ↔ p) :
    b = decide p := by
  cases b <;> simp_all

/-! ## EEPROM: the bus transactions of a write -/

theorem transactionsFrom_append_of_no_stop (xs ys : List DataCmd) :
    ∀ acc : List DataCmd, (∀ c ∈ xs, c.stop = false) →
      transactionsFrom acc (xs ++ ys) = transactionsFrom (acc ++ xs) ys := by
  induction xs with
  | nil => intro acc _; simp
  | cons x xs ih =>
    intro acc h
    have hx : x.stop = false := h x (by simp)
    have e : transactionsFrom acc (x :: (xs ++ ys))
        = transactionsFrom (acc ++ [x]) (xs ++ ys) := by
      simp [transactionsFrom, hx]
    rw [List.cons_append, e, ih (acc ++ [x]) (fun c hc => h c (by simp [hc]))]
    simp

theorem transactionsFrom_append_stop (xs ys : List DataCmd) (c : DataCmd)
    (acc : List DataCmd) (h : ∀ c ∈ xs, c.stop = false) (hc : c.stop = true) :
    transactionsFrom acc (xs ++ c :: ys)
      = (acc ++ xs ++ [c]) :: transactionsFrom [] ys := by
  rw [transactionsFrom_append_of_no_stop xs (c :: ys) acc h]
  simp [transactionsFrom, hc]

theorem addressCmds_no_stop (nb a : Nat) : ∀ c ∈ addressCmds nb a, c.stop = false := by
  intro c hc
  simp only [addressCmds, List.mem_map] at hc
  obtain ⟨i, _, rfl⟩ := hc
  rfl

/-- The payload words of a fill step: all but the last without STOP, the
last with STOP exactly when the step stops. -/
theorem payloadCmds_split (src : List Nat) (t : Nat) (st : Bool) (k : Nat) (hk : k < 16) :
    ∃ init last, payloadCmds src t st (k + 1) = init ++ [last] ∧ init.length = k
      ∧ (∀ c ∈ init, c.stop = false) ∧ last.stop = st := by
  have hu : usub (k + 1) 1 = k := by unfold usub U32; omega
  refine ⟨(List.range k).map fun i => ⟨false, false, false, src.getD (t + i) 0⟩,
    ⟨false, st, false, src.getD (t + k) 0⟩, ?_, by simp, ?_, rfl⟩
  · unfold payloadCmds
    rw [List.range_succ, List.map_append, hu]
    have e1 : (List.range k).map
          (fun i => (⟨false, st && decide (i = k), false, src.getD (t + i) 0⟩ : DataCmd))
        = (List.range k).map fun i => ⟨false, false, false, src.getD (t + i) 0⟩ := by
      apply List.map_congr_left
      intro i hi
      have : i ≠ k := by
        have := List.mem_range.mp hi
        omega
      simp [this]
    rw [e1]
    simp
  · intro c hc
    simp only [List.mem_map] at hc
    obtain ⟨i, _, rfl⟩ := hc
    rfl

/-- One transfer-complete interrupt on a channel satisfying the invariant:
an idle channel stays as it is; a channel with a fill step in flight either
finds the write complete and becomes idle, or runs the next fill step, which
begins where the previous one ended. -/
theorem write_inv_handle (s : EepRom) (src : List Nat) (A L : Nat)
    (hcap : A + L ≤ getCapacity s.type) (sn : EepRom) (hinv : WriteInv s src A L sn) :
    WriteInv s src A L (sn.handle txEmptyIrq)
      ∧ (sn.state = State.IDLE → sn.handle txEmptyIrq = sn)
      ∧ (WriteFilled s src A L sn →
          (sn.op.bytesEnqueued = L ∧ (sn.handle txEmptyIrq).state = State.IDLE)
            ∨ (sn.op.bytesEnqueued < L ∧ WriteFilled s src A L (sn.handle txEmptyIrq)
              ∧ (sn.handle txEmptyIrq).op.bytesTransmitted = sn.op.bytesEnqueued)) := by
  obtain ⟨hty, hia, hd, hm, hl, hp⟩ := hinv
  rcases hp with ⟨hst, hirq, hres⟩ | ⟨⟨hst, hirq, hinst, hun, hbe, htx, htar⟩, hres⟩
  · rw [handle_txEmptyIrq_disabled sn hirq]
    refine ⟨⟨hty, hia, hd, hm, hl, Or.inl ⟨hst, hirq, hres⟩⟩, fun _ => rfl, ?_⟩
    intro hf
    have := hf.state_eq
    rw [hst] at this
    exact absurd this (by decide)
  · rw [handle_txEmptyIrq sn hst hirq hinst]
    have hsp := writeFillPlan_spec s.type sn.op (by rw [hl]; exact hun)
      (by rw [hm, hl]; exact hcap)
    have hle : sn.op.bytesEnqueued ≤ L := by rw [hbe, ← hl]; exact hsp.2.2.1
    rcases Nat.lt_or_ge sn.op.bytesEnqueued L with hlt | hge
    · obtain ⟨s2, hs2⟩ : ∃ s2 : EepRom, s2 = { sn with
          txFifo := []
          irqEnabled := false
          intr_mask := ⟨false, false, false⟩
          i2cIrqInst := false
          op := { sn.op with bytesTransmitted := sn.op.bytesEnqueued } } := ⟨_, rfl⟩
      rw [← hs2]
      have hty2 : s2.type = s.type := by rw [hs2]; exact hty
      have hia2 : s2.i2cAddress = s.i2cAddress := by rw [hs2]; exact hia
      have hq2 : s2.txFifo = [] := by rw [hs2]
      have hres2 : s2.result = Result.ONGOING := by rw [hs2]; exact hres
      have hop : s2.op = ⟨src, L, A, sn.op.bytesEnqueued, sn.op.bytesEnqueued⟩ := by
        rw [hs2]
        simp [hd, hm, hl]
      have hinv2 := fill_step_inv s s2 src A L sn.op.bytesEnqueued hty2 hia2 hop hlt hcap
        hq2 hres2
      have hok := fill_step_ok s2 src A L sn.op.bytesEnqueued hop hlt
        (by rw [hty2]; exact hcap) hq2
      refine ⟨hinv2, ?_, ?_⟩
      · intro h
        rw [hst] at h
        exact absurd h (by decide)
      · intro _
        refine Or.inr ⟨hlt, ?_, hok.2.2.2.2.2.1⟩
        rcases hinv2.progress with ⟨h, _, _⟩ | ⟨h, _⟩
        · rw [hok.2.2.2.2.2.2.1] at h
          exact absurd h (by decide)
        · exact h
    · have heq : sn.op.bytesEnqueued = L := le_antisymm hle hge
      rw [writeFillTxFifo_finished _ 16 (by simp [heq, hl])]
      refine ⟨⟨hty, hia, hd, hm, hl, Or.inl ⟨rfl, rfl, rfl⟩⟩, ?_, ?_⟩
      · intro h
        rw [hst] at h
        exact absurd h (by decide)
      · intro _
        exact Or.inl ⟨heq, rfl⟩

theorem pageSize_cases (ty : EepRomType) :
    (PARAMS ty).pageSize = 8 ∨ (PARAMS ty).pageSize = 16 ∨ (PARAMS ty).pageSize = 32
      ∨ (PARAMS ty).pageSize = 64 ∨ (PARAMS ty).pageSize = 128 := by
  cases ty <;> simp [PARAMS]

/-- Appending the queue contents of a fill step to the transaction under
way (empty when the step opens a transaction) gives a transaction that is
still within the page it started in. -/
theorem open_extend (ty : EepRomType) (A t len : Nat) (starting : Bool)
    (acc fifo : List DataCmd)
    (hs1 : starting = true ↔ (t = 0 ∨ (A + t) % (PARAMS ty).pageSize = 0))
    (hlen : 0 < len)
    (hpage : A + t + len ≤ ((A + t) / (PARAMS ty).pageSize + 1) * (PARAMS ty).pageSize)
    (hfl : fifo.length = (if starting then (PARAMS ty).addressBytes else 0) + len)
    (hft : starting = true →
      fifo.take (PARAMS ty).addressBytes = addressCmds (PARAMS ty).addressBytes (A + t))
    (hacc : if t = 0 ∨ (A + t) % (PARAMS ty).pageSize = 0 then acc = []
      else OpenTransaction ty A (A + t) acc) :
    OpenTransaction ty A (A + t + len) (acc ++ fifo) := by
  have hP := pageSize_cases ty
  by_cases hst : starting = true
  · have hc := hs1.mp hst
    rw [if_pos hc] at hacc
    subst hacc
    refine ⟨A + t, len, hlen, by omega, rfl, ?_, ?_, ?_⟩
    · simp [hfl, hst]
    · simpa using hft hst
    · rcases hP with h | h | h | h | h <;> rw [h] at hpage ⊢ <;> omega
  · have hc : ¬ (t = 0 ∨ (A + t) % (PARAMS ty).pageSize = 0) := fun h => hst (hs1.mpr h)
    rw [if_neg hc] at hacc
    obtain ⟨a, k, hk, hA, hcur, hal, hat, hap⟩ := hacc
    refine ⟨a, k + len, by omega, hA, by omega, ?_, ?_, ?_⟩
    · simp [hfl, hst, hal]
      omega
    · rw [List.take_append_of_le_length (by omega)]
      exact hat
    · rcases hP with h | h | h | h | h <;> rw [h] at hpage hap hc ⊢ <;> omega

theorem transactionInPage_of_open (ty : EepRomType) (A L cur : Nat) (acc : List DataCmd)
    (h : OpenTransaction ty A cur acc) (hcur : cur ≤ A + L) : TransactionInPage ty A L acc := by
  obtain ⟨a, k, hk, hA, hc, hal, hat, hap⟩ := h
  exact ⟨a, k, hk, hA, by omega, hal, hat, hap⟩

/-- Every bus transaction in the words queued by an abort-free write, cut
at the STOPs, stays within one page. `acc` holds the words of the
transaction under way when the channel is in the state `sn`. -/
theorem stream_transactions (s : EepRom) (src : List Nat) (A L : Nat)
    (hcap : A + L ≤ getCapacity s.type) :
    ∀ (n : Nat) (sn : EepRom) (acc : List DataCmd), WriteInv s src A L sn →
      (sn.state = State.IDLE → acc = []) →
      (WriteFilled s src A L sn →
        if sn.op.bytesTransmitted = 0
            ∨ (A + sn.op.bytesTransmitted) % (PARAMS s.type).pageSize = 0
          then acc = []
          else OpenTransaction s.type A (A + sn.op.bytesTransmitted) acc) →
      ∀ txn ∈ transactionsFrom acc (writeStream sn n), TransactionInPage s.type A L txn := by
  intro n
  induction n with
  | zero =>
    intro sn acc hinv hidle hfilled txn htxn
    simp only [writeStream, transactionsFrom] at htxn
    split_ifs at htxn with hacc
    · simp at htxn
    · simp only [List.mem_singleton] at htxn
      subst htxn
      rcases hinv.progress with ⟨hst, _, _⟩ | ⟨hf, _⟩
      · exact absurd (hidle hst) hacc
      · have hc := hfilled hf
        split_ifs at hc
        · exact absurd hc hacc
        · exact transactionInPage_of_open _ _ _ _ _ hc (by have := hf.unfinished; omega)
  | succ n ih =>
    intro sn acc hinv hidle hfilled txn htxn
    unfold writeStream at htxn
    by_cases hst : sn.state = State.IDLE
    · rw [if_pos hst, hidle hst] at htxn
      simp [transactionsFrom] at htxn
    · rw [if_neg hst] at htxn
      have hf : WriteFilled s src A L sn := by
        rcases hinv.progress with ⟨h, _, _⟩ | ⟨h, _⟩
        · exact absurd h hst
        · exact h
      obtain ⟨hinv2, -, hstep⟩ := write_inv_handle s src A L hcap sn hinv
      have hstep := hstep hf
      have hsp := writeFillPlan_spec s.type sn.op (by rw [hinv.length_eq]; exact hf.unfinished)
        (by rw [hinv.memAddress_eq, hinv.length_eq]; exact hcap)
      rw [hinv.memAddress_eq, hinv.length_eq] at hsp
      obtain ⟨hs1, hs2, hs3, hs4, hs5, hs6⟩ := hsp
      have hbe := hf.bytesEnqueued_eq
      have htx := hf.txFifo_eq
      have hacc := hfilled hf
      obtain ⟨k, hk⟩ : ∃ k, (writeFillPlan s.type sn.op 16).len = k + 1 :=
        ⟨(writeFillPlan s.type sn.op 16).len - 1, by omega⟩
      have hfl : sn.txFifo.length
          = (if (writeFillPlan s.type sn.op 16).starting then (PARAMS s.type).addressBytes
              else 0) + (writeFillPlan s.type sn.op 16).len := by
        rw [htx]
        split_ifs <;> simp [addressCmds_length, payloadCmds]
      have hft : (writeFillPlan s.type sn.op 16).starting = true →
          sn.txFifo.take (PARAMS s.type).addressBytes
            = addressCmds (PARAMS s.type).addressBytes (A + sn.op.bytesTransmitted) := by
        intro h
        rw [htx, h]
        simp only [if_true]
        rw [List.take_left' (addressCmds_length _ _)]
      have hopen := open_extend s.type A sn.op.bytesTransmitted
        (writeFillPlan s.type sn.op 16).len (writeFillPlan s.type sn.op 16).starting
        acc sn.txFifo hs1 hs2 hs4 hfl hft hacc
      obtain ⟨init, last, hpl, -, hinit, hlast⟩ := payloadCmds_split src sn.op.bytesTransmitted
        (writeFillPlan s.type sn.op 16).stopping k (by omega)
      have hfifo : sn.txFifo
          = ((if (writeFillPlan s.type sn.op 16).starting
              then addressCmds (PARAMS s.type).addressBytes (A + sn.op.bytesTransmitted)
              else []) ++ init) ++ [last] := by
        rw [htx, hk, hpl, List.append_assoc]
      have hns : ∀ c ∈ (if (writeFillPlan s.type sn.op 16).starting
              then addressCmds (PARAMS s.type).addressBytes (A + sn.op.bytesTransmitted)
              else []) ++ init, c.stop = false := by
        intro c hc
        rcases List.mem_append.mp hc with h | h
        · split_ifs at h
          · exact addressCmds_no_stop _ _ c h
          · simp at h
        · exact hinit c h
      cases hstop : (writeFillPlan s.type sn.op 16).stopping
      · -- the transaction goes on with the next fill step
        rw [hstop] at hlast
        have hall : ∀ c ∈ sn.txFifo, c.stop = false := by
          intro c hc
          rw [hfifo] at hc
          rcases List.mem_append.mp hc with h | h
          · exact hns c h
          · simp at h
            rw [h]; exact hlast
        rw [transactionsFrom_append_of_no_stop _ _ acc hall] at htxn
        have hnot := fun h => (hstop ▸ hs6.mpr h : false = true)
        rcases hstep with ⟨he, _⟩ | ⟨-, hf2, hbt⟩
        · exfalso
          have : sn.op.bytesTransmitted + (writeFillPlan s.type sn.op 16).len = L := by omega
          exact Bool.noConfusion (hnot (Or.inl this))
        · refine ih _ (acc ++ sn.txFifo) hinv2 ?_ ?_ txn htxn
          · intro h
            rw [hf2.state_eq] at h
            exact absurd h (by decide)
          · intro _
            have hcur : (sn.handle txEmptyIrq).op.bytesTransmitted
                = sn.op.bytesTransmitted + (writeFillPlan s.type sn.op 16).len := by
              rw [hbt, hbe]
            rw [hcur]
            have hne : ¬ (sn.op.bytesTransmitted + (writeFillPlan s.type sn.op 16).len = 0
                ∨ (A + (sn.op.bytesTransmitted + (writeFillPlan s.type sn.op 16).len))
                  % (PARAMS s.type).pageSize = 0) := by
              rintro (h | h)
              · omega
              · exact Bool.noConfusion (hnot (Or.inr (by rw [Nat.add_assoc]; exact h)))
            rw [if_neg hne, ← Nat.add_assoc]
            exact hopen
      · -- the transaction ends with this fill step
        rw [hstop] at hlast
        rw [hfifo, List.append_assoc _ [last], List.singleton_append,
          transactionsFrom_append_stop _ _ last acc hns hlast] at htxn
        rcases List.mem_cons.mp htxn with h | h
        · rw [h, List.append_assoc acc, ← hfifo]
          exact transactionInPage_of_open _ _ _ _ _ hopen (by omega)
        · refine ih _ [] hinv2 (fun _ => rfl) ?_ txn h
          intro hf3
          rcases hstep with ⟨_, hidle2⟩ | ⟨hlt, _, hbt⟩
          · have := hf3.state_eq
            rw [hidle2] at this
            exact absurd this (by decide)
          · have hcur : (sn.handle txEmptyIrq).op.bytesTransmitted
                = sn.op.bytesTransmitted + (writeFillPlan s.type sn.op 16).len := by
              rw [hbt, hbe]
            rw [hcur]
            have hb := hs6.mp hstop
            have : (A + (sn.op.bytesTransmitted + (writeFillPlan s.type sn.op 16).len))
                  % (PARAMS s.type).pageSize = 0 := by
              rcases hb with hb | hb
              · omega
              · rw [← Nat.add_assoc]; exact hb
            rw [if_pos (Or.inr this)]

/-- C1: in an abort-free write of `L > 0` bytes at `A` (`A + L` within the
capacity, transmit queue empty with 16 free entries at every fill step),
every fill step, i.e. the one of `startWriting` (`n = 0`) and the one after
each transfer-complete interrupt (`n > 0`) while the write is unfinished,
enqueues `len > 0` payload bytes starting at address `A + t` such that:
the queue holds the address bytes of `A + t` (only if the step is the
first one or begins on a page boundary) followed by the payload bytes
`src[t] … src[t + len − 1]`; the payload does not go past the next multiple
of the page size; when it reaches that multiple the last byte carries STOP;
and a step that begins on a page boundary opens a new transaction (address
bytes first, bus address set, peripheral enabled). For the types with 2
address bytes and 64-byte pages, writing 70 bytes at address 60 queues
address 60, four payload bytes and STOP in the first step, and the second
step opens a transaction at address 64. Consequently, cutting the words
queued over the whole write at the STOPs, every bus transaction consists of
the address bytes of an address `a` followed by `k > 0` payload bytes for
`a … a + k − 1`, all of them in the page of `a`. -/
theorem C1_write_stays_within_page :
    (∀ (s : EepRom) (src : List Nat) (A L n : Nat) (sn : EepRom) (P nb t len : Nat),
      s.state = State.IDLE → s.txFifo = [] → 0 < L → A + L ≤ getCapacity s.type →
      sn = afterTxEmpty (s.startWriting src A L 16).2 n → sn.state ≠ State.IDLE →
      P = (PARAMS s.type).pageSize → nb = (PARAMS s.type).addressBytes →
      t = sn.op.bytesTransmitted → len = sn.op.bytesEnqueued - sn.op.bytesTransmitted →
      0 < len ∧ t + len ≤ L
        ∧ sn.txFifo
            = (if t = 0 ∨ (A + t) % P = 0 then addressCmds nb (A + t) else [])
              ++ payloadCmds src t (decide (t + len = L ∨ (A + t + len) % P = 0)) len
        ∧ A + t + len ≤ ((A + t) / P + 1) * P
        ∧ ((A + t + len) % P = 0 → sn.txFifo.getLast?.map DataCmd.stop = some true)
        ∧ ((A + t) % P = 0 →
            sn.txFifo.take nb = addressCmds nb (A + t)
              ∧ sn.tar = s.calcI2cAddress (A + t) ∧ sn.enable = true))
    ∧ (∀ (ty : EepRomType) (i2cAddress : Nat) (src : List Nat),
      (PARAMS ty).addressBytes = 2 → (PARAMS ty).pageSize = 64 →
      ((EepRom.new ty i2cAddress).startWriting src 60 70 16).2.txFifo
          = [⟨false, false, false, 0⟩, ⟨false, false, false, 60⟩,
              ⟨false, false, false, src.getD 0 0⟩, ⟨false, false, false, src.getD 1 0⟩,
              ⟨false, false, false, src.getD 2 0⟩, ⟨false, true, false, src.getD 3 0⟩]
        ∧ (afterTxEmpty ((EepRom.new ty i2cAddress).startWriting src 60 70 16).2 1).txFifo.take 2
          = [⟨false, false, false, 0⟩, ⟨false, false, false, 64⟩]
        ∧ (afterTxEmpty
            ((EepRom.new ty i2cAddress).startWriting src 60 70 16).2 1).op.bytesTransmitted = 4
        ∧ (afterTxEmpty ((EepRom.new ty i2cAddress).startWriting src 60 70 16).2 1).tar
          = i2cAddress)
    ∧ (∀ (s : EepRom) (src : List Nat) (A L n : Nat) (txn : List DataCmd),
      s.state = State.IDLE → s.txFifo = [] → 0 < L → A + L ≤ getCapacity s.type →
      txn ∈ transactions (writeStream (s.startWriting src A L 16).2 n) →
      ∃ a k, 0 < k ∧ A ≤ a ∧ a + k ≤ A + L
        ∧ txn.length = (PARAMS s.type).addressBytes + k
        ∧ txn.take (PARAMS s.type).addressBytes
            = addressCmds (PARAMS s.type).addressBytes a
        ∧ (a + k - 1) / (PARAMS s.type).pageSize = a / (PARAMS s.type).pageSize) := by
  refine ⟨?_, fun ty i2cAddress src hnb hP => write_60_70_example ty i2cAddress src hnb hP,
    ?_⟩
  rotate_left
  · intro s src A L n txn hidle hq hL hcap htxn
    have hinv := write_run_invariant s src A L hidle hq hL hcap 0
    simp only [afterTxEmpty] at hinv
    refine stream_transactions s src A L hcap n _ [] hinv (fun _ => rfl) ?_ txn htxn
    intro hf
    have h0 : ((s.startWriting src A L 16).2).op.bytesTransmitted = 0 := by
      rw [startWriting_of_some s src A L 16 L (checkParameters_in_range s.type A L hL hcap)
        hidle]
      exact (fill_step_ok { s with op := ⟨src, L, A, 0, 0⟩, result := Result.ONGOING }
        src A L 0 rfl hL hcap hq).2.2.2.2.2.1
    rw [if_pos (Or.inl h0)]
  intro s src A L n sn P nb t len hidle hq hL hcap hsn hbusy hP hnb ht hlen0
  have hinv := write_run_invariant s src A L hidle hq hL hcap n
  rw [← hsn] at hinv
  subst hP hnb ht hlen0
  obtain ⟨hty, hia, hd, hm, hl, hp⟩ := hinv
  rcases hp with ⟨hst, -, -⟩ | ⟨⟨hst, hirq, hinst, hun, hbe, htx, htar⟩, hres⟩
  · exact absurd hst hbusy
  have hsp := writeFillPlan_spec s.type sn.op (by rw [hl]; exact hun)
    (by rw [hm, hl]; exact hcap)
  rw [hm, hl] at hsp
  obtain ⟨hs1, hs2, hs3, hs4, hs5, hs6⟩ := hsp
  have hlen : sn.op.bytesEnqueued - sn.op.bytesTransmitted
      = (writeFillPlan s.type sn.op 16).len := by omega
  simp only [hlen]
  have hstop := bool_eq_decide _ _ hs6
  have hstart := bool_eq_decide _ _ hs1
  refine ⟨hs2, hs3, ?_, hs4, ?_, ?_⟩
  · rw [htx, ← hstop, hstart]
    simp
  · intro hb
    have : (writeFillPlan s.type sn.op 16).stopping = true := hs6.mpr (Or.inr hb)
    have hg := payloadCmds_getLast src sn.op.bytesTransmitted
      (writeFillPlan s.type sn.op 16).len hs2 (by omega)
    rw [htx, this, List.getLast?_append]
    cases hq : (payloadCmds src sn.op.bytesTransmitted true
        (writeFillPlan s.type sn.op 16).len).getLast? with
    | none => simp [hq] at hg
    | some x =>
      rw [hq] at hg
      simpa using hg
  · intro hb
    have hstarting : (writeFillPlan s.type sn.op 16).starting = true := hs1.mpr (Or.inr hb)
    refine ⟨?_, htar hstarting⟩
    rw [htx, hstarting]
    simp only [if_true]
    rw [List.take_left' (addressCmds_length _ _)]

/-- C1 (witness): the first fill step of writing 70 bytes at address 60 of
a 24C128 stays below address 64. -/
theorem C1_write_stays_within_page_witness :
    (afterTxEmpty ((EepRom.new .EEPROM_24C128 0x50).startWriting [] 60 70 16).2 0).txFifo
      = (if 0 = 0 ∨ (60 + 0) % 64 = 0 then addressCmds 2 (60 + 0) else [])
        ++ payloadCmds [] 0 (decide (0 + 4 = 70 ∨ (60 + 0 + 4) % 64 = 0)) 4 :=
  (C1_write_stays_within_page.1 (EepRom.new .EEPROM_24C128 0x50) [] 60 70 0
    (afterTxEmpty ((EepRom.new .EEPROM_24C128 0x50).startWriting [] 60 70 16).2 0)
    64 2 0 4 rfl rfl (by decide) (by decide) rfl (by decide) rfl rfl (by decide)
    (by decide)).2.2.1

/-- The bus transactions of writing 70 bytes at address 60 of a 24C128:
three transactions of 4, 64 and 2 payload bytes (plus 2 address bytes
each), for the pages beginning at 0, 64 and 128. -/
theorem write_60_70_transactions :
    (transactions (writeStream
        ((EepRom.new .EEPROM_24C128 0x50).startWriting (List.replicate 70 0xAB) 60 70 16).2
        70)).map List.length = [6, 66, 4] := by
  decide

/-! ## Switch debouncing -/

theorem bitsVal_lt (l : List Bool) : bitsVal l < 2 ^ l.length := by
  induction l with
  | nil => simp [bitsVal]
  | cons b bs ih =>
    simp only [bitsVal, List.length_cons, pow_succ]
    split_ifs <;> omega

theorem bitsVal_take (l : List Bool) (k : Nat) : bitsVal (l.take k) = bitsVal l % 2 ^ k := by
  induction l generalizing k with
  | nil => simp [bitsVal]
  | cons b bs ih =>
    cases k with
    | zero => simp [bitsVal, Nat.mod_one]
    | succ k =>
      simp only [List.take_succ_cons, bitsVal, ih, pow_succ]
      have hr := Nat.mod_lt (bitsVal bs) (Nat.pos_pow_of_pos k (by decide : 0 < 2))
      have hd := Nat.div_add_mod (bitsVal bs) (2 ^ k)
      have e : ∀ c, c < 2 → (c + 2 * bitsVal bs) % (2 ^ k * 2)
          = c + 2 * (bitsVal bs % 2 ^ k) := by
        intro c hc
        have e1 : c + 2 * bitsVal bs
            = (c + 2 * (bitsVal bs % 2 ^ k)) + (2 ^ k * 2) * (bitsVal bs / 2 ^ k) := by
          linarith
        rw [e1, Nat.add_mul_mod_self_left, Nat.mod_eq_of_lt]
        omega
      split_ifs
      · exact (e 1 (by decide)).symm
      · exact (e 0 (by decide)).symm

theorem bitsVal_eq_zero (l : List Bool) : bitsVal l = 0 ↔ ∀ b ∈ l, b = false := by
  induction l with
  | nil => simp [bitsVal]
  | cons b bs ih =>
    simp only [bitsVal, List.mem_cons, forall_eq_or_imp]
    rw [← ih]
    cases b <;> simp

theorem bitsVal_eq_ones (l : List Bool) :
    bitsVal l = 2 ^ l.length - 1 ↔ ∀ b ∈ l, b = true := by
  induction l with
  | nil => simp [bitsVal]
  | cons b bs ih =>
    simp only [bitsVal, List.mem_cons, forall_eq_or_imp, List.length_cons, pow_succ]
    rw [← ih]
    have h := bitsVal_lt bs
    cases b <;> simp <;> omega

/-- The new value of the sample register: the old one shifted left by one
inside the window of `N` bits, with the new level in bit 0. -/
theorem Switch.shift_eq (b N : Nat) (pin : Bool) (h1 : 1 ≤ N) (h2 : N ≤ 31)
    (hb : b < 2 ^ N) :
    (toU32 (b <<< 1) &&& ((1 <<< N) - 1)) ||| (if pin then 1 else 0)
      = (if pin then 1 else 0) + 2 * (b % 2 ^ (N - 1)) := by
  have hp : 2 ^ N ≤ 2 ^ 31 := Nat.pow_le_pow_right (by decide) h2
  have h31 : (2 : Nat) ^ 31 = 2147483648 := by norm_num
  have e1 : toU32 (b <<< 1) = 2 * b := by
    rw [Nat.shiftLeft_eq]
    unfold toU32 U32
    omega
  have e2 : (1 <<< N) - 1 = 2 ^ N - 1 := by rw [Nat.one_shiftLeft]
  have e3 : (2 * b) % 2 ^ N = 2 * (b % 2 ^ (N - 1)) := by
    obtain ⟨k, rfl⟩ : ∃ k, N = k + 1 := ⟨N - 1, by omega⟩
    rw [pow_succ, Nat.mul_comm (2 ^ k) 2, Nat.mul_mod_mul_left]
    simp
  rw [e1, e2, Nat.and_pow_two_sub_one_eq_mod, e3]
  have hbit : (if pin then 1 else 0 : Nat) < 2 ^ 1 := by split_ifs <;> decide
  have := Nat.mul_add_lt_is_or hbit (b % 2 ^ (N - 1))
  rw [pow_one] at this
  rw [← this]
  omega

theorem Switch.window_length (d : Nat) (pre : List (Bool × Nat)) :
    (Switch.window d pre).length = d := by
  simp [Switch.window]

theorem Switch.window_snoc (d : Nat) (pre : List (Bool × Nat)) (x : Bool × Nat)
    (hd : 1 ≤ d) :
    Switch.window d (pre ++ [x]) = x.1 :: (Switch.window d pre).take (d - 1) := by
  obtain ⟨k, rfl⟩ : ∃ k, d = k + 1 := ⟨d - 1, by omega⟩
  simp only [Switch.window, List.reverse_append, List.reverse_cons, List.reverse_nil,
    List.nil_append, List.singleton_append, List.map_cons, List.cons_append,
    List.take_succ_cons, Nat.add_sub_cancel, List.take_take]
  congr 1
  rw [min_eq_left (Nat.le_succ k)]

theorem Switch.window_of_le (d : Nat) (pre : List (Bool × Nat)) (h : d ≤ pre.length) :
    Switch.window d pre = (pre.reverse.take d).map Prod.fst := by
  unfold Switch.window
  rw [List.take_append_of_le_length (by simpa using h), List.map_take]

theorem Switch.true_mem_window (d : Nat) (pre : List (Bool × Nat)) (h : pre.length < d) :
    true ∈ Switch.window d pre := by
  unfold Switch.window
  rw [List.take_append_eq_append_take]
  apply List.mem_append_right
  simp only [List.length_map, List.length_reverse]
  obtain ⟨k, hk⟩ : ∃ k, d - pre.length = k + 1 := ⟨d - pre.length - 1, by omega⟩
  obtain ⟨m, hm⟩ : ∃ m, d = m + 1 := ⟨d - 1, by omega⟩
  rw [hk]
  subst hm
  simp [List.replicate_succ]

/-- One `update` of a switch whose register holds the window of the samples
`pre`: the register then holds the window of `pre ++ [x]`; the debounced
state and the event queue change exactly when that window is uniformly at
the level opposite to the state. -/
theorem Switch.update_step (d : Nat) (h1 : 1 ≤ d) (h2 : d ≤ 31)
    (pre : List (Bool × Nat)) (x : Bool × Nat) (s : Switch)
    (hd : s.debounceDuration = d) (hb : s.buffer = bitsVal (Switch.window d pre)) :
    (s.update x.1 x.2).debounceDuration = d
      ∧ (s.update x.1 x.2).buffer = bitsVal (Switch.window d (pre ++ [x]))
      ∧ ((∃ y ∈ Switch.window d (pre ++ [x]), y ≠ s.pressed) →
          (s.update x.1 x.2).pressed = s.pressed
            ∧ (s.update x.1 x.2).events = s.events
            ∧ (s.update x.1 x.2).tsLastEvent = s.tsLastEvent)
      ∧ ((∀ y ∈ Switch.window d (pre ++ [x]), y = s.pressed) →
          (s.update x.1 x.2).pressed = !s.pressed
            ∧ (s.update x.1 x.2).events = s.events.insert
                ⟨if s.pressed then .RELEASE else .PRESS, durationMs s.tsLastEvent x.2⟩) := by
  have hlt : s.buffer < 2 ^ d := by
    rw [hb]
    have := bitsVal_lt (Switch.window d pre)
    rwa [Switch.window_length] at this
  have hsh := Switch.shift_eq s.buffer d x.1 h1 h2 hlt
  have hnew : (if x.1 then 1 else 0) + 2 * (s.buffer % 2 ^ (d - 1))
      = bitsVal (Switch.window d (pre ++ [x])) := by
    rw [Switch.window_snoc d pre x h1, hb]
    simp only [bitsVal, bitsVal_take]
  have hz := bitsVal_eq_zero (Switch.window d (pre ++ [x]))
  have ho := bitsVal_eq_ones (Switch.window d (pre ++ [x]))
  rw [Switch.window_length] at ho
  have hmask : (1 <<< s.debounceDuration) - 1 = 2 ^ d - 1 := by rw [hd, Nat.one_shiftLeft]
  have hbuf : (toU32 (s.buffer <<< 1) &&& ((1 <<< s.debounceDuration) - 1))
      ||| (if x.1 then 1 else 0) = bitsVal (Switch.window d (pre ++ [x])) := by
    rw [hd, hsh, hnew]
  unfold Switch.update
  simp only [hbuf]
  simp only [hmask]
  by_cases hp : s.pressed = true
  · by_cases hall : ∀ y ∈ Switch.window d (pre ++ [x]), y = true
    · have hbo := ho.mpr hall
      simp only [hp, hbo, and_self, if_true, and_false, if_false, Bool.true_eq_false]
      refine ⟨hd, trivial, ?_, ?_⟩
      · rintro ⟨y, hy, hne⟩
        exact absurd (hall y hy) hne
      · intro _
        simp
    · have hbo : ¬ bitsVal (Switch.window d (pre ++ [x])) = 2 ^ d - 1 := fun h => hall (ho.mp h)
      simp only [hp, hbo, and_false, if_false, false_and, Bool.true_eq_false]
      refine ⟨hd, trivial, fun _ => ⟨trivial, trivial, trivial⟩, ?_⟩
      intro h
      exact absurd h hall
  · have hp2 : s.pressed = false := by simpa using hp
    by_cases hall : ∀ y ∈ Switch.window d (pre ++ [x]), y = false
    · have hbz := hz.mpr hall
      simp only [hp2, hbz, and_self, if_true]
      refine ⟨hd, trivial, ?_, ?_⟩
      · rintro ⟨y, hy, hne⟩
        exact absurd (hall y hy) hne
      · intro _
        simp
    · have hbz : ¬ bitsVal (Switch.window d (pre ++ [x])) = 0 := fun h => hall (hz.mp h)
      simp only [hp2, hbz, false_and, if_false, Bool.false_eq_true, and_false]
      refine ⟨hd, trivial, fun _ => ⟨trivial, trivial, trivial⟩, ?_⟩
      intro h
      exact absurd h hall

theorem Switch.run_snoc (s : Switch) (pre : List (Bool × Nat)) (x : Bool × Nat) :
    s.run (pre ++ [x]) = (s.run pre).update x.1 x.2 := by
  simp [Switch.run, List.foldl_append]

theorem Switch.run_append (s : Switch) (pre post : List (Bool × Nat)) :
    s.run (pre ++ post) = (s.run pre).run post := by
  simp [Switch.run, List.foldl_append]

theorem Switch.window_nil (d : Nat) : Switch.window d [] = List.replicate d true := by
  simp [Switch.window]

/-- The switch constructed with window `d` and fed the samples `pre`: its
register holds the window of `pre`, and it can only be pressed after at
least `d` samples. -/
theorem Switch.run_invariant (d t0 : Nat) (h1 : 1 ≤ d) (h2 : d ≤ 31)
    (pre : List (Bool × Nat)) :
    ((Switch.new d t0).run pre).debounceDuration = d
      ∧ ((Switch.new d t0).run pre).buffer = bitsVal (Switch.window d pre)
      ∧ (((Switch.new d t0).run pre).pressed = true → d ≤ pre.length) := by
  induction pre using List.reverseRecOn with
  | nil =>
    have hd : (if d < 1 ∨ d > 31 then 10 else d) = d := by
      rw [if_neg]; omega
    simp only [Switch.run, List.foldl_nil, Switch.new, hd, Switch.window_nil]
    refine ⟨trivial, ?_, by simp⟩
    have := (bitsVal_eq_ones (List.replicate d true)).mpr (by simp)
    rw [this, Nat.one_shiftLeft]
    simp
  | append_singleton pre x ih =>
    obtain ⟨ihd, ihb, ihp⟩ := ih
    rw [Switch.run_snoc]
    obtain ⟨u1, u2, u3, u4⟩ := Switch.update_step d h1 h2 pre x _ ihd ihb
    refine ⟨u1, u2, ?_⟩
    intro hpr
    by_cases hall : ∀ y ∈ Switch.window d (pre ++ [x]), y = ((Switch.new d t0).run pre).pressed
    · have hflip := (u4 hall).1
      rw [hpr] at hflip
      have hfalse : ((Switch.new d t0).run pre).pressed = false := by
        cases hq : ((Switch.new d t0).run pre).pressed
        · rfl
        · rw [hq] at hflip; simp at hflip
      by_contra hlt
      have hmem := Switch.true_mem_window d (pre ++ [x]) (by omega)
      have := hall true hmem
      rw [hfalse] at this
      simp at this
    · have hex : ∃ y ∈ Switch.window d (pre ++ [x]),
          y ≠ ((Switch.new d t0).run pre).pressed := by
        by_contra hcon
        apply hall
        intro y hy
        by_contra hne
        exact hcon ⟨y, hy, hne⟩
      have hsame := (u3 hex).1
      rw [hsame] at hpr
      have := ihp hpr
      simp
      omega

/-- A sequence of updates during which the window never becomes uniformly
opposite to the debounced state changes neither the state nor the queue. -/
theorem Switch.quiet_run (d : Nat) (h1 : 1 ≤ d) (h2 : d ≤ 31) (g : List (Bool × Nat)) :
    ∀ (pre : List (Bool × Nat)) (s : Switch),
      s.debounceDuration = d → s.buffer = bitsVal (Switch.window d pre) →
      (∀ i < g.length, ∃ y ∈ Switch.window d (pre ++ g.take (i + 1)), y ≠ s.pressed) →
      (s.run g).pressed = s.pressed ∧ (s.run g).events = s.events := by
  induction g with
  | nil => intro pre s _ _ _; exact ⟨rfl, rfl⟩
  | cons x g ih =>
    intro pre s hd hb hq
    obtain ⟨u1, u2, u3, -⟩ := Switch.update_step d h1 h2 pre x s hd hb
    have h0 := hq 0 (by simp)
    simp only [Nat.zero_add, List.take_succ_cons, List.take_zero] at h0
    obtain ⟨v1, v2, -⟩ := u3 h0
    have hrun : s.run (x :: g) = (s.update x.1 x.2).run g := rfl
    rw [hrun]
    have := ih (pre ++ [x]) (s.update x.1 x.2) u1 u2 (by
      intro i hi
      have := hq (i + 1) (by simpa using hi)
      rw [v1]
      simpa [List.take_succ_cons] using this)
    rw [v1, v2] at this
    exact this

theorem mem_take_append_cons {α : Type} (A R : List α) (b : α) (d : Nat)
    (h : A.length < d) : b ∈ (A ++ b :: R).take d := by
  rw [List.take_append_eq_append_take]
  apply List.mem_append_right
  obtain ⟨k, hk⟩ : ∃ k, d - A.length = k + 1 := ⟨d - A.length - 1, by omega⟩
  rw [hk]
  simp

/-- The levels in front of a glitch: the most recent one is the level of
the debounced state `p`, either because the last sample had that level or
because there was no sample yet and the switch is still released. -/
theorem Switch.history_head (d : Nat) (h1 : 1 ≤ d) (pre : List (Bool × Nat)) (p : Bool)
    (hnil : pre = [] → p = false)
    (hlast : ∀ last, pre.getLast? = some last → last.1 = !p) :
    ∃ R, (pre.reverse.map Prod.fst) ++ List.replicate d true = (!p) :: R := by
  induction pre using List.reverseRecOn with
  | nil =>
    obtain ⟨k, rfl⟩ : ∃ k, d = k + 1 := ⟨d - 1, by omega⟩
    rw [hnil rfl]
    exact ⟨List.replicate k true, by simp [List.replicate_succ]⟩
  | append_singleton pre x _ =>
    have := hlast x (by simp)
    refine ⟨(pre.reverse.map Prod.fst) ++ List.replicate d true, ?_⟩
    simp [this]

/-- C5: for a debounce window `d` in 1..31, the switch constructed with it
(released, register all ones) and fed any samples `pre` (pin level, time;
level `true` = high = switch open), giving the switch `s`, and one more
sample `x`:
(1) the update with `x` either changes neither the debounced state nor the
event queue, or at least `d` samples have been taken, the `d` most recent
ones (`x` included) all have the level opposite to the state before the
update (low while released, high while pressed, i.e. the level equals
`pressed`), the state flips, and exactly one event is enqueued: PRESS when
released before, RELEASE when pressed before;
(2) a run of fewer than `d` samples of the opposite level, coming after a
sample of the level of the current state (or after no sample at all) and
followed by a sample of the level of the current state, changes neither
the state nor the queue, at any point of the run. -/
theorem C5_switch_debounce (d t0 : Nat) (h1 : 1 ≤ d) (h2 : d ≤ 31)
    (pre : List (Bool × Nat)) (x : Bool × Nat) (s : Switch)
    (hs : s = (Switch.new d t0).run pre) :
    (((s.update x.1 x.2).pressed = s.pressed ∧ (s.update x.1 x.2).events = s.events)
        ∨ (d ≤ (pre ++ [x]).length
          ∧ (∀ y ∈ (pre ++ [x]).reverse.take d, y.1 = s.pressed)
          ∧ (s.update x.1 x.2).pressed = !s.pressed
          ∧ (s.update x.1 x.2).events = s.events.insert
              ⟨if s.pressed then .RELEASE else .PRESS, durationMs s.tsLastEvent x.2⟩))
      ∧ (∀ (glitch : List (Bool × Nat)) (back : Bool × Nat) (j : Nat),
          glitch.length < d → (∀ y ∈ glitch, y.1 = s.pressed) → back.1 = !s.pressed →
          (∀ last, pre.getLast? = some last → last.1 = !s.pressed) →
          (s.run ((glitch ++ [back]).take j)).pressed = s.pressed
            ∧ (s.run ((glitch ++ [back]).take j)).events = s.events) := by
  subst hs
  generalize hs : (Switch.new d t0).run pre = s
  have hinv := Switch.run_invariant d t0 h1 h2 pre
  rw [hs] at hinv
  obtain ⟨hd, hb, hp⟩ := hinv
  obtain ⟨u1, u2, u3, u4⟩ := Switch.update_step d h1 h2 pre x s hd hb
  constructor
  · by_cases hall : ∀ y ∈ Switch.window d (pre ++ [x]), y = s.pressed
    · right
      obtain ⟨v1, v2⟩ := u4 hall
      have hlen : d ≤ (pre ++ [x]).length := by
        by_contra hlt
        have hmem := Switch.true_mem_window d (pre ++ [x]) (by omega)
        have hpt := hall true hmem
        have : d ≤ pre.length := hp hpt.symm
        simp at hlt
        omega
      refine ⟨hlen, ?_, v1, v2⟩
      intro y hy
      apply hall
      rw [Switch.window_of_le d _ hlen]
      exact List.mem_map_of_mem _ hy
    · left
      have hex : ∃ y ∈ Switch.window d (pre ++ [x]), y ≠ s.pressed := by
        by_contra hcon
        apply hall
        intro y hy
        by_contra hne
        exact hcon ⟨y, hy, hne⟩
      exact ⟨(u3 hex).1, (u3 hex).2.1⟩
  · intro glitch back j hlen hopp hback hlast
    have hnil : pre = [] → s.pressed = false := by
      intro h
      cases hq : s.pressed
      · rfl
      · have := hp hq
        rw [h] at this
        simp at this
        omega
    obtain ⟨R, hR⟩ := Switch.history_head d h1 pre s.pressed hnil hlast
    apply Switch.quiet_run d h1 h2 _ pre s hd hb
    intro i hi
    refine ⟨!s.pressed, ?_, by cases s.pressed <;> simp⟩
    simp only [List.take_take] at hi ⊢
    by_cases hin : min (i + 1) j ≤ glitch.length
    · rw [List.take_append_of_le_length hin]
      unfold Switch.window
      rw [List.reverse_append, List.map_append, List.append_assoc, hR]
      apply mem_take_append_cons
      simp only [List.length_map, List.length_reverse, List.length_take]
      omega
    · have htake : (glitch ++ [back]).take (min (i + 1) j) = glitch ++ [back] := by
        apply List.take_of_length_le
        simp
        omega
      rw [htake, ← List.append_assoc, Switch.window_snoc d _ back h1, hback]
      simp

/-- C5 (witness): window 3, two low samples, then one more low sample. -/
theorem C5_switch_debounce_witness :
    (((Switch.new 3 0).run [(false, 1000), (false, 2000)]).update false 3000).pressed
      = !((Switch.new 3 0).run [(false, 1000), (false, 2000)]).pressed :=
  ((C5_switch_debounce 3 0 (by decide) (by decide) [(false, 1000), (false, 2000)]
    (false, 3000) _ rfl).1.resolve_left (by decide)).2.2.1

/-! ## Rotary encoder -/

namespace RotaryEncoder

theorem encoder_run_nil (s : RotaryEncoder) : s.run [] = s := rfl

theorem encoder_run_cons (s : RotaryEncoder) (x : Sample) (l : List Sample) :
    s.run (x :: l) = (s.update x.pinA x.pinB x.now).run l := rfl

theorem encoder_run_append (s : RotaryEncoder) (l1 l2 : List Sample) :
    s.run (l1 ++ l2) = (s.run l1).run l2 := by
  simp [run, List.foldl_append]

theorem encoder_pins_cases (a b : Bool) :
    pins a b = 0 ∨ pins a b = 1 ∨ pins a b = 2 ∨ pins a b = 3 := by
  cases a <;> cases b <;> decide

/-- What one `update` can do to the event queue: nothing, or enqueue LEFT
while going from `L3` to `N`, or enqueue RIGHT while going from `R3` to `N`;
the latter two only with both pins released (`pins = 0`). -/
theorem encoder_update_events (s : RotaryEncoder) (a b : Bool) (now : Nat) :
    ((s.update a b now).events = s.events ∧ (s.update a b now).tsLastEvent = s.tsLastEvent)
      ∨ (s.state = State.L3 ∧ (s.update a b now).state = State.N ∧ pins a b = 0
        ∧ (s.update a b now).events
          = s.events.insert ⟨EventType.LEFT, durationMs s.tsLastEvent now⟩)
      ∨ (s.state = State.R3 ∧ (s.update a b now).state = State.N ∧ pins a b = 0
        ∧ (s.update a b now).events
          = s.events.insert ⟨EventType.RIGHT, durationMs s.tsLastEvent now⟩) := by
  unfold update
  rcases encoder_pins_cases a b with h | h | h | h <;> cases hs : s.state <;> simp [h]

/-- Samples on which `update` is the identity leave the encoder as it is. -/
theorem encoder_run_fixed (s : RotaryEncoder) (l : List Sample)
    (h : ∀ y ∈ l, s.update y.pinA y.pinB y.now = s) : s.run l = s := by
  induction l with
  | nil => rfl
  | cons x l ih =>
    rw [encoder_run_cons, h x (by simp)]
    exact ih (fun y hy => h y (by simp [hy]))

/-- Entering a state with the first sample of a pattern and holding it for
the remaining samples of that pattern. -/
theorem encoder_run_phase (s s1 : RotaryEncoder) (l : List Sample) (p : Nat) (hne : l ≠ [])
    (hp : ∀ y ∈ l, pins y.pinA y.pinB = p)
    (henter : ∀ a b now, pins a b = p → s.update a b now = s1)
    (hhold : ∀ a b now, pins a b = p → s1.update a b now = s1) : s.run l = s1 := by
  cases l with
  | nil => exact absurd rfl hne
  | cons x l =>
    rw [encoder_run_cons, henter _ _ _ (hp x (by simp))]
    exact encoder_run_fixed s1 l (fun y hy => hhold _ _ _ (hp y (by simp [hy])))

/-- No event is enqueued while at least one pin is activated. -/
theorem encoder_run_pins_ne_zero (l : List Sample) :
    ∀ s : RotaryEncoder, (∀ y ∈ l, pins y.pinA y.pinB ≠ 0) →
      (s.run l).events = s.events ∧ (s.run l).tsLastEvent = s.tsLastEvent := by
  induction l with
  | nil => intro s _; exact ⟨rfl, rfl⟩
  | cons x l ih =>
    intro s h
    rw [encoder_run_cons]
    have hx := h x (by simp)
    obtain ⟨h1, h2⟩ := ih (s.update x.pinA x.pinB x.now) (fun y hy => h y (by simp [hy]))
    rcases encoder_update_events s x.pinA x.pinB x.now with ⟨e1, e2⟩ | ⟨_, _, e, _⟩ | ⟨_, _, e, _⟩
    · exact ⟨h1.trans e1, h2.trans e2⟩
    · exact absurd e hx
    · exact absurd e hx

theorem left_turn (s : RotaryEncoder) (hs : s.state = State.N)
    (A B C D : List Sample) (x : Sample) (hA : A ≠ []) (hB : B ≠ []) (hC : C ≠ [])
    (pA : ∀ y ∈ A, pins y.pinA y.pinB = 1) (pB : ∀ y ∈ B, pins y.pinA y.pinB = 3)
    (pC : ∀ y ∈ C, pins y.pinA y.pinB = 2) (px : pins x.pinA x.pinB = 0)
    (pD : ∀ y ∈ D, pins y.pinA y.pinB = 0) :
    (∀ q, q <+: A ++ B ++ C → (s.run q).events = s.events)
      ∧ (s.run (A ++ B ++ C)).state = State.L3
      ∧ (∀ q, q <+: D → s.run (A ++ B ++ C ++ x :: q)
          = ⟨State.N, s.events.insert ⟨EventType.LEFT, durationMs s.tsLastEvent x.now⟩,
              x.now⟩) := by
  have e1 : s.run A = { s with state := State.L1 } :=
    encoder_run_phase s _ A 1 hA pA (fun a b now h => by simp [update, hs, h])
      (fun a b now h => by simp [update, h])
  have e2 : s.run (A ++ B) = { s with state := State.L2 } := by
    rw [encoder_run_append, e1]
    exact encoder_run_phase _ _ B 3 hB pB (fun a b now h => by simp [update, h])
      (fun a b now h => by simp [update, h])
  have e3 : s.run (A ++ B ++ C) = { s with state := State.L3 } := by
    rw [encoder_run_append, e2]
    exact encoder_run_phase _ _ C 2 hC pC (fun a b now h => by simp [update, h])
      (fun a b now h => by simp [update, h])
  refine ⟨?_, by rw [e3], ?_⟩
  · intro q hq
    refine (encoder_run_pins_ne_zero q s ?_).1
    intro y hy
    have hmem := hq.mem hy
    simp only [List.mem_append] at hmem
    rcases hmem with (h | h) | h
    · rw [pA y h]; decide
    · rw [pB y h]; decide
    · rw [pC y h]; decide
  · intro q hq
    rw [encoder_run_append, e3, encoder_run_cons]
    have e4 : ({ s with state := State.L3 } : RotaryEncoder).update x.pinA x.pinB x.now
        = ⟨State.N, s.events.insert ⟨EventType.LEFT, durationMs s.tsLastEvent x.now⟩,
            x.now⟩ := by
      simp [update, px]
    rw [e4]
    exact encoder_run_fixed _ q (fun y hy => by simp [update, pD y (hq.mem hy)])

theorem right_turn (s : RotaryEncoder) (hs : s.state = State.N)
    (A B C D : List Sample) (x : Sample) (hA : A ≠ []) (hB : B ≠ []) (hC : C ≠ [])
    (pA : ∀ y ∈ A, pins y.pinA y.pinB = 2) (pB : ∀ y ∈ B, pins y.pinA y.pinB = 3)
    (pC : ∀ y ∈ C, pins y.pinA y.pinB = 1) (px : pins x.pinA x.pinB = 0)
    (pD : ∀ y ∈ D, pins y.pinA y.pinB = 0) :
    (∀ q, q <+: A ++ B ++ C → (s.run q).events = s.events)
      ∧ (s.run (A ++ B ++ C)).state = State.R3
      ∧ (∀ q, q <+: D → s.run (A ++ B ++ C ++ x :: q)
          = ⟨State.N, s.events.insert ⟨EventType.RIGHT, durationMs s.tsLastEvent x.now⟩,
              x.now⟩) := by
  have e1 : s.run A = { s with state := State.R1 } :=
    encoder_run_phase s _ A 2 hA pA (fun a b now h => by simp [update, hs, h])
      (fun a b now h => by simp [update, h])
  have e2 : s.run (A ++ B) = { s with state := State.R2 } := by
    rw [encoder_run_append, e1]
    exact encoder_run_phase _ _ B 3 hB pB (fun a b now h => by simp [update, h])
      (fun a b now h => by simp [update, h])
  have e3 : s.run (A ++ B ++ C) = { s with state := State.R3 } := by
    rw [encoder_run_append, e2]
    exact encoder_run_phase _ _ C 1 hC pC (fun a b now h => by simp [update, h])
      (fun a b now h => by simp [update, h])
  refine ⟨?_, by rw [e3], ?_⟩
  · intro q hq
    refine (encoder_run_pins_ne_zero q s ?_).1
    intro y hy
    have hmem := hq.mem hy
    simp only [List.mem_append] at hmem
    rcases hmem with (h | h) | h
    · rw [pA y h]; decide
    · rw [pB y h]; decide
    · rw [pC y h]; decide
  · intro q hq
    rw [encoder_run_append, e3, encoder_run_cons]
    have e4 : ({ s with state := State.R3 } : RotaryEncoder).update x.pinA x.pinB x.now
        = ⟨State.N, s.events.insert ⟨EventType.RIGHT, durationMs s.tsLastEvent x.now⟩,
            x.now⟩ := by
      simp [update, px]
    rw [e4]
    exact encoder_run_fixed _ q (fun y hy => by simp [update, pD y (hq.mem hy)])

/-- While the state before each update is neither `L3` nor `R3`, the event
queue stays as it is. -/
theorem encoder_run_without_third_state (s : RotaryEncoder) (q : List Sample) :
    (∀ r, r <+: q → r ≠ q → (s.run r).state ≠ State.L3 ∧ (s.run r).state ≠ State.R3) →
      (s.run q).events = s.events := by
  induction q using List.reverseRecOn with
  | nil => intro _; rfl
  | append_singleton q x ih =>
    intro h
    have hq := h q (List.prefix_append q [x]) (by simp)
    have ihq := ih (fun r hr hne =>
      h r (hr.trans (List.prefix_append q [x]))
        (fun heq => by
          have := hr.length_le
          rw [heq] at this
          simp at this))
    rw [encoder_run_append, encoder_run_cons, encoder_run_nil]
    rcases encoder_update_events (s.run q) x.pinA x.pinB x.now with ⟨e1, _⟩ | ⟨e, _⟩ | ⟨e, _⟩
    · exact e1.trans ihq
    · exact absurd e hq.1
    · exact absurd e hq.2

end RotaryEncoder

/-- C6: starting in Neutral, for samples showing the patterns 01, 11, 10, 00
(Left; `pins` = 1, 3, 2, 0) in that order, each held for one or more
consecutive samples (`A`, `B`, `C`, then `x :: D`): no prefix of the first
three blocks enqueues an event, the encoder is in `L3` after them, and the
first sample `x` of the last block takes it back to `N` and enqueues one
LEFT event; the remaining samples change nothing, so exactly one event is
enqueued and the encoder ends in `N`. The same for the patterns 10, 11, 01,
00 (Right; `pins` = 2, 3, 1, 0) with `R3` and one RIGHT event. -/
theorem C6_full_turn_one_event :
    (∀ (s : RotaryEncoder) (A B C D : List RotaryEncoder.Sample) (x : RotaryEncoder.Sample),
      s.state = RotaryEncoder.State.N → A ≠ [] → B ≠ [] → C ≠ [] →
      (∀ y ∈ A, RotaryEncoder.pins y.pinA y.pinB = 0b01) →
      (∀ y ∈ B, RotaryEncoder.pins y.pinA y.pinB = 0b11) →
      (∀ y ∈ C, RotaryEncoder.pins y.pinA y.pinB = 0b10) →
      RotaryEncoder.pins x.pinA x.pinB = 0b00 →
      (∀ y ∈ D, RotaryEncoder.pins y.pinA y.pinB = 0b00) →
      (∀ q, q <+: A ++ B ++ C → (s.run q).events = s.events)
        ∧ (s.run (A ++ B ++ C)).state = RotaryEncoder.State.L3
        ∧ (∀ q, q <+: D → s.run (A ++ B ++ C ++ x :: q)
            = ⟨RotaryEncoder.State.N,
                s.events.insert ⟨RotaryEncoder.EventType.LEFT, durationMs s.tsLastEvent x.now⟩,
                x.now⟩))
    ∧ (∀ (s : RotaryEncoder) (A B C D : List RotaryEncoder.Sample) (x : RotaryEncoder.Sample),
      s.state = RotaryEncoder.State.N → A ≠ [] → B ≠ [] → C ≠ [] →
      (∀ y ∈ A, RotaryEncoder.pins y.pinA y.pinB = 0b10) →
      (∀ y ∈ B, RotaryEncoder.pins y.pinA y.pinB = 0b11) →
      (∀ y ∈ C, RotaryEncoder.pins y.pinA y.pinB = 0b01) →
      RotaryEncoder.pins x.pinA x.pinB = 0b00 →
      (∀ y ∈ D, RotaryEncoder.pins y.pinA y.pinB = 0b00) →
      (∀ q, q <+: A ++ B ++ C → (s.run q).events = s.events)
        ∧ (s.run (A ++ B ++ C)).state = RotaryEncoder.State.R3
        ∧ (∀ q, q <+: D → s.run (A ++ B ++ C ++ x :: q)
            = ⟨RotaryEncoder.State.N,
                s.events.insert ⟨RotaryEncoder.EventType.RIGHT, durationMs s.tsLastEvent x.now⟩,
                x.now⟩)) :=
  ⟨fun s A B C D x hs hA hB hC pA pB pC px pD =>
      RotaryEncoder.left_turn s hs A B C D x hA hB hC pA pB pC px pD,
    fun s A B C D x hs hA hB hC pA pB pC px pD =>
      RotaryEncoder.right_turn s hs A B C D x hA hB hC pA pB pC px pD⟩

/-- C6 (witness): one sample per pattern of a left turn. -/
theorem C6_full_turn_one_event_witness :
    ((RotaryEncoder.new 0).run
        ([⟨false, true, 1000⟩] ++ [⟨false, false, 2000⟩] ++ [⟨true, false, 3000⟩])).state
      = RotaryEncoder.State.L3 :=
  (C6_full_turn_one_event.1 (RotaryEncoder.new 0) [⟨false, true, 1000⟩]
    [⟨false, false, 2000⟩] [⟨true, false, 3000⟩] [] ⟨true, true, 4000⟩ rfl
    (by decide) (by decide) (by decide) (by decide) (by decide) (by decide) (by decide)
    (by decide)).2.1

/-- C7: one `update` leaves the event queue as it is, or goes from `L3` to
`N` and enqueues LEFT, or goes from `R3` to `N` and enqueues RIGHT; hence
samples during which the state before each update is never `L3` or `R3`
enqueue nothing, at any point. In particular the partial turns N→L1→N and
N→L1→L2→L1→N and the mirrored N→R1→N and N→R1→R2→R1→N (any sample times)
end in `N` with the queue untouched. -/
theorem C7_events_only_from_third_state :
    (∀ (s : RotaryEncoder) (a b : Bool) (now : Nat),
      (s.update a b now).events = s.events
        ∨ (s.state = RotaryEncoder.State.L3 ∧ (s.update a b now).state = RotaryEncoder.State.N
          ∧ (s.update a b now).events
            = s.events.insert ⟨RotaryEncoder.EventType.LEFT, durationMs s.tsLastEvent now⟩)
        ∨ (s.state = RotaryEncoder.State.R3 ∧ (s.update a b now).state = RotaryEncoder.State.N
          ∧ (s.update a b now).events
            = s.events.insert ⟨RotaryEncoder.EventType.RIGHT, durationMs s.tsLastEvent now⟩))
    ∧ (∀ (s : RotaryEncoder) (samples : List RotaryEncoder.Sample),
      (∀ r, r <+: samples → r ≠ samples →
        (s.run r).state ≠ RotaryEncoder.State.L3 ∧ (s.run r).state ≠ RotaryEncoder.State.R3) →
      ∀ q, q <+: samples → (s.run q).events = s.events)
    ∧ (∀ (s : RotaryEncoder) (t1 t2 t3 t4 : Nat), s.state = RotaryEncoder.State.N →
      s.run [⟨false, true, t1⟩, ⟨true, true, t2⟩] = s
        ∧ s.run [⟨false, true, t1⟩, ⟨false, false, t2⟩, ⟨false, true, t3⟩, ⟨true, true, t4⟩] = s
        ∧ s.run [⟨true, false, t1⟩, ⟨true, true, t2⟩] = s
        ∧ s.run [⟨true, false, t1⟩, ⟨false, false, t2⟩, ⟨true, false, t3⟩, ⟨true, true, t4⟩]
          = s) := by
  refine ⟨?_, ?_, ?_⟩
  · intro s a b now
    rcases RotaryEncoder.encoder_update_events s a b now with ⟨e, _⟩ | ⟨h1, h2, _, h3⟩ | ⟨h1, h2, _, h3⟩
    · exact Or.inl e
    · exact Or.inr (Or.inl ⟨h1, h2, h3⟩)
    · exact Or.inr (Or.inr ⟨h1, h2, h3⟩)
  · intro s samples h q hq
    apply RotaryEncoder.encoder_run_without_third_state
    intro r hr hne
    refine h r (hr.trans hq) ?_
    intro heq
    subst heq
    exact hne (List.IsPrefix.eq_of_length_le hr hq.length_le)
  · intro s t1 t2 t3 t4 hs
    cases s with
    | mk state events ts =>
      simp only at hs
      subst hs
      refine ⟨?_, ?_, ?_, ?_⟩ <;>
        simp [RotaryEncoder.run, RotaryEncoder.update, RotaryEncoder.pins]

/-- C7 (witness): the partial turn N→L1→N on a new encoder. -/
theorem C7_events_only_from_third_state_witness :
    ((RotaryEncoder.new 0).run [⟨false, true, 1000⟩, ⟨true, true, 2000⟩]).events
      = (RotaryEncoder.new 0).events :=
  C7_events_only_from_third_state.2.1 (RotaryEncoder.new 0)
    [⟨false, true, 1000⟩, ⟨true, true, 2000⟩]
    (by
      intro r hr hne
      have hcases : r = [] ∨ r = [⟨false, true, 1000⟩] := by
        rcases List.prefix_cons_iff.mp hr with h | ⟨t, rfl, ht⟩
        · exact Or.inl h
        · rcases List.prefix_cons_iff.mp ht with h | ⟨u, rfl, hu⟩
          · exact Or.inr (by rw [h])
          · have := List.prefix_nil.mp hu
            subst this
            exact absurd rfl hne
      rcases hcases with rfl | rfl <;> decide)
    _ (List.prefix_refl _)

/-! ## Potentiometer -/

namespace Potentiometer

theorem linearPos_mono (p : Potentiometer) (a b : Nat) (h : a ≤ b) :
    p.linearPos a ≤ p.linearPos b := by
  unfold linearPos
  apply Nat.div_le_div_right
  apply Nat.mul_le_mul_right
  have h1 : max a p.adcMin ≤ max b p.adcMin := max_le_max h le_rfl
  have h2 : min (max a p.adcMin) p.adcMax ≤ min (max b p.adcMin) p.adcMax :=
    min_le_min h1 le_rfl
  omega

theorem linearPos_le (p : Potentiometer) (a : Nat) (h : p.adcMin ≤ p.adcMax) :
    p.linearPos a ≤ 255 := by
  unfold linearPos
  have h1 : min (max a p.adcMin) p.adcMax ≤ p.adcMax := min_le_right _ _
  have : (min (max a p.adcMin) p.adcMax - p.adcMin) * 256
      < 256 * (p.adcMax - p.adcMin + 1) := by omega
  have := (Nat.div_lt_iff_lt_mul (by omega : 0 < p.adcMax - p.adcMin + 1)).mpr this
  omega

/-- With a calibration inside the ADC range, `rawToPos` computes the exact
clamp-and-rescale of every reading: nothing wraps. -/
theorem rawToPos_eq_linearPos (p : Potentiometer) (dz : Nat → Nat) (raw : Nat)
    (h1 : p.adcMin ≤ p.adcMax) (h2 : p.adcMax ≤ 4095) :
    p.rawToPos dz raw = p.linearPos raw := by
  have hle := linearPos_le p raw h1
  unfold linearPos at hle ⊢
  unfold rawToPos
  have hD : toU32 (p.adcMax + U32 - p.adcMin + 1) = p.adcMax - p.adcMin + 1 := by
    unfold toU32 U32; omega
  have hclamp : (if (if raw < p.adcMin then p.adcMin else raw) > p.adcMax then p.adcMax
      else (if raw < p.adcMin then p.adcMin else raw)) = min (max raw p.adcMin) p.adcMax := by
    split_ifs <;> omega
  simp only [hD, hclamp]
  have hge : p.adcMin ≤ min (max raw p.adcMin) p.adcMax := by omega
  have hle2 : min (max raw p.adcMin) p.adcMax ≤ 4095 := by omega
  have hs : usub (min (max raw p.adcMin) p.adcMax) p.adcMin
      = min (max raw p.adcMin) p.adcMax - p.adcMin := by
    unfold usub U32; omega
  have hm : umul (min (max raw p.adcMin) p.adcMax - p.adcMin) 256
      = (min (max raw p.adcMin) p.adcMax - p.adcMin) * 256 := by
    unfold umul U32
    apply Nat.mod_eq_of_lt
    omega
  rw [hs, hm]
  unfold udiv
  rw [if_neg (by omega)]
  exact Nat.mod_eq_of_lt (by omega)

/-- The committed position after `update`, as computed by its hysteresis
block. -/
theorem update_position (p : Potentiometer) (dz : Nat → Nat) (adc now : Nat) :
    (p.update dz adc now).position =
      if p.rawToPos dz (adc % 65536) < p.position then
        if p.rawToPos dz (adc % 65536) = 255
            ∨ p.rawToPos dz (adc % 65536 + p.hysteresis) = p.rawToPos dz (adc % 65536)
          then p.rawToPos dz (adc % 65536)
          else (p.rawToPos dz (adc % 65536) + 1) % 256
      else if p.rawToPos dz (adc % 65536) > p.position then
        if p.rawToPos dz (adc % 65536) = 0
            ∨ p.rawToPos dz (usub (adc % 65536) p.hysteresis) = p.rawToPos dz (adc % 65536)
          then p.rawToPos dz (adc % 65536)
          else (p.rawToPos dz (adc % 65536) + 255) % 256
      else p.position := by
  unfold update
  dsimp only
  split_ifs <;> rfl

/-- A reading that maps to a position above 0 is at least the hysteresis
(for a hysteresis within one position step), so `newRaw - hysteresis` does
not wrap. -/
theorem hysteresis_le_of_pos (p : Potentiometer) (r : Nat)
    (h3 : p.hysteresis ≤ (p.adcMax - p.adcMin + 1) / 256) (hn : 1 ≤ p.linearPos r) :
    p.hysteresis ≤ r := by
  unfold linearPos at hn
  have hD : 0 < p.adcMax - p.adcMin + 1 := by omega
  have hmul := (Nat.le_div_iff_mul_le hD).mp hn
  have hh : p.hysteresis * 256 ≤ p.adcMax - p.adcMin + 1 :=
    le_trans (Nat.mul_le_mul_right 256 h3) (Nat.div_mul_le_self _ _)
  have hc : p.hysteresis ≤ min (max r p.adcMin) p.adcMax - p.adcMin := by omega
  omega

/-- An `update` that commits the position it found changes nothing at all:
no event is enqueued and the time of the last event stays. -/
theorem update_eq_self_of_position (p : Potentiometer) (dz : Nat → Nat) (adc now : Nat)
    (h : (p.update dz adc now).position = p.position) : p.update dz adc now = p := by
  rw [update_position] at h
  unfold update
  dsimp only
  rw [h]
  simp

end Potentiometer

/-- C8: with a calibration `adcMin ≤ adcMax ≤ 4095` and
`hysteresis ≤ (adcMax − adcMin + 1) / 256`, and the same position before the
update, the position after `update` is a non-decreasing function of the raw
reading: for readings `r1 ≤ r2 ≤ 4095` the position resulting from `r1` is
at most the one resulting from `r2` (whatever the times of the updates). -/
theorem C8_position_monotone (p : Potentiometer) (dz : Nat → Nat) (r1 r2 now1 now2 : Nat)
    (h1 : p.adcMin ≤ p.adcMax) (h2 : p.adcMax ≤ 4095)
    (h3 : p.hysteresis ≤ (p.adcMax - p.adcMin + 1) / 256)
    (hr : r1 ≤ r2) (hr2 : r2 ≤ 4095) :
    (p.update dz r1 now1).position ≤ (p.update dz r2 now2).position := by
  rw [Potentiometer.update_position, Potentiometer.update_position]
  have e1 : r1 % 65536 = r1 := Nat.mod_eq_of_lt (by omega)
  have e2 : r2 % 65536 = r2 := Nat.mod_eq_of_lt (by omega)
  simp only [e1, e2, Potentiometer.rawToPos_eq_linearPos p dz _ h1 h2]
  have n12 := Potentiometer.linearPos_mono p r1 r2 hr
  have u12 := Potentiometer.linearPos_mono p (r1 + p.hysteresis) (r2 + p.hysteresis) (by omega)
  have nu1 := Potentiometer.linearPos_mono p r1 (r1 + p.hysteresis) (by omega)
  have nu2 := Potentiometer.linearPos_mono p r2 (r2 + p.hysteresis) (by omega)
  have b1 := Potentiometer.linearPos_le p r1 h1
  have b2 := Potentiometer.linearPos_le p r2 h1
  have d12 : 1 ≤ p.linearPos r1 →
      p.linearPos (usub r1 p.hysteresis) ≤ p.linearPos (usub r2 p.hysteresis) := by
    intro hn
    have g1 := Potentiometer.hysteresis_le_of_pos p r1 h3 hn
    have s1 : usub r1 p.hysteresis = r1 - p.hysteresis := by unfold usub U32; omega
    have s2 : usub r2 p.hysteresis = r2 - p.hysteresis := by unfold usub U32; omega
    rw [s1, s2]
    exact Potentiometer.linearPos_mono p _ _ (by omega)
  have dn2 : 1 ≤ p.linearPos r2 → p.linearPos (usub r2 p.hysteresis) ≤ p.linearPos r2 := by
    intro hn
    have g2 := Potentiometer.hysteresis_le_of_pos p r2 h3 hn
    have s2 : usub r2 p.hysteresis = r2 - p.hysteresis := by unfold usub U32; omega
    rw [s2]
    exact Potentiometer.linearPos_mono p _ _ (by omega)
  generalize p.linearPos r1 = n1 at *
  generalize p.linearPos r2 = n2 at *
  generalize p.linearPos (r1 + p.hysteresis) = u1 at *
  generalize p.linearPos (r2 + p.hysteresis) = u2 at *
  generalize p.linearPos (usub r1 p.hysteresis) = d1 at *
  generalize p.linearPos (usub r2 p.hysteresis) = d2 at *
  split_ifs <;> omega

/-- C8 (witness): calibration 11..4077 with hysteresis 3, position 100,
readings 820 and 1610. -/
theorem C8_position_monotone_witness :
    ((⟨100, 11, 4077, 3, EventQueue.new, 0⟩ : Potentiometer).update (fun _ => 0) 820 5).position
      ≤ ((⟨100, 11, 4077, 3, EventQueue.new, 0⟩ : Potentiometer).update
          (fun _ => 0) 1610 7).position :=
  C8_position_monotone ⟨100, 11, 4077, 3, EventQueue.new, 0⟩ (fun _ => 0) 820 1610 5 7
    (by decide) (by decide) (by decide) (by decide) (by decide)

/-- C9: for every calibration, position and raw reading, and whatever the
platform returns for a division by zero, a second `update` with the same
reading changes nothing: the position stays the one committed by the first
update and no event is enqueued (the whole object is unchanged). -/
theorem C9_update_idempotent (p : Potentiometer) (dz : Nat → Nat) (r now1 now2 : Nat) :
    ((p.update dz r now1).update dz r now2).position = (p.update dz r now1).position
      ∧ ((p.update dz r now1).update dz r now2).events = (p.update dz r now1).events
      ∧ (p.update dz r now1).update dz r now2 = p.update dz r now1 := by
  have hmin : (p.update dz r now1).adcMin = p.adcMin := by
    unfold Potentiometer.update
    dsimp only
    split_ifs <;> rfl
  have hmax : (p.update dz r now1).adcMax = p.adcMax := by
    unfold Potentiometer.update
    dsimp only
    split_ifs <;> rfl
  have hcal : ∀ raw, (p.update dz r now1).rawToPos dz raw = p.rawToPos dz raw := by
    intro raw
    unfold Potentiometer.rawToPos
    rw [hmin, hmax]
  have hhys : (p.update dz r now1).hysteresis = p.hysteresis := by
    unfold Potentiometer.update
    dsimp only
    split_ifs <;> rfl
  have hn : p.rawToPos dz (r % 65536) ≤ 255 := by
    unfold Potentiometer.rawToPos
    dsimp only
    omega
  have hpos := Potentiometer.update_position p dz r now1
  have hsame : (p.update dz r now1).update dz r now2 = p.update dz r now1 := by
    apply Potentiometer.update_eq_self_of_position
    rw [Potentiometer.update_position (p.update dz r now1) dz r now2]
    rw [hhys]
    rw [hcal (r % 65536), hcal (r % 65536 + p.hysteresis),
      hcal (usub (r % 65536) p.hysteresis)]
    generalize p.update dz r now1 = q at hpos ⊢
    generalize p.rawToPos dz (r % 65536) = n at *
    generalize p.rawToPos dz (r % 65536 + p.hysteresis) = u at *
    generalize p.rawToPos dz (usub (r % 65536) p.hysteresis) = dn at *
    rw [hpos]
    split_ifs <;> omega
  exact ⟨by rw [hsame], by rw [hsame], hsame⟩

/-- C10 (evaluation at the failing input): the potentiometer of the firmware
(calibration 11..4077, hysteresis 3) is brought to position 100 by the
reading 1610; the reading 820 then maps to position 50, but 823 maps to 51,
so the committed position is 51 (this is what `getPosition` returns), while
the enqueued event carries the position 50 and the delta 50 − 100 = −50
instead of 51 and 51 − 100 = −49. -/
theorem C10_event_reports_uncommitted_position :
    (((Potentiometer.new 11 4077 3 0).update (fun _ => 0) 1610 1000000).getPosition = 100)
      ∧ ((((Potentiometer.new 11 4077 3 0).update (fun _ => 0) 1610 1000000).update
          (fun _ => 0) 820 3000000).getPosition = 51)
      ∧ ((((Potentiometer.new 11 4077 3 0).update (fun _ => 0) 1610 1000000).update
          (fun _ => 0) 820 3000000).events
        = ((Potentiometer.new 11 4077 3 0).update (fun _ => 0) 1610 1000000).events.insert
            ⟨-50, 50, 2000⟩) := by
  decide

/-! ## Event queue: first in, first out, bounded size -/


theorem ring_index_inj (N t i j : Nat) (hi : i < N) (hj : j < N)
    (h : (t + i) % N = (t + j) % N) : i = j := by
  have h1 : i % N = j % N := Nat.ModEq.add_left_cancel' t h
  rwa [Nat.mod_eq_of_lt hi, Nat.mod_eq_of_lt hj] at h1

namespace EventQueue
variable {Event : Type} {MAX_CAPACITY : Nat}

theorem wf_new [Inhabited Event] (hN : 1 ≤ MAX_CAPACITY) :
    WF (new : EventQueue Event MAX_CAPACITY) := by
  refine ⟨by simp [new], ?_, ?_, ?_, ?_⟩ <;> simp [new] <;> omega

theorem contents_new [Inhabited Event] :
    (new : EventQueue Event MAX_CAPACITY).contents = [] := by
  simp [new, contents]

theorem length_contents [Inhabited Event] (q : EventQueue Event MAX_CAPACITY) :
    q.contents.length = q.numEvents := by
  simp [contents]

theorem wf_insert (q : EventQueue Event MAX_CAPACITY) (event : Event)
    (hU : MAX_CAPACITY < U32) (h : WF q) : WF (q.insert event) := by
  obtain ⟨h1, h2, h3, h4, h5⟩ := h
  have e1 : uadd q.head 1 = q.head + 1 := by
    simp only [uadd, U32] at *; omega
  have e2 : uadd q.tail 1 = q.tail + 1 := by
    simp only [uadd, U32] at *; omega
  have hpos : 0 < MAX_CAPACITY := by omega
  unfold insert
  simp only [e1, e2]
  split_ifs with hlt
  · have e3 : uadd q.numEvents 1 = q.numEvents + 1 := by
      simp only [uadd, U32] at *; omega
    refine ⟨by simp [h1], Nat.mod_lt _ hpos, h3, by simp only [e3]; omega, ?_⟩
    simp only [e3, h5]
    rw [Nat.mod_add_mod, Nat.add_assoc]
  · have hn : q.numEvents = MAX_CAPACITY := by omega
    refine ⟨by simp [h1], Nat.mod_lt _ hpos, Nat.mod_lt _ hpos, h4, ?_⟩
    simp only [h5, hn]
    rw [Nat.mod_add_mod, Nat.mod_add_mod]
    simp [Nat.add_mod_right, Nat.add_assoc, Nat.add_comm]

end EventQueue

namespace EventQueue
variable {Event : Type} {MAX_CAPACITY : Nat}

theorem contents_insert [Inhabited Event] (q : EventQueue Event MAX_CAPACITY)
    (event : Event) (hU : MAX_CAPACITY < U32) (h : WF q) :
    (q.insert event).contents
      = if q.numEvents < MAX_CAPACITY then q.contents ++ [event]
        else q.contents.drop 1 ++ [event] := by
  obtain ⟨h1, h2, h3, h4, h5⟩ := h
  have e2 : uadd q.tail 1 = q.tail + 1 := by
    simp only [uadd, U32] at *; omega
  have hpos : 0 < MAX_CAPACITY := by omega
  split_ifs with hlt
  · have e3 : uadd q.numEvents 1 = q.numEvents + 1 := by
      simp only [uadd, U32] at *; omega
    simp only [insert, if_pos hlt, contents, e3, List.range_succ, List.map_append,
      List.map_cons, List.map_nil]
    congr 1
    · apply List.map_congr_left
      intro i hi
      have hi2 : i < q.numEvents := List.mem_range.mp hi
      have hne : q.head ≠ (q.tail + i) % MAX_CAPACITY := by
        rw [h5]
        intro hc
        have := ring_index_inj MAX_CAPACITY q.tail _ _ hlt (by omega) hc
        omega
      simp [List.getD_eq_getElem?_getD, List.getElem?_set_ne hne]
    · rw [← h5]
      simp [List.getD_eq_getElem?_getD, List.getElem?_set_self, h1, h2]
  · have hn : q.numEvents = MAX_CAPACITY := by omega
    have hht : q.head = q.tail := by
      rw [h5, hn, Nat.add_mod_right, Nat.mod_eq_of_lt h3]
    simp only [insert, if_neg hlt, contents, e2]
    apply List.ext_getElem
    · simp; omega
    · intro i hi1 hi2
      simp only [List.length_map, List.length_range] at hi1
      simp only [List.getElem_map, List.getElem_range]
      by_cases hlast : i = MAX_CAPACITY - 1
      · have e4 : ((q.tail + 1) % MAX_CAPACITY + i) % MAX_CAPACITY = q.head := by
          rw [Nat.mod_add_mod, hht, hlast]
          have : q.tail + 1 + (MAX_CAPACITY - 1) = q.tail + MAX_CAPACITY := by omega
          rw [this, Nat.add_mod_right, Nat.mod_eq_of_lt h3]
        rw [e4, List.getElem_append_right (by simp; omega)]
        simp [List.getD_eq_getElem?_getD, List.getElem?_set_self, h1, h2]
      · have e4 : ((q.tail + 1) % MAX_CAPACITY + i) % MAX_CAPACITY
            = (q.tail + (i + 1)) % MAX_CAPACITY := by
          rw [Nat.mod_add_mod]; congr 1; omega
        have hne : q.head ≠ (q.tail + (i + 1)) % MAX_CAPACITY := by
          rw [hht]
          intro hc
          have hc2 : (q.tail + 0) % MAX_CAPACITY = (q.tail + (i + 1)) % MAX_CAPACITY := by
            rw [Nat.add_zero, Nat.mod_eq_of_lt h3]; exact hc
          have := ring_index_inj MAX_CAPACITY q.tail _ _ hpos (by omega) hc2
          omega
        rw [e4, List.getElem_append_left (by simp; omega)]
        simp [List.getD_eq_getElem?_getD, List.getElem?_set_ne hne, Nat.add_comm]

theorem extract_of_wf [Inhabited Event] (q : EventQueue Event MAX_CAPACITY)
    (hU : MAX_CAPACITY < U32) (h : WF q) (hne : q.numEvents ≠ 0) :
    WF q.extract.2 ∧ q.contents = q.extract.1 :: q.extract.2.contents
      ∧ q.extract.2.numEvents = q.numEvents - 1 := by
  obtain ⟨h1, h2, h3, h4, h5⟩ := h
  have e2 : uadd q.tail 1 = q.tail + 1 := by
    simp only [uadd, U32] at *; omega
  have e3 : usub q.numEvents 1 = q.numEvents - 1 := by
    simp only [usub, U32] at *; omega
  have hpos : 0 < MAX_CAPACITY := by omega
  simp only [extract, if_pos hne, e2, e3]
  refine ⟨⟨h1, h2, Nat.mod_lt _ hpos, by simp only; omega, ?_⟩, ?_, trivial⟩
  · simp only [h5]
    rw [Nat.mod_add_mod]
    have e : q.tail + 1 + (q.numEvents - 1) = q.tail + q.numEvents := by omega
    rw [e]
  · obtain ⟨n, hn⟩ := Nat.exists_eq_succ_of_ne_zero hne
    simp only [contents, hn, Nat.succ_sub_one, List.range_succ_eq_map, List.map_cons,
      List.map_map, Nat.add_zero, Nat.mod_eq_of_lt h3, List.getD_eq_getElem?_getD]
    refine congrArg _ ?_
    apply List.map_congr_left
    intro i _
    simp only [Function.comp, Nat.succ_eq_add_one]
    rw [Nat.mod_add_mod]
    have e : q.tail + 1 + i = q.tail + (i + 1) := by omega
    rw [e]

end EventQueue

namespace EventQueue
variable {Event : Type} {MAX_CAPACITY : Nat}

theorem insertAll_of_wf [Inhabited Event] (events : List Event) :
    ∀ (q : EventQueue Event MAX_CAPACITY), MAX_CAPACITY < U32 → WF q →
      WF (q.insertAll events)
        ∧ (q.insertAll events).contents
          = (q.contents ++ events).drop ((q.contents ++ events).length - MAX_CAPACITY) := by
  induction events with
  | nil =>
    intro q _ h
    refine ⟨h, ?_⟩
    have := h.num_le
    have e : (q.contents ++ []).length - MAX_CAPACITY = 0 := by
      simp [length_contents]; omega
    rw [e]; simp [insertAll]
  | cons event events ih =>
    intro q hU h
    have h2 := ih (q.insert event) hU (wf_insert q event hU h)
    have hl := length_contents q
    have hle := h.num_le
    refine ⟨h2.1, ?_⟩
    have e0 : q.insertAll (event :: events) = (q.insert event).insertAll events := rfl
    rw [e0, h2.2, contents_insert q event hU h]
    split_ifs with hlt
    · simp
    · have hn : q.numEvents = MAX_CAPACITY := by omega
      have hpos : 0 < MAX_CAPACITY := h.head_lt.trans_le' (Nat.zero_le _)
      cases hc : q.contents with
      | nil => rw [hc] at hl; simp at hl; omega
      | cons c cs =>
        rw [hc] at hl
        simp only [List.length_cons] at hl
        have e1 : (List.drop 1 (c :: cs) ++ [event] ++ events).length - MAX_CAPACITY
            = events.length := by
          simp; omega
        have e2 : (c :: cs ++ event :: events).length - MAX_CAPACITY
            = events.length + 1 := by
          simp; omega
        rw [e1, e2]
        simp

theorem extractN_of_wf [Inhabited Event] (k : Nat) :
    ∀ (q : EventQueue Event MAX_CAPACITY), MAX_CAPACITY < U32 → WF q → q.numEvents = k →
      (extractN k q).1 = q.contents ∧ (extractN k q).2.numEvents = 0 := by
  induction k with
  | zero =>
    intro q _ _ hk
    simp [extractN, contents, hk]
  | succ k ih =>
    intro q hU h hk
    obtain ⟨h1, h2, h3⟩ := extract_of_wf q hU h (by omega)
    have h4 := ih q.extract.2 hU h1 (by omega)
    simp only [extractN]
    exact ⟨by rw [h2, h4.1], h4.2⟩

theorem fifo_last_events [Inhabited Event] (hN : 1 ≤ MAX_CAPACITY)
    (hU : MAX_CAPACITY < U32) (events : List Event) :
    (extractN (min events.length MAX_CAPACITY)
        ((new : EventQueue Event MAX_CAPACITY).insertAll events)).1
      = events.drop (events.length - MAX_CAPACITY)
    ∧ (extractN (min events.length MAX_CAPACITY)
        ((new : EventQueue Event MAX_CAPACITY).insertAll events)).2.size = 0 := by
  obtain ⟨h1, h2⟩ := insertAll_of_wf events (new : EventQueue Event MAX_CAPACITY) hU
    (wf_new hN)
  rw [contents_new, List.nil_append] at h2
  have hl := length_contents ((new : EventQueue Event MAX_CAPACITY).insertAll events)
  rw [h2, List.length_drop] at hl
  have hk : ((new : EventQueue Event MAX_CAPACITY).insertAll events).numEvents
      = min events.length MAX_CAPACITY := by omega
  obtain ⟨h3, h4⟩ := extractN_of_wf _ _ hU h1 hk
  exact ⟨by rw [h3, h2], h4⟩

theorem size_run_le [Inhabited Event] (requests : List (Request Event)) :
    ∀ (q : EventQueue Event MAX_CAPACITY), q.numEvents ≤ MAX_CAPACITY →
      (q.run requests).numEvents ≤ MAX_CAPACITY := by
  induction requests with
  | nil => intro q h; exact h
  | cons r rs ih =>
    intro q h
    apply ih
    cases r with
    | insert event =>
      simp only [step, insert]
      split_ifs with hlt
      · simp only [uadd, U32]; omega
      · exact h
    | extract =>
      simp only [step, extract]
      split_ifs with hz
      · simp only [usub, U32]; omega
      · exact h

end EventQueue

/-- C11: for every capacity N with 1 ≤ N (N a 32-bit value) and every list of
events inserted one by one into an empty queue, the following min(m, N)
extractions return exactly the last min(m, N) inserted events, oldest first,
and leave the queue empty; with N = 8 and nine insertions the eight
extractions return the inserted events without the first one. -/
theorem C11_extractions_return_last_inserted {Event : Type} [Inhabited Event]
    (N : Nat) (hN : 1 ≤ N) (hU : N < U32) (events : List Event) :
    (EventQueue.extractN (min events.length N)
        ((EventQueue.new : EventQueue Event N).insertAll events)).1
      = events.drop (events.length - N)
    ∧ (events.drop (events.length - N)).length = min events.length N
    ∧ (EventQueue.extractN (min events.length N)
        ((EventQueue.new : EventQueue Event N).insertAll events)).2.size = 0
    ∧ ∀ nine : List Event, nine.length = 9 →
        (EventQueue.extractN 8
          ((EventQueue.new : EventQueue Event 8).insertAll nine)).1 = nine.tail := by
  refine ⟨(EventQueue.fifo_last_events hN hU events).1, by simp; omega,
    (EventQueue.fifo_last_events hN hU events).2, ?_⟩
  intro nine h9
  have h := (@EventQueue.fifo_last_events Event 8 _ (by decide) (by decide) nine).1
  rw [h9] at h
  rw [← List.drop_one]
  exact h

/-- C11 (witness): capacity 8 and the nine events 10, ..., 18: the eight
extractions return 11, ..., 18. -/
theorem C11_extractions_return_last_inserted_witness :
    (EventQueue.extractN (min [10, 11, 12, 13, 14, 15, 16, 17, 18].length 8)
        ((EventQueue.new : EventQueue Nat 8).insertAll
          [10, 11, 12, 13, 14, 15, 16, 17, 18])).1
      = [11, 12, 13, 14, 15, 16, 17, 18] :=
  (C11_extractions_return_last_inserted 8 (by decide) (by decide)
    [10, 11, 12, 13, 14, 15, 16, 17, 18]).1

/-- C12: after every sequence of insert and extract calls on a new queue of
capacity N the size is at most N (and, being unsigned, at least 0); insert on
a full queue leaves the size at N; extract on an empty queue leaves the whole
queue unchanged, with size 0. -/
theorem C12_size_stays_within_capacity {Event : Type} [Inhabited Event] (N : Nat)
    (requests : List (EventQueue.Request Event)) :
    ((EventQueue.new : EventQueue Event N).run requests).size ≤ N
    ∧ (∀ (q : EventQueue Event N) (event : Event), q.size = N →
        (q.insert event).size = N)
    ∧ (∀ q : EventQueue Event N, q.size = 0 →
        q.extract.2 = q ∧ q.extract.2.size = 0) := by
  refine ⟨EventQueue.size_run_le requests _ (Nat.zero_le _), ?_, ?_⟩
  · intro q event h
    simp only [EventQueue.size] at h
    simp [EventQueue.size, EventQueue.insert, h]
  · intro q h
    simp only [EventQueue.size] at h
    simp [EventQueue.size, EventQueue.extract, h]

/-- C12 (witness): capacity 2: the size after three inserts and an extract,
an insert on the full queue, an extract on the new queue. -/
theorem C12_size_stays_within_capacity_witness :
    ((EventQueue.new : EventQueue Nat 2).run
        [.insert 1, .insert 2, .insert 3, .extract]).size ≤ 2
    ∧ (((EventQueue.new : EventQueue Nat 2).insertAll [1, 2]).insert 3).size = 2
    ∧ (EventQueue.new : EventQueue Nat 2).extract.2 = EventQueue.new :=
  ⟨(C12_size_stays_within_capacity 2 _).1,
    (C12_size_stays_within_capacity 2 []).2.1 _ 3 (by decide),
    ((C12_size_stays_within_capacity 2 []).2.2 EventQueue.new (by decide)).1⟩

/-! ## Report channels: what `sendReport` transmits -/

theorem composite_sendReport_cases (c : UsbHidComposite) (p : Nat) (hp : p < 256)
    (accepted : Bool) :
    (∃ i, (i = 1 ∨ i = 2 ∨ i = 3) ∧ p < i
        ∧ c.currentOf i ≠ c.previousOf i
        ∧ (∀ j, p < j → j < i → c.currentOf j = c.previousOf j)
        ∧ (c.sendReport p accepted).1 = some ⟨i, c.reportOf i⟩
        ∧ (∀ j, (c.sendReport p accepted).2.previousOf j
            = if j = i ∧ accepted = true then c.currentOf j else c.previousOf j)
        ∧ (∀ j, (c.sendReport p accepted).2.currentOf j = c.currentOf j)
        ∧ (c.sendReport p accepted).2.newCCReport = c.newCCReport
        ∧ (c.sendReport p accepted).2.newSCReport = c.newSCReport
        ∧ (c.sendReport p accepted).2.newSliderReport = c.newSliderReport)
    ∨ ((∀ j, p < j → j ≤ 3 → c.currentOf j = c.previousOf j)
        ∧ c.sendReport p accepted = (none, c)) := by
  have hmod : p % 256 = p := Nat.mod_eq_of_lt hp
  unfold UsbHidComposite.sendReport
  simp only [hmod, REPORT_ID_CONSUMER_CONTROL, REPORT_ID_SYSTEM_CONTROL, REPORT_ID_SLIDER]
  by_cases h1 : p + 1 = 1 ∧ c.currentCCReport ≠ c.previousCCReport
  · left
    rw [if_pos h1]
    refine ⟨1, by simp, by omega, h1.2, by intro j a b; omega, rfl, ?_, ?_, ?_, ?_, ?_⟩
    · intro j
      rcases j with _ | _ | _ | _ | j <;> cases accepted <;>
        simp [UsbHidComposite.previousOf, UsbHidComposite.currentOf]
    · intro j; cases accepted <;> rfl
    all_goals cases accepted <;> rfl
  rw [if_neg h1]
  by_cases h2 : (p + 1 = 1 ∨ p + 1 = 2) ∧ c.currentSCReport ≠ c.previousSCReport
  · left
    rw [if_pos h2]
    refine ⟨2, by simp, by omega, h2.2, ?_, rfl, ?_, ?_, ?_, ?_, ?_⟩
    · intro j a b
      have hj : j = 1 := by omega
      subst hj
      by_contra hc
      exact h1 ⟨by omega, hc⟩
    · intro j
      rcases j with _ | _ | _ | _ | j <;> cases accepted <;>
        simp [UsbHidComposite.previousOf, UsbHidComposite.currentOf]
    · intro j; cases accepted <;> rfl
    all_goals cases accepted <;> rfl
  rw [if_neg h2]
  by_cases h3 : (p + 1 = 1 ∨ p + 1 = 2 ∨ p + 1 = 3)
      ∧ c.currentSliderReport ≠ c.previousSliderReport
  · left
    rw [if_pos h3]
    refine ⟨3, by simp, by omega, h3.2, ?_, rfl, ?_, ?_, ?_, ?_, ?_⟩
    · intro j a b
      have hj : j = 1 ∨ j = 2 := by omega
      rcases hj with rfl | rfl
      · by_contra hc
        exact h1 ⟨by omega, hc⟩
      · by_contra hc
        exact h2 ⟨by omega, hc⟩
    · intro j
      rcases j with _ | _ | _ | _ | j <;> cases accepted <;>
        simp [UsbHidComposite.previousOf, UsbHidComposite.currentOf]
    · intro j; cases accepted <;> rfl
    all_goals cases accepted <;> rfl
  rw [if_neg h3]
  right
  refine ⟨?_, rfl⟩
  intro j a b
  have hj : j = 1 ∨ j = 2 ∨ j = 3 := by omega
  rcases hj with rfl | rfl | rfl
  · by_contra hc
    exact h1 ⟨by omega, hc⟩
  · by_contra hc
    exact h2 ⟨by omega, hc⟩
  · by_contra hc
    exact h3 ⟨by omega, hc⟩

theorem composite_quiet_after_three (c : UsbHidComposite) (p : Nat) (accepted : Bool) :
    ((((c.sendReport 0 true).2.sendReport 0 true).2.sendReport 0 true).2.sendReport p
      accepted).1 = none := by
  by_cases h1 : c.currentCCReport = c.previousCCReport <;>
  by_cases h2 : c.currentSCReport = c.previousSCReport <;>
  by_cases h3 : c.currentSliderReport = c.previousSliderReport <;>
  simp [UsbHidComposite.sendReport, REPORT_ID_CONSUMER_CONTROL, REPORT_ID_SYSTEM_CONTROL,
    REPORT_ID_SLIDER, h1, h2, h3]

/-- C13 (counterexample): on the composite channel with
its first report installed, two calls `sendReport(0)` in a row, both accepted
by the transport and with nothing in between, both transmit: the first the
consumer control report (id 1), the second the system control report (id 2);
so does the second call when it is given the id 1 that was just sent. -/
theorem C13_composite_second_call_transmits :
    (UsbHidComposite.new.startAssemblingReport.finishAssemblingReport.sendReport 0 true).1
      = some ⟨1, [0, 0]⟩
    ∧ ((UsbHidComposite.new.startAssemblingReport.finishAssemblingReport.sendReport 0
        true).2.sendReport 0 true).1 = some ⟨2, [0]⟩
    ∧ ((UsbHidComposite.new.startAssemblingReport.finishAssemblingReport.sendReport 0
        true).2.sendReport 1 true).1 = some ⟨2, [0]⟩ := by
  decide

/-- C13 (amended): with the transport accepting the first transmission and
nothing between the two calls, the second of two `sendReport` calls
transmits nothing on the Keyboard channel with idle rate 0 and on the Mouse
channel, whatever the installed report; on the Composite channel the second
call never transmits again the sub-report that the first call transmitted
(it can transmit another one), and after three calls `sendReport(0)` in a
row a further call transmits nothing. -/
theorem C13_second_call_sends_nothing_again (k : UsbHidKeyboard) (hk : k.idleRate = 0)
    (m : UsbHidMouse) (c : UsbHidComposite) (p1 p2 now1 now2 : Nat)
    (protocol1 protocol2 accepted2 : Bool) :
    ((k.sendReport p1 now1 protocol1 true).2.sendReport p2 now2 protocol2 accepted2).1 = none
    ∧ ((m.sendReport p1 protocol1 true).2.sendReport p2 protocol2 accepted2).1 = none
    ∧ (∀ t1 t2, (c.sendReport p1 true).1 = some t1 →
        ((c.sendReport p1 true).2.sendReport p2 accepted2).1 = some t2 →
        t2.report_id ≠ t1.report_id)
    ∧ ((((c.sendReport 0 true).2.sendReport 0 true).2.sendReport 0 true).2.sendReport p2
        accepted2).1 = none := by
  refine ⟨?_, ?_, ?_, composite_quiet_after_three c p2 accepted2⟩
  · by_cases h : k.currentReport = k.previousReport <;>
      simp [UsbHidKeyboard.sendReport, hk, h]
  · by_cases h : m.currentReport = m.previousReport <;>
      simp [UsbHidMouse.sendReport, h]
  · intro t1 t2 e1 e2
    have hm : ∀ (d : UsbHidComposite) (p : Nat) (a : Bool),
        d.sendReport p a = d.sendReport (p % 256) a := by
      intro d p a
      simp [UsbHidComposite.sendReport]
    rw [hm c p1] at e1 e2
    rw [hm _ p2] at e2
    rcases composite_sendReport_cases c (p1 % 256) (Nat.mod_lt _ (by decide)) true with
      ⟨i, _, _, _, _, f1, f2, f3, _⟩ | ⟨_, f1⟩
    · rcases composite_sendReport_cases (c.sendReport (p1 % 256) true).2 (p2 % 256)
        (Nat.mod_lt _ (by decide)) accepted2 with ⟨i2, _, _, g1, _, g2, _⟩ | ⟨_, g1⟩
      · rw [f1] at e1
        rw [g2] at e2
        cases e1
        cases e2
        intro hc
        simp only at hc
        subst hc
        apply g1
        rw [f2, f3]
        simp
      · rw [g1] at e2
        cases e2
    · rw [f1] at e1
      cases e1

/-- C13 (witness): the keyboard for `KRO` 6, whose idle rate is 0, and the
mouse, both as constructed. -/
theorem C13_second_call_sends_nothing_again_witness :
    (((UsbHidKeyboard.new 6).sendReport 0 100 true true).2.sendReport 0 200 true true).1 = none
    ∧ ((UsbHidMouse.new.sendReport 0 true true).2.sendReport 0 true true).1 = none :=
  ⟨(C13_second_call_sends_nothing_again (UsbHidKeyboard.new 6) rfl UsbHidMouse.new
      UsbHidComposite.new 0 0 100 200 true true true).1,
    (C13_second_call_sends_nothing_again (UsbHidKeyboard.new 6) rfl UsbHidMouse.new
      UsbHidComposite.new 0 0 100 200 true true true).2.1⟩

/-! ## Keyboard: idle rate -/

theorem tdiv_1000_gt_iff (d n : Int) (hn : 0 ≤ n) :
    d.tdiv 1000 > n ↔ 1000 * n + 1000 ≤ d := by
  rcases lt_or_le d 0 with h | h
  · have e : d.tdiv 1000 = -((-d).tdiv 1000) := by
      rw [Int.neg_tdiv, Int.neg_neg]
    have h2 : 0 ≤ (-d).tdiv 1000 := Int.tdiv_nonneg (by omega) (by decide)
    constructor
    · intro h3; omega
    · intro h3; omega
  · rw [Int.tdiv_eq_ediv h (by decide)]
    omega

theorem setIdle_baseline (k : UsbHidKeyboard) (idleRate now : Nat)
    (hr : idleRate < 256) :
    (k.setIdle idleRate now).2.previousReportTime
      = if k.idleRate = 0 ∧ idleRate ≠ 0 then
          (now + U64 - (4000 * idleRate) % U64) % U64
        else if idleRate ≠ 0 ∧ absolute_time_diff_us k.previousReportTime now
            > 4000 * ((k.idleRate : Int) - 1) then
          (((k.previousReportTime : Int) + 4000 * ((k.idleRate : Int) - (idleRate : Int)))
            % (U64 : Int)).toNat
        else k.previousReportTime := by
  simp only [UsbHidKeyboard.setIdle, Nat.mod_eq_of_lt hr]

/-- C16 (counterexample): with idle rate 1 (4 ms) and an unchanged
report, 4500 µs after the baseline more than 4 ms have elapsed, yet
`sendReport` transmits nothing; the state is the one reached from the
constructor by a first report at time 0 and `setIdle(1)` at time 0. -/
theorem C16_no_forced_report_after_4500_us :
    ((((UsbHidKeyboard.new 6).sendReport 0 0 true true).2.setIdle 1 0).2.idleRate = 1
    ∧ (((UsbHidKeyboard.new 6).sendReport 0 0 true true).2.setIdle 1 0).2.currentReport
      = (((UsbHidKeyboard.new 6).sendReport 0 0 true true).2.setIdle 1 0).2.previousReport
    ∧ absolute_time_diff_us
        (((UsbHidKeyboard.new 6).sendReport 0 0 true true).2.setIdle 1 0).2.previousReportTime
        500 = 4500
    ∧ ((((UsbHidKeyboard.new 6).sendReport 0 0 true true).2.setIdle 1 0).2.sendReport 0 500
        true true).1 = none) := by
  decide

theorem absolute_time_diff_us_eq (t0 t1 : Nat) :
    absolute_time_diff_us t0 t1
      = if (t1 + 18446744073709551616 - t0 % 18446744073709551616) % 18446744073709551616
            < 9223372036854775808 then
          (((t1 + 18446744073709551616 - t0 % 18446744073709551616)
            % 18446744073709551616 : Nat) : Int)
        else (((t1 + 18446744073709551616 - t0 % 18446744073709551616)
            % 18446744073709551616 : Nat) : Int) - 18446744073709551616 := by
  unfold absolute_time_diff_us
  norm_num

/-- C16 (amended): `setIdle(r′)` returns true, stores r′, and adjusts the
baseline `previousReportTime`: if the old rate r and r′ are both non-zero
and more than 4000·(r − 1) µs have passed since the baseline, the baseline
is shifted by 4000·(r − r′) µs in 64-bit arithmetic, so that baseline′ +
4000·r′ = baseline + 4000·r modulo 2^64; if r = 0 and r′ ≠ 0 the baseline
becomes now − 4000·r′ µs (modulo 2^64), 4000·r′ µs before now; in every
other case it is unchanged. `sendReport` transmits an unchanged report
exactly when r ≠ 0 and the elapsed microseconds divided by 1000 (rounded
towards zero) exceed 4·r, that is when at least 4·r + 1 ms have elapsed
since the baseline; never when r = 0. -/
theorem C16_idle_rate_adjusts_baseline (k : UsbHidKeyboard) (r1 now p : Nat)
    (reportProtocol accepted : Bool) (hr1 : r1 < 256) (hnow : now < U64)
    (hprev : k.previousReportTime < U64) :
    (k.setIdle r1 now).1 = true
    ∧ (k.setIdle r1 now).2.idleRate = r1
    ∧ (k.setIdle r1 now).2.previousReportTime < U64
    ∧ (k.idleRate ≠ 0 → r1 ≠ 0 →
        absolute_time_diff_us k.previousReportTime now > 4000 * ((k.idleRate : Int) - 1) →
        ((k.setIdle r1 now).2.previousReportTime : Int)
            = ((k.previousReportTime : Int) + 4000 * ((k.idleRate : Int) - (r1 : Int)))
              % (U64 : Int)
          ∧ ((k.setIdle r1 now).2.previousReportTime + 4000 * r1) % U64
            = (k.previousReportTime + 4000 * k.idleRate) % U64)
    ∧ (k.idleRate = 0 → r1 ≠ 0 →
        ((k.setIdle r1 now).2.previousReportTime : Int)
            = ((now : Int) - 4000 * (r1 : Int)) % (U64 : Int)
          ∧ absolute_time_diff_us (k.setIdle r1 now).2.previousReportTime now
            = 4000 * (r1 : Int))
    ∧ (¬ (k.idleRate = 0 ∧ r1 ≠ 0) →
        ¬ (k.idleRate ≠ 0 ∧ r1 ≠ 0
            ∧ absolute_time_diff_us k.previousReportTime now
              > 4000 * ((k.idleRate : Int) - 1)) →
        (k.setIdle r1 now).2.previousReportTime = k.previousReportTime)
    ∧ (k.currentReport = k.previousReport →
        ((k.sendReport p now reportProtocol accepted).1 ≠ none
          ↔ k.idleRate ≠ 0
            ∧ 4000 * (k.idleRate : Int) + 1000
              ≤ absolute_time_diff_us k.previousReportTime now)) := by
  have hb := setIdle_baseline k r1 now hr1
  refine ⟨rfl, by simp [UsbHidKeyboard.setIdle, Nat.mod_eq_of_lt hr1], ?_, ?_, ?_, ?_, ?_⟩
  · rw [hb]
    simp only [U64] at *
    split_ifs
    · omega
    · omega
    · exact hprev
  · intro h0 h1 hd
    rw [hb, if_neg (by tauto), if_pos ⟨h1, hd⟩]
    simp only [U64] at *
    constructor <;> omega
  · intro h0 h1
    rw [hb, if_pos ⟨h0, h1⟩, absolute_time_diff_us_eq]
    simp only [U64] at *
    constructor
    · omega
    · split_ifs <;> omega
  · intro h0 h1
    rw [hb, if_neg h0, if_neg (by tauto)]
  · intro he
    simp only [UsbHidKeyboard.sendReport, he, ne_eq, not_true_eq_false, or_false]
    have hi := tdiv_1000_gt_iff (absolute_time_diff_us k.previousReportTime now)
      (4 * (k.idleRate : Int)) (by omega)
    by_cases h0 : k.idleRate = 0
    · simp [h0]
    · by_cases hd : (absolute_time_diff_us k.previousReportTime now).tdiv 1000
          > 4 * (k.idleRate : Int)
      · have := hi.mp hd
        simp only [h0, not_false_eq_true, true_and, if_pos hd]
        simp
        omega
      · have : ¬ (1000 * (4 * (k.idleRate : Int)) + 1000
            ≤ absolute_time_diff_us k.previousReportTime now) := fun h => hd (hi.mpr h)
        simp only [h0, not_false_eq_true, true_and, if_neg hd]
        simp
        omega

/-- C14: for every state of the Composite channel and every previous report
id p (a byte), `sendReport(p)` hands at most one report to the USB stack:
either the sub-report i in 1..3 with the lowest id greater than p whose
current value differs from the value sent last, as its current bytes, and
then only the sent-last value of sub-report i changes (to the current value,
when the stack accepts the report), or nothing, no sub-report with an id
greater than p being unsent, and then the state is unchanged. With all three
sub-reports unsent, `sendReport(0)` sends id 1 and a following
`sendReport(1)` sends id 2. -/
theorem C14_composite_sends_lowest_unsent (c : UsbHidComposite) (p : Nat) (hp : p < 256)
    (accepted : Bool) :
    ((∃ i, (i = 1 ∨ i = 2 ∨ i = 3) ∧ p < i
        ∧ c.currentOf i ≠ c.previousOf i
        ∧ (∀ j, p < j → j < i → c.currentOf j = c.previousOf j)
        ∧ (c.sendReport p accepted).1 = some ⟨i, c.reportOf i⟩
        ∧ (∀ j, (c.sendReport p accepted).2.previousOf j
            = if j = i ∧ accepted = true then c.currentOf j else c.previousOf j)
        ∧ (∀ j, (c.sendReport p accepted).2.currentOf j = c.currentOf j)
        ∧ (c.sendReport p accepted).2.newCCReport = c.newCCReport
        ∧ (c.sendReport p accepted).2.newSCReport = c.newSCReport
        ∧ (c.sendReport p accepted).2.newSliderReport = c.newSliderReport)
      ∨ ((∀ j, p < j → j ≤ 3 → c.currentOf j = c.previousOf j)
        ∧ c.sendReport p accepted = (none, c)))
    ∧ (c.currentOf 1 ≠ c.previousOf 1 → c.currentOf 2 ≠ c.previousOf 2 →
        c.currentOf 3 ≠ c.previousOf 3 →
        (c.sendReport 0 accepted).1 = some ⟨1, c.reportOf 1⟩
        ∧ ((c.sendReport 0 accepted).2.sendReport 1 accepted).1 = some ⟨2, c.reportOf 2⟩) := by
  refine ⟨composite_sendReport_cases c p hp accepted, ?_⟩
  intro h1 h2 h3
  simp only [UsbHidComposite.currentOf, UsbHidComposite.previousOf] at h1 h2 h3
  cases accepted <;>
    simp [UsbHidComposite.sendReport, UsbHidComposite.reportOf, REPORT_ID_CONSUMER_CONTROL,
      REPORT_ID_SYSTEM_CONTROL, REPORT_ID_SLIDER, h1, h2, h3]

/-- C14 (witness): the composite channel as constructed with the slider at
7, so that all three sub-reports are unsent. -/
theorem C14_composite_sends_lowest_unsent_witness :
    (({ UsbHidComposite.new with currentSliderReport := 7 }).sendReport 0 true).1
        = some ⟨1, ({ UsbHidComposite.new with currentSliderReport := 7 }).reportOf 1⟩
    ∧ ((({ UsbHidComposite.new with currentSliderReport := 7 }).sendReport 0
          true).2.sendReport 1 true).1
        = some ⟨2, ({ UsbHidComposite.new with currentSliderReport := 7 }).reportOf 2⟩ :=
  (C14_composite_sends_lowest_unsent { UsbHidComposite.new with currentSliderReport := 7 } 0
    (by decide) true).2 (by decide) (by decide) (by decide)

/-- C16 (witness): idle rate 2 with baseline 1000 µs; `setIdle(1)` at
6000 µs moves the baseline to 5000 µs. -/
theorem C16_idle_rate_adjusts_baseline_witness :
    ((((UsbHidKeyboard.new 6).setIdle 2 9000).2.setIdle 1 6000).2.previousReportTime
        + 4000 * 1) % U64
      = (((UsbHidKeyboard.new 6).setIdle 2 9000).2.previousReportTime
        + 4000 * ((UsbHidKeyboard.new 6).setIdle 2 9000).2.idleRate) % U64 :=
  ((C16_idle_rate_adjusts_baseline ((UsbHidKeyboard.new 6).setIdle 2 9000).2 1 6000 0 true
    true (by decide) (by decide) (by decide)).2.2.2.1 (by decide) (by decide)
    (by decide)).2

/-! ## Keyboard: assembling a report -/

namespace UsbHidKeyboard

theorem fillKeys_length (keys : List Nat) (needed : Nat) (slots : List Nat) :
    ∀ j, (fillKeys keys needed slots j).length = slots.length := by
  induction slots with
  | nil => intro j; rfl
  | cons slot slots ih =>
    intro j
    simp only [fillKeys]
    split_ifs <;> simp [ih]

theorem fillKeys_head (keys : List Nat) (needed : Nat) (slots : List Nat) (j : Nat)
    (h : slots.head? = some 1) : (fillKeys keys needed slots j).head? = some 1 := by
  cases slots with
  | nil => simp at h
  | cons slot slots =>
    simp only [List.head?_cons, Option.some.injEq] at h
    subst h
    simp only [fillKeys, HID_KEY_NONE, Nat.one_ne_zero, if_false]
    split_ifs <;> rfl

theorem fillKeys_occupied (keys : List Nat) (needed : Nat)
    (hk : ∀ i, i < needed → keys.getD i 0 ≠ 0) (slots : List Nat) :
    ∀ j, needed - j ≤ slots.countP (fun c => c = HID_KEY_NONE) →
      (fillKeys keys needed slots j).countP (fun c => c ≠ HID_KEY_NONE)
        = slots.countP (fun c => c ≠ HID_KEY_NONE) + (needed - j) := by
  induction slots with
  | nil => intro j h; simp at h; simp [fillKeys]; omega
  | cons slot slots ih =>
    intro j h
    simp only [fillKeys, HID_KEY_NONE, ne_eq] at *
    by_cases hj : j < needed
    · rw [if_pos hj]
      by_cases hs : slot = 0
      · rw [if_pos hs]
        subst hs
        have h2 := hk j hj
        simp only [List.countP_cons, decide_True, if_true, not_true_eq_false,
          decide_False, Bool.false_eq_true, if_false, h2, not_false_eq_true] at h ⊢
        rw [ih (j + 1) (by omega)]
        omega
      · rw [if_neg hs]
        simp only [List.countP_cons, hs, decide_False, Bool.false_eq_true, if_false,
          not_false_eq_true, decide_True, if_true] at h ⊢
        rw [ih j (by omega)]
        omega
    · rw [if_neg hj]
      omega

theorem fillKeys_keeps_occupied (keys : List Nat) (needed : Nat) (slots : List Nat) :
    ∀ j i, slots.getD i 0 ≠ 0 → (fillKeys keys needed slots j).getD i 0 = slots.getD i 0 := by
  induction slots with
  | nil => intro j i h; simp at h
  | cons slot slots ih =>
    intro j i h
    simp only [fillKeys, HID_KEY_NONE]
    cases i with
    | zero =>
      simp only [List.getD_cons_zero] at h
      simp only [if_neg h]
      split_ifs <;> rfl
    | succ i =>
      simp only [List.getD_cons_succ] at h
      split_ifs
      · simp only [List.getD_cons_succ]; exact ih _ _ h
      · simp only [List.getD_cons_succ]; exact ih _ _ h
      · rfl

theorem fillKeys_empty_slots (keys : List Nat) (needed : Nat) (hn : needed ≤ keys.length)
    (slots : List Nat) :
    ∀ j, j ≤ needed → needed - j ≤ slots.countP (fun c => c = HID_KEY_NONE) →
      ((slots.zip (fillKeys keys needed slots j)).filter (fun s => s.1 = 0)).map Prod.snd
        = (keys.drop j).take (needed - j)
          ++ List.replicate (slots.countP (fun c => c = HID_KEY_NONE) - (needed - j)) 0 := by
  induction slots with
  | nil => intro j _ h; simp at h; simp [fillKeys]; omega
  | cons slot slots ih =>
    intro j hjn h
    simp only [fillKeys, HID_KEY_NONE] at *
    by_cases hj : j < needed
    · rw [if_pos hj]
      by_cases hs : slot = 0
      · rw [if_pos hs]
        subst hs
        simp only [List.countP_cons, decide_True, if_true] at h ⊢
        simp only [List.zip_cons_cons, List.filter_cons, decide_True, if_true, List.map_cons]
        rw [ih (j + 1) (by omega) (by omega)]
        have e1 : needed - j = (needed - (j + 1)) + 1 := by omega
        have e2 : List.countP (fun c => decide (c = 0)) slots + 1 - (needed - j)
            = List.countP (fun c => decide (c = 0)) slots - (needed - (j + 1)) := by omega
        rw [e2]
        conv_rhs => rw [e1]
        rw [List.drop_eq_getElem_cons (by omega : j < keys.length), List.take_succ_cons]
        simp [List.getD_eq_getElem?_getD, List.getElem?_eq_getElem (by omega : j < keys.length)]
      · rw [if_neg hs]
        simp only [List.countP_cons, hs, decide_False, Bool.false_eq_true, if_false,
          Nat.add_zero] at h ⊢
        simp only [List.zip_cons_cons, List.filter_cons, hs, decide_False,
          Bool.false_eq_true, if_false]
        exact ih j hjn h
    · rw [if_neg hj]
      have e : needed - j = 0 := by omega
      simp only [e, List.take_zero, List.nil_append, Nat.sub_zero]
      clear ih h
      induction slots generalizing slot with
      | nil =>
        by_cases hs : slot = 0 <;> simp [hs]
      | cons s2 rest ih2 =>
        have := ih2 s2
        by_cases hs : slot = 0
        · subst hs
          simp only [List.zip_cons_cons, List.filter_cons, decide_True, if_true,
            List.map_cons, List.countP_cons] at this ⊢
          rw [this]
          simp [List.replicate_succ]
        · simp only [List.zip_cons_cons, List.filter_cons, hs, decide_False,
            Bool.false_eq_true, if_false, List.countP_cons, Nat.add_zero] at this ⊢
          exact this

end UsbHidKeyboard

namespace UsbHidKeyboard

theorem needed_eq (action : Action) :
    action.input.keys.countP (fun c => c ≠ HID_KEY_NONE) = (nonEmptyKeys action).length := by
  rw [List.countP_eq_length_filter]; rfl

theorem contiguous_prefix_nonzero (action : Action) (h : KeysContiguous action) :
    ∀ i, i < (nonEmptyKeys action).length → action.input.keys.getD i 0 ≠ 0 := by
  intro i hi
  have hle : (nonEmptyKeys action).length ≤ action.input.keys.length :=
    List.length_filter_le _ _
  have h1 : action.input.keys.getD i 0 = (nonEmptyKeys action).getD i 0 := by
    have h2 : (nonEmptyKeys action).getD i 0
        = (action.input.keys.take (nonEmptyKeys action).length).getD i 0 := by rw [h]
    rw [h2]
    simp only [List.getD_eq_getElem?_getD, List.getElem?_take, if_pos hi]
  rw [h1, List.getD_eq_getElem?_getD, List.getElem?_eq_getElem hi, Option.getD_some]
  have hm : (nonEmptyKeys action)[i] ∈ nonEmptyKeys action := List.getElem_mem hi
  have := (List.mem_filter.mp hm).2
  simpa [HID_KEY_NONE] using this

theorem addActionToReport_keycode (k : UsbHidKeyboard) (action : Action)
    (hin : action.type = ActionType.INPUT) :
    (k.addActionToReport action).newReport.keycode
      = if (nonEmptyKeys action).length
            ≤ k.newReport.keycode.countP (fun c => c = HID_KEY_NONE) then
          fillKeys action.input.keys (nonEmptyKeys action).length k.newReport.keycode 0
        else k.newReport.keycode.set 0 1 := by
  simp only [addActionToReport, hin, ne_eq, not_true_eq_false, if_false, needed_eq]

theorem addActionToReport_modifier (k : UsbHidKeyboard) (action : Action)
    (hin : action.type = ActionType.INPUT) :
    (k.addActionToReport action).newReport.modifier
      = (k.newReport.modifier ||| action.input.modifiers) % 256 := by
  simp only [addActionToReport, hin, ne_eq, not_true_eq_false, if_false]

theorem addActions_modifier (actions : List Action) :
    ∀ k : UsbHidKeyboard, k.newReport.modifier < 256 →
      (∀ a ∈ actions, a.type = ActionType.INPUT) →
      (∀ a ∈ actions, a.input.modifiers < 256) →
      (k.addActions actions).newReport.modifier
        = actions.foldl (fun m a => m ||| a.input.modifiers) k.newReport.modifier := by
  induction actions with
  | nil => intro k _ _ _; rfl
  | cons a rest ih =>
    intro k hk hin hmod
    have h1 := addActionToReport_modifier k a (hin a (List.mem_cons_self _ _))
    have hlt : k.newReport.modifier ||| a.input.modifiers < 256 :=
      Nat.or_lt_two_pow (n := 8) hk (hmod a (List.mem_cons_self _ _))
    rw [Nat.mod_eq_of_lt hlt] at h1
    have h2 := ih (k.addActionToReport a) (by rw [h1]; exact hlt)
      (fun b hb => hin b (List.mem_cons_of_mem _ hb))
      (fun b hb => hmod b (List.mem_cons_of_mem _ hb))
    simp only [addActions, List.foldl_cons] at h2 ⊢
    rw [h2, h1]

theorem addActions_overflow (actions : List Action) :
    ∀ k : UsbHidKeyboard, 0 < k.newReport.keycode.length →
      (∀ a ∈ actions, a.type = ActionType.INPUT) →
      (∀ a ∈ actions, KeysContiguous a) →
      (k.addActions actions).newReport.keycode.length = k.newReport.keycode.length
      ∧ (k.newReport.keycode.head? = some 1 →
          (k.addActions actions).newReport.keycode.head? = some 1)
      ∧ ((k.addActions actions).newReport.keycode.head? = some 1
          ∨ (k.addActions actions).newReport.keycode.countP (fun c => c ≠ HID_KEY_NONE)
            = k.newReport.keycode.countP (fun c => c ≠ HID_KEY_NONE)
              + (actions.map nonEmptyKeys).flatten.length) := by
  induction actions with
  | nil => intro k _ _ _; simp [addActions]
  | cons a rest ih =>
    intro k hlen hin hcont
    have hkc := addActionToReport_keycode k a (hin a (List.mem_cons_self _ _))
    have hnz := contiguous_prefix_nonzero a (hcont a (List.mem_cons_self _ _))
    have hl1 : (k.addActionToReport a).newReport.keycode.length
        = k.newReport.keycode.length := by
      rw [hkc]; split_ifs
      · exact fillKeys_length _ _ _ _
      · simp
    obtain ⟨i1, i2, i3⟩ := ih (k.addActionToReport a) (by omega)
      (fun b hb => hin b (List.mem_cons_of_mem _ hb))
      (fun b hb => hcont b (List.mem_cons_of_mem _ hb))
    have e0 : k.addActions (a :: rest) = (k.addActionToReport a).addActions rest := rfl
    rw [e0]
    have hhead : k.newReport.keycode.head? = some 1 →
        (k.addActionToReport a).newReport.keycode.head? = some 1 := by
      intro h
      rw [hkc]; split_ifs
      · exact fillKeys_head _ _ _ _ h
      · cases hk : k.newReport.keycode with
        | nil => rw [hk] at hlen; simp at hlen
        | cons c cs => simp
    refine ⟨by rw [i1, hl1], fun h => i2 (hhead h), ?_⟩
    by_cases hfit : (nonEmptyKeys a).length
        ≤ k.newReport.keycode.countP (fun c => c = HID_KEY_NONE)
    · rcases i3 with h | h
      · exact Or.inl h
      · right
        rw [h, hkc, if_pos hfit, fillKeys_occupied _ _ hnz _ 0 (by simpa using hfit)]
        simp [Nat.add_assoc]
    · left
      apply i2
      rw [hkc, if_neg hfit]
      cases hk : k.newReport.keycode with
      | nil => rw [hk] at hlen; simp at hlen
      | cons c cs => simp

end UsbHidKeyboard

/-- C15: for Input actions whose non-empty keys are stored contiguously from
index 0, merged into the scratch report after `startAssemblingReport`: the
modifier byte is the bitwise OR of the actions' modifiers; an action whose
non-empty keys fit into the empty slots leaves the number of slots and every
occupied slot unchanged, and the slots that were empty, read in slot order,
hold its non-empty keys in their order followed by empty slots only (the keys
are in the lowest empty slots); and if the actions together carry more
distinct keys than there are slots, slot 0 of the published report holds the
rollover error code 0x01. -/
theorem C15_keyboard_report_assembly (k : UsbHidKeyboard) (actions : List Action)
    (hin : ∀ a ∈ actions, a.type = ActionType.INPUT)
    (hcont : ∀ a ∈ actions, KeysContiguous a)
    (hmod : ∀ a ∈ actions, a.input.modifiers < 256)
    (hslots : 0 < k.newReport.keycode.length) :
    (k.startAssemblingReport.addActions actions).newReport.modifier
      = actions.foldl (fun m a => m ||| a.input.modifiers) 0
    ∧ (∀ (k1 : UsbHidKeyboard) (a : Action), a.type = ActionType.INPUT → KeysContiguous a →
        (nonEmptyKeys a).length ≤ k1.newReport.keycode.countP (fun c => c = HID_KEY_NONE) →
        (k1.addActionToReport a).newReport.keycode.length = k1.newReport.keycode.length
        ∧ (∀ i, k1.newReport.keycode.getD i 0 ≠ HID_KEY_NONE →
            (k1.addActionToReport a).newReport.keycode.getD i 0
              = k1.newReport.keycode.getD i 0)
        ∧ ((k1.newReport.keycode.zip (k1.addActionToReport a).newReport.keycode).filter
              (fun s => s.1 = HID_KEY_NONE)).map Prod.snd
            = nonEmptyKeys a
              ++ List.replicate
                (k1.newReport.keycode.countP (fun c => c = HID_KEY_NONE)
                  - (nonEmptyKeys a).length) HID_KEY_NONE)
    ∧ ((actions.map nonEmptyKeys).flatten.dedup.length > k.newReport.keycode.length →
        (k.startAssemblingReport.addActions
          actions).finishAssemblingReport.currentReport.keycode.head? = some 1) := by
  refine ⟨?_, ?_, ?_⟩
  · exact UsbHidKeyboard.addActions_modifier actions k.startAssemblingReport
      (by simp [UsbHidKeyboard.startAssemblingReport]) hin hmod
  · intro k1 a ha hc hfit
    have hkc := UsbHidKeyboard.addActionToReport_keycode k1 a ha
    rw [if_pos hfit] at hkc
    rw [hkc]
    refine ⟨UsbHidKeyboard.fillKeys_length _ _ _ _, ?_, ?_⟩
    · intro i hi
      exact UsbHidKeyboard.fillKeys_keeps_occupied _ _ _ _ _ hi
    · have h := UsbHidKeyboard.fillKeys_empty_slots a.input.keys (nonEmptyKeys a).length
        (List.length_filter_le _ _) k1.newReport.keycode 0 (Nat.zero_le _)
        (by simpa using hfit)
      simp only [HID_KEY_NONE] at h ⊢
      rw [h]
      simp only [List.drop_zero, Nat.sub_zero]
      unfold KeysContiguous at hc
      rw [hc]
  · intro hd
    have hlen : 0 < k.startAssemblingReport.newReport.keycode.length := by
      simpa [UsbHidKeyboard.startAssemblingReport] using hslots
    obtain ⟨h1, _, h3⟩ := UsbHidKeyboard.addActions_overflow actions
      k.startAssemblingReport hlen hin hcont
    simp only [UsbHidKeyboard.finishAssemblingReport]
    rcases h3 with h | h
    · exact h
    · exfalso
      have hle : (k.startAssemblingReport.addActions actions).newReport.keycode.countP
          (fun c => c ≠ HID_KEY_NONE)
          ≤ (k.startAssemblingReport.addActions actions).newReport.keycode.length :=
        List.countP_le_length _
      have hz : k.startAssemblingReport.newReport.keycode.countP
          (fun c => c ≠ HID_KEY_NONE) = 0 := by
        simp [UsbHidKeyboard.startAssemblingReport, HID_KEY_NONE, List.countP_eq_zero]
      have hs : (actions.map nonEmptyKeys).flatten.dedup.length
          ≤ (actions.map nonEmptyKeys).flatten.length :=
        (List.dedup_sublist _).length_le
      have hl0 : k.startAssemblingReport.newReport.keycode.length
          = k.newReport.keycode.length := by
        simp [UsbHidKeyboard.startAssemblingReport]
      omega

/-- C15 (witness): six slots and three actions with seven distinct keys: the
third action does not fit. -/
theorem C15_keyboard_report_assembly_witness :
    ((UsbHidKeyboard.new 6).startAssemblingReport.addActions
        [⟨.INPUT, ⟨[4, 5, 0], 2⟩⟩, ⟨.INPUT, ⟨[6, 7, 8], 1⟩⟩,
          ⟨.INPUT, ⟨[9, 10, 0], 8⟩⟩]).newReport.modifier
      = [(⟨.INPUT, ⟨[4, 5, 0], 2⟩⟩ : Action), ⟨.INPUT, ⟨[6, 7, 8], 1⟩⟩,
          ⟨.INPUT, ⟨[9, 10, 0], 8⟩⟩].foldl (fun m a => m ||| a.input.modifiers) 0
    ∧ ((UsbHidKeyboard.new 6).startAssemblingReport.addActions
        [⟨.INPUT, ⟨[4, 5, 0], 2⟩⟩, ⟨.INPUT, ⟨[6, 7, 8], 1⟩⟩,
          ⟨.INPUT, ⟨[9, 10, 0], 8⟩⟩]).finishAssemblingReport.currentReport.keycode.head?
      = some 1 :=
  ⟨(C15_keyboard_report_assembly (UsbHidKeyboard.new 6)
      [⟨.INPUT, ⟨[4, 5, 0], 2⟩⟩, ⟨.INPUT, ⟨[6, 7, 8], 1⟩⟩, ⟨.INPUT, ⟨[9, 10, 0], 8⟩⟩]
      (by decide) (by decide) (by decide) (by decide)).1,
    (C15_keyboard_report_assembly (UsbHidKeyboard.new 6)
      [⟨.INPUT, ⟨[4, 5, 0], 2⟩⟩, ⟨.INPUT, ⟨[6, 7, 8], 1⟩⟩, ⟨.INPUT, ⟨[9, 10, 0], 8⟩⟩]
      (by decide) (by decide) (by decide) (by decide)).2.2 (by decide)⟩

/-! ## Feature reports: mode and settings window -/

theorem loadBytes_eq (mem : List Nat) (offset length : Nat)
    (h : offset + length ≤ mem.length) :
    loadBytes mem offset length = (mem.drop offset).take length := by
  apply List.ext_getElem
  · simp [loadBytes]; omega
  · intro i h1 h2
    simp only [loadBytes, List.length_map, List.length_range] at h1
    simp [loadBytes, List.getD_eq_getElem?_getD, List.getElem?_eq_getElem (by omega : offset + i < mem.length)]

theorem storeBytes_length (src : List Nat) :
    ∀ (mem : List Nat) (offset : Nat), (storeBytes mem offset src).length = mem.length := by
  induction src with
  | nil => intro mem offset; rfl
  | cons b bs ih => intro mem offset; simp [storeBytes, ih]

theorem storeBytes_eq (src : List Nat) :
    ∀ (mem : List Nat) (offset : Nat), offset + src.length ≤ mem.length →
      storeBytes mem offset src
        = mem.take offset ++ src ++ mem.drop (offset + src.length) := by
  induction src with
  | nil => intro mem offset _; simp [storeBytes]
  | cons b bs ih =>
    intro mem offset h
    simp only [List.length_cons] at h
    simp only [storeBytes]
    rw [ih (mem.set offset b) (offset + 1) (by simp; omega)]
    rw [List.set_eq_take_append_cons_drop]
    rw [if_pos (by omega)]
    have e1 : (List.take offset mem ++ b :: List.drop (offset + 1) mem).take (offset + 1)
        = List.take offset mem ++ [b] := by
      rw [List.take_append_eq_append_take]
      simp [List.length_take, Nat.min_eq_left (by omega : offset ≤ mem.length)]
    have e2 : (List.take offset mem ++ b :: List.drop (offset + 1) mem).drop
          (offset + 1 + bs.length)
        = List.drop (offset + (bs.length + 1)) mem := by
      rw [List.drop_append_eq_append_drop]
      simp [List.length_take, Nat.min_eq_left (by omega : offset ≤ mem.length)]
      have e3 : offset + 1 + bs.length - offset = bs.length + 1 := by omega
      rw [List.drop_eq_nil_of_le (by simp; omega), e3]
      simp [Nat.add_comm, Nat.add_left_comm]
    rw [e1, e2]
    simp

namespace Firmware

theorem window_advance (S a n : Nat) (hS : S + 255 < U32) (hn : n < 256) (han : a + n ≤ S) :
    (uadd a n % S + (if uadd (uadd a n % S) n > S then usub S (uadd a n % S) % 256 else n)
        ≤ S)
    ∧ uadd a n % S = (a + n) % S
    ∧ (if uadd (uadd a n % S) n > S then usub S (uadd a n % S) % 256 else n)
        = min n (S - (a + n) % S) := by
  have e1 : uadd a n = a + n := by
    simp only [uadd, U32] at *; omega
  rw [e1]
  rcases Nat.lt_or_ge (a + n) S with h | h
  · rw [Nat.mod_eq_of_lt h]
    have e2 : uadd (a + n) n = a + n + n := by
      simp only [uadd, U32] at *; omega
    rw [e2]
    have e3 : usub S (a + n) = S - (a + n) := by
      simp only [usub, U32] at *; omega
    rw [e3]
    split_ifs with hc
    · have : (S - (a + n)) % 256 = S - (a + n) := Nat.mod_eq_of_lt (by omega)
      rw [this]
      refine ⟨by omega, rfl, by omega⟩
    · refine ⟨by omega, rfl, by omega⟩
  · have e : a + n = S := by omega
    rw [e, Nat.mod_self]
    have e2 : uadd 0 n = n := by
      simp only [uadd, U32] at *; omega
    rw [e2, if_neg (by omega)]
    refine ⟨by omega, rfl, by omega⟩

theorem get_report_SETTINGS_DATA_eq (d : Firmware) (reqlen : Nat)
    (hS : d.settings.length + 255 < U32) (hn : d.settingsLength < 256)
    (han : d.settingsAddress + d.settingsLength ≤ d.settings.length)
    (hreq : d.settingsLength ≤ reqlen) :
    d.get_report_SETTINGS_DATA reqlen
      = (d.settingsLength,
          (d.settings.drop d.settingsAddress).take d.settingsLength,
          { d with
            settingsAddress := (d.settingsAddress + d.settingsLength) % d.settings.length
            settingsLength := min d.settingsLength
              (d.settings.length
                - (d.settingsAddress + d.settingsLength) % d.settings.length) }) := by
  obtain ⟨_, h2, h3⟩ := window_advance d.settings.length d.settingsAddress d.settingsLength
    hS hn han
  simp only [get_report_SETTINGS_DATA, if_neg (by omega : ¬ reqlen < d.settingsLength),
    loadBytes_eq _ _ _ han]
  rw [h3, h2]

theorem set_report_SETTINGS_DATA_eq (d : Firmware) (buffer : List Nat)
    (hS : d.settings.length + 255 < U32) (hn : d.settingsLength < 256)
    (han : d.settingsAddress + d.settingsLength ≤ d.settings.length)
    (hreq : d.settingsLength ≤ buffer.length) :
    d.set_report_SETTINGS_DATA buffer
      = { d with
          settings := d.settings.take d.settingsAddress ++ buffer.take d.settingsLength
            ++ d.settings.drop (d.settingsAddress + d.settingsLength)
          settingsAddress := (d.settingsAddress + d.settingsLength) % d.settings.length
          settingsLength := min d.settingsLength
            (d.settings.length
              - (d.settingsAddress + d.settingsLength) % d.settings.length) } := by
  obtain ⟨_, h2, h3⟩ := window_advance d.settings.length d.settingsAddress d.settingsLength
    hS hn han
  have hl : (buffer.take d.settingsLength).length = d.settingsLength := by
    simp; omega
  simp only [set_report_SETTINGS_DATA, if_neg (by omega : ¬ buffer.length < d.settingsLength)]
  rw [h3, h2, storeBytes_eq _ _ _ (by rw [hl]; exact han), hl]

theorem readAll_from (reqlens : List Nat) :
    ∀ (d : Firmware), d.settings.length + 255 < U32 →
      d.settingsAddress < d.settings.length →
      d.settingsLength = min 63 (d.settings.length - d.settingsAddress) →
      reqlens.length = (d.settings.length - d.settingsAddress + 62) / 63 →
      (∀ i (h : i < reqlens.length),
        min 63 (d.settings.length - d.settingsAddress - 63 * i) ≤ reqlens.get ⟨i, h⟩) →
      (d.readAll reqlens).1 = d.settings.drop d.settingsAddress
      ∧ (d.readAll reqlens).2.settingsAddress = 0
      ∧ (d.readAll reqlens).2.settings = d.settings := by
  induction reqlens with
  | nil =>
    intro d _ ha _ hl _
    simp only [List.length_nil] at hl
    omega
  | cons r rs ih =>
    intro d hS ha hn hl hr
    have h0 := hr 0 (by simp)
    simp only [Nat.mul_zero, Nat.sub_zero, List.get_eq_getElem, List.getElem_cons_zero] at h0
    have hg := get_report_SETTINGS_DATA_eq d r hS (by omega) (by omega) (by omega)
    simp only [readAll, hg]
    simp only [List.length_cons] at hl
    rcases Nat.lt_or_ge (d.settingsAddress + 63) d.settings.length with hlt | hge
    · -- a full chunk, more to come
      have en : d.settingsLength = 63 := by omega
      have em : (d.settingsAddress + d.settingsLength) % d.settings.length
          = d.settingsAddress + 63 := by
        rw [en]; exact Nat.mod_eq_of_lt hlt
      have hl2 : rs.length = (d.settings.length - (d.settingsAddress + 63) + 62) / 63 := by
        have : d.settings.length - d.settingsAddress + 62
            = (d.settings.length - (d.settingsAddress + 63) + 62) + 63 := by omega
        rw [this, Nat.add_div_right _ (by decide : 0 < 63)] at hl
        omega
      obtain ⟨i1, i2, i3⟩ := ih
        { d with
          settingsAddress := (d.settingsAddress + d.settingsLength) % d.settings.length
          settingsLength := min d.settingsLength
            (d.settings.length
              - (d.settingsAddress + d.settingsLength) % d.settings.length) }
        hS (by simp only [em]; exact hlt) (by simp only [em, en]) (by simp only [em]; exact hl2)
        (by
          intro i hi
          have := hr (i + 1) (Nat.succ_lt_succ hi)
          simp only [List.get_eq_getElem, List.getElem_cons_succ] at this
          simp only [em, List.get_eq_getElem]
          have e : d.settings.length - (d.settingsAddress + 63) - 63 * i
              = d.settings.length - d.settingsAddress - 63 * (i + 1) := by omega
          rw [e]; exact this)
      refine ⟨?_, i2, i3⟩
      rw [i1]
      simp only [em]
      have e : List.drop 63 (List.drop d.settingsAddress d.settings)
          = List.drop (d.settingsAddress + 63) d.settings := by
        rw [List.drop_drop]
      rw [en, List.take_take, Nat.min_self, ← e, List.take_append_drop]
    · -- the last chunk
      have en : d.settingsLength = d.settings.length - d.settingsAddress := by omega
      have em : (d.settingsAddress + d.settingsLength) % d.settings.length = 0 := by
        have : d.settingsAddress + d.settingsLength = d.settings.length := by omega
        rw [this, Nat.mod_self]
      have hrs : rs = [] := by
        have : (d.settings.length - d.settingsAddress + 62) / 63 = 1 := by omega
        rw [this] at hl
        exact List.length_eq_zero.mp (by omega)
      subst hrs
      simp only [readAll, List.append_nil, em, true_and, and_true]
      rw [List.take_take, Nat.min_self, en]
      apply List.take_of_length_le
      simp

end Firmware

namespace Firmware

/-- What does hold in every reachable state of the settings window: the
length is a byte and the window lies inside the record. -/
theorem settings_window_invariant (requests : List Request) :
    ∀ d : Firmware, 0 < d.settings.length → d.settings.length + 255 < U32 →
      d.settingsLength < 256 →
      d.settingsAddress + d.settingsLength ≤ d.settings.length →
      (d.run requests).settings.length = d.settings.length
      ∧ (d.run requests).settingsLength < 256
      ∧ (d.run requests).settingsAddress + (d.run requests).settingsLength
        ≤ d.settings.length := by
  induction requests with
  | nil => intro d _ _ h1 h2; exact ⟨rfl, h1, h2⟩
  | cons r rs ih =>
    intro d hpos hS hn han
    have key : (d.step r).settings.length = d.settings.length
        ∧ (d.step r).settingsLength < 256
        ∧ (d.step r).settingsAddress + (d.step r).settingsLength ≤ d.settings.length := by
      cases r with
      | setAddress buffer =>
        simp only [step, set_report_SETTINGS_ADDRESS]
        split_ifs with h1 h2
        · exact ⟨rfl, hn, han⟩
        · refine ⟨rfl, Nat.mod_lt _ (by decide), ?_⟩
          simp only
          generalize toU32 _ = word at h2 ⊢
          have hlt : word % d.settings.length < d.settings.length := Nat.mod_lt _ hpos
          generalize word % d.settings.length = a at hlt h2 ⊢
          simp only [usub, U32] at *
          omega
        · refine ⟨rfl, Nat.mod_lt _ (by decide), ?_⟩
          simp only
          generalize toU32 _ = word at h2 ⊢
          have hlt : word % d.settings.length < d.settings.length := Nat.mod_lt _ hpos
          generalize word % d.settings.length = a at hlt h2 ⊢
          have h3 := Nat.mod_lt (buffer.getD 4 0) (by decide : 0 < 256)
          generalize buffer.getD 4 0 % 256 = n at h2 h3 ⊢
          simp only [uadd, U32] at *
          omega
      | getData reqlen =>
        simp only [step]
        by_cases h1 : reqlen < d.settingsLength
        · simp only [get_report_SETTINGS_DATA, if_pos h1]
          exact ⟨trivial, hn, han⟩
        · rw [get_report_SETTINGS_DATA_eq d reqlen hS hn han (by omega)]
          have := Nat.mod_lt (d.settingsAddress + d.settingsLength) hpos
          refine ⟨rfl, ?_, ?_⟩ <;> simp only <;> omega
      | setData buffer =>
        simp only [step]
        by_cases h1 : buffer.length < d.settingsLength
        · simp only [set_report_SETTINGS_DATA, if_pos h1]
          exact ⟨trivial, hn, han⟩
        · rw [set_report_SETTINGS_DATA_eq d buffer hS hn han (by omega)]
          have := Nat.mod_lt (d.settingsAddress + d.settingsLength) hpos
          refine ⟨?_, ?_, ?_⟩
          · simp; omega
          · simp only; omega
          · simp only; omega
    obtain ⟨k1, k2, k3⟩ := key
    have := ih (d.step r) (by omega) (by omega) k2 (by omega)
    have e : d.run (r :: rs) = (d.step r).run rs := rfl
    rw [e]
    omega

end Firmware

/-- C17: a `SET_REPORT(FEATURE)` of the Mode report with a payload of any
length other than 1 changes nothing; with the one payload byte b the mode
changes exactly in the four cases (Normal, b = Maintenance), (Maintenance,
b = Normal), (Maintenance, b = LoadingSettings), (Maintenance, b =
StoringSettings), where it becomes the mode with byte b (the last two start
the EEPROM read, resp. write, of the settings record); for every other pair
the globals, the EEPROM channel included, are unchanged. -/
theorem C17_mode_report_transitions (d : Firmware) (txFifoFree : Nat) :
    (∀ buffer : List Nat, buffer.length ≠ 1 → d.set_report_MODE buffer txFifoFree = d)
    ∧ (∀ b : Nat,
        ((d.mode = Mode.NORMAL ∧ b = Mode.MAINTENANCE.toByte)
          ∨ (d.mode = Mode.MAINTENANCE
            ∧ (b = Mode.NORMAL.toByte ∨ b = Mode.LOADING_SETTINGS.toByte
              ∨ b = Mode.STORING_SETTINGS.toByte)) →
          (d.set_report_MODE [b] txFifoFree).mode.toByte = b
          ∧ (d.set_report_MODE [b] txFifoFree).mode ≠ d.mode)
        ∧ (¬ ((d.mode = Mode.NORMAL ∧ b = Mode.MAINTENANCE.toByte)
            ∨ (d.mode = Mode.MAINTENANCE
              ∧ (b = Mode.NORMAL.toByte ∨ b = Mode.LOADING_SETTINGS.toByte
                ∨ b = Mode.STORING_SETTINGS.toByte))) →
          d.set_report_MODE [b] txFifoFree = d)
        ∧ (b ≠ Mode.LOADING_SETTINGS.toByte → b ≠ Mode.STORING_SETTINGS.toByte →
          (d.set_report_MODE [b] txFifoFree).eeprom = d.eeprom)
        ∧ (d.mode = Mode.MAINTENANCE → b = Mode.LOADING_SETTINGS.toByte →
          (d.set_report_MODE [b] txFifoFree).eeprom
            = (d.eeprom.startReading d.settings 0 (toU32 d.settings.length) txFifoFree).2)
        ∧ (d.mode = Mode.MAINTENANCE → b = Mode.STORING_SETTINGS.toByte →
          (d.set_report_MODE [b] txFifoFree).eeprom
            = (d.eeprom.startWriting d.settings 0 (toU32 d.settings.length)
              txFifoFree).2)) := by
  constructor
  · intro buffer h
    simp [Firmware.set_report_MODE, h]
  · intro b
    cases hm : d.mode <;>
      by_cases h1 : b = 1 <;> by_cases h2 : b = 2 <;> by_cases h3 : b = 3 <;>
      by_cases h4 : b = 4 <;>
      simp [Firmware.set_report_MODE, Mode.toByte, hm, h1, h2, h3, h4]

/-- C17 (witness): mode Normal and the payload byte 2 (Maintenance). -/
theorem C17_mode_report_transitions_witness :
    (({ Firmware.init [1, 2, 3] with mode := Mode.NORMAL }).set_report_MODE [2] 16).mode.toByte
        = 2
    ∧ (({ Firmware.init [1, 2, 3] with mode := Mode.NORMAL }).set_report_MODE [2] 16).mode
        ≠ ({ Firmware.init [1, 2, 3] with mode := Mode.NORMAL }).mode :=
  ((C17_mode_report_transitions { Firmware.init [1, 2, 3] with mode := Mode.NORMAL } 16).2
    2).1 (Or.inl ⟨rfl, rfl⟩)

/-- C18 (evaluation at the failing input): whenever the settings record
is longer than 63 bytes, the SettingsAddress write with payload 0, 0, 0, 0,
255 on the initial state leaves `settingsLength` at min(255,
sizeof(Settings)), which is more than 63. -/
theorem C18_length_byte_is_not_limited_to_63 (settings : List Nat)
    (h1 : 63 < settings.length) (h2 : settings.length + 255 < U32) :
    ((Firmware.init settings).run [.setAddress [0, 0, 0, 0, 255]]).settingsLength
      = min 255 settings.length
    ∧ 63 < ((Firmware.init settings).run [.setAddress [0, 0, 0, 0, 255]]).settingsLength := by
  have e : ((Firmware.init settings).run [.setAddress [0, 0, 0, 0, 255]]).settingsLength
      = min 255 settings.length := by
    simp only [Firmware.run, List.foldl_cons, List.foldl_nil, Firmware.step,
      Firmware.set_report_SETTINGS_ADDRESS, Firmware.init]
    simp only [List.length_cons, List.length_nil, List.getD_cons_zero, List.getD_cons_succ]
    norm_num [toU32, uadd, usub, U32]
    simp only [U32] at h2
    split_ifs with hc
    · omega
    · omega
  rw [e]
  exact ⟨rfl, by omega⟩

/-- C18 (witness): a record of 100 bytes: the length becomes 100. -/
theorem C18_length_byte_is_not_limited_to_63_witness :
    ((Firmware.init (List.replicate 100 0)).run [.setAddress [0, 0, 0, 0, 255]]).settingsLength
      = min 255 (List.replicate 100 0).length
    ∧ 63 < ((Firmware.init (List.replicate 100 0)).run
        [.setAddress [0, 0, 0, 0, 255]]).settingsLength :=
  C18_length_byte_is_not_limited_to_63 (List.replicate 100 0) (by decide) (by decide)

/-- C20 (evaluation at the failing input): for every state and every buffer
of at least 5 bytes the SettingsAddress `GET_REPORT` writes the four
little-endian address bytes and the length byte into the buffer but returns
3, so that the report sent to the host is the three low address bytes. -/
theorem C20_settings_address_report_is_cut_to_3 (d : Firmware) (reqlen : Nat)
    (h : 5 ≤ reqlen) :
    (d.get_report_SETTINGS_ADDRESS reqlen).1 = 3
    ∧ (d.get_report_SETTINGS_ADDRESS reqlen).2
      = [d.settingsAddress &&& 0xff, (d.settingsAddress >>> 8) &&& 0xff,
          (d.settingsAddress >>> 16) &&& 0xff, (d.settingsAddress >>> 24) &&& 0xff,
          d.settingsLength]
    ∧ Firmware.reportOfBuffer (d.get_report_SETTINGS_ADDRESS reqlen)
      = [d.settingsAddress &&& 0xff, (d.settingsAddress >>> 8) &&& 0xff,
          (d.settingsAddress >>> 16) &&& 0xff] := by
  simp [Firmware.get_report_SETTINGS_ADDRESS, Firmware.reportOfBuffer,
    if_neg (by omega : ¬ reqlen < 5)]

/-- C20 (witness): after the write of address 5 and length 10 on a record of
40 bytes the buffer holds 5, 0, 0, 0, 10 and the report is 5, 0, 0. -/
theorem C20_settings_address_report_is_cut_to_3_witness :
    Firmware.reportOfBuffer
        (((Firmware.init (List.replicate 40 0)).set_report_SETTINGS_ADDRESS
          [5, 0, 0, 0, 10]).get_report_SETTINGS_ADDRESS 5) = [5, 0, 0]
    ∧ (((Firmware.init (List.replicate 40 0)).set_report_SETTINGS_ADDRESS
          [5, 0, 0, 0, 10]).get_report_SETTINGS_ADDRESS 5).2 = [5, 0, 0, 0, 10] :=
  ⟨(C20_settings_address_report_is_cut_to_3
      ((Firmware.init (List.replicate 40 0)).set_report_SETTINGS_ADDRESS [5, 0, 0, 0, 10]) 5
      (by decide)).2.2,
    (C20_settings_address_report_is_cut_to_3
      ((Firmware.init (List.replicate 40 0)).set_report_SETTINGS_ADDRESS [5, 0, 0, 0, 10]) 5
      (by decide)).2.1⟩

/-- C19 (counterexample): a record of 70 bytes with the initial window
(0, 63), which lies inside the record: a SettingsData read that asks for 10
bytes returns no byte instead of the 63 record bytes, and a write with a
payload of 10 bytes stores nothing; address and length stay (0, 63) instead
of advancing to 63. -/
theorem C19_short_request_transfers_nothing :
    (Firmware.init (List.range 70)).settingsAddress = 0
    ∧ (Firmware.init (List.range 70)).settingsLength = 63
    ∧ (Firmware.init (List.range 70)).get_report_SETTINGS_DATA 10
        = (0, [], Firmware.init (List.range 70))
    ∧ Firmware.reportOfBuffer
        (((Firmware.init (List.range 70)).get_report_SETTINGS_DATA 10).1,
          ((Firmware.init (List.range 70)).get_report_SETTINGS_DATA 10).2.1) = []
    ∧ (Firmware.init (List.range 70)).set_report_SETTINGS_DATA (List.replicate 10 0xFF)
        = Firmware.init (List.range 70) := by
  refine ⟨rfl, rfl, rfl, rfl, rfl⟩

/-- C19 (amended): with a window (a, n) inside the record (a + n ≤ S), the
record shorter than 2^32 − 255 bytes: a SettingsData read that asks for at
least n bytes returns n and the n record bytes at offsets a .. a + n − 1 and
leaves the record unchanged, and a write with at least n payload bytes stores
the first n of them at these offsets and leaves the other bytes unchanged;
after either, the address is (a + n) mod S and the length is
min(n, S − address), so address + length ≤ S. A read that asks for fewer than
n bytes returns no byte, a write with fewer than n payload bytes stores
nothing, and both leave record, address and length as they were. Starting
from the window (0, min(63, S)) of a non-empty record, ⌈S/63⌉ reads that each
ask for at least the chunk due (63 bytes, fewer for the last chunk) return
the whole record in order and leave the address at 0. -/
theorem C19_settings_data_window (d : Firmware) (reqlen : Nat) (buffer reqlens : List Nat)
    (hS : d.settings.length + 255 < U32) (hn : d.settingsLength < 256)
    (han : d.settingsAddress + d.settingsLength ≤ d.settings.length) :
    (d.settingsLength ≤ reqlen →
      (d.get_report_SETTINGS_DATA reqlen).1 = d.settingsLength
      ∧ (d.get_report_SETTINGS_DATA reqlen).2.1
        = (d.settings.drop d.settingsAddress).take d.settingsLength
      ∧ (d.get_report_SETTINGS_DATA reqlen).2.2.settings = d.settings
      ∧ (d.get_report_SETTINGS_DATA reqlen).2.2.settingsAddress
        = (d.settingsAddress + d.settingsLength) % d.settings.length
      ∧ (d.get_report_SETTINGS_DATA reqlen).2.2.settingsLength
        = min d.settingsLength
          (d.settings.length - (d.get_report_SETTINGS_DATA reqlen).2.2.settingsAddress)
      ∧ (d.get_report_SETTINGS_DATA reqlen).2.2.settingsAddress
          + (d.get_report_SETTINGS_DATA reqlen).2.2.settingsLength ≤ d.settings.length)
    ∧ (reqlen < d.settingsLength → d.get_report_SETTINGS_DATA reqlen = (0, [], d))
    ∧ (d.settingsLength ≤ buffer.length →
      (d.set_report_SETTINGS_DATA buffer).settings
        = d.settings.take d.settingsAddress ++ buffer.take d.settingsLength
          ++ d.settings.drop (d.settingsAddress + d.settingsLength)
      ∧ (d.set_report_SETTINGS_DATA buffer).settingsAddress
        = (d.settingsAddress + d.settingsLength) % d.settings.length
      ∧ (d.set_report_SETTINGS_DATA buffer).settingsLength
        = min d.settingsLength
          (d.settings.length - (d.set_report_SETTINGS_DATA buffer).settingsAddress)
      ∧ (d.set_report_SETTINGS_DATA buffer).settingsAddress
          + (d.set_report_SETTINGS_DATA buffer).settingsLength ≤ d.settings.length)
    ∧ (buffer.length < d.settingsLength → d.set_report_SETTINGS_DATA buffer = d)
    ∧ (0 < d.settings.length → d.settingsAddress = 0 →
        d.settingsLength = min 63 d.settings.length →
        reqlens.length = (d.settings.length + 62) / 63 →
        (∀ i (h : i < reqlens.length),
          min 63 (d.settings.length - 63 * i) ≤ reqlens.get ⟨i, h⟩) →
        (d.readAll reqlens).1 = d.settings
        ∧ (d.readAll reqlens).2.settingsAddress = 0) := by
  have hb : (d.settingsAddress + d.settingsLength) % d.settings.length
      ≤ d.settings.length := by
    rcases Nat.eq_zero_or_pos d.settings.length with h | h
    · have e : d.settingsAddress + d.settingsLength = 0 := by omega
      rw [e, h]
    · exact (Nat.mod_lt _ h).le
  refine ⟨?_, ?_, ?_, ?_, ?_⟩
  · intro hreq
    rw [Firmware.get_report_SETTINGS_DATA_eq d reqlen hS hn han hreq]
    refine ⟨rfl, rfl, rfl, rfl, rfl, ?_⟩
    simp only
    omega
  · intro h
    simp only [Firmware.get_report_SETTINGS_DATA, if_pos h]
  · intro hbuf
    rw [Firmware.set_report_SETTINGS_DATA_eq d buffer hS hn han hbuf]
    refine ⟨rfl, rfl, rfl, ?_⟩
    simp only
    omega
  · intro h
    simp only [Firmware.set_report_SETTINGS_DATA, if_pos h]
  · intro hpos ha hl hlen hr
    obtain ⟨h1, h2, _⟩ := Firmware.readAll_from reqlens d hS (by omega)
      (by rw [ha, Nat.sub_zero]; exact hl) (by rw [ha, Nat.sub_zero]; exact hlen)
      (by intro i hi; rw [ha, Nat.sub_zero]; exact hr i hi)
    rw [ha, List.drop_zero] at h1
    exact ⟨h1, h2⟩

/-- C19 (witness): a record of 70 bytes is read in two chunks, 63 and 7
bytes. -/
theorem C19_settings_data_window_witness :
    ((Firmware.init (List.range 70)).readAll [63, 7]).1 = List.range 70
    ∧ ((Firmware.init (List.range 70)).readAll [63, 7]).2.settingsAddress = 0 :=
  (C19_settings_data_window (Firmware.init (List.range 70)) 63 (List.replicate 63 0) [63, 7]
    (by decide) (by decide) (by decide)).2.2.2.2
    (by decide) (by decide) (by decide) (by decide) (by decide)

/-! ## Constructors and single steps of the input controls -/

/-- C21 (counterexample): for the requested durations 0 and 40 the
constructor stores the window 10, not the nearest bound 1 resp. 31. -/
theorem C21_out_of_range_duration_gives_10 :
    (Switch.new 0 0).debounceDuration = 10 ∧ (Switch.new 0 0).debounceDuration ≠ 1
    ∧ (Switch.new 40 0).debounceDuration = 10 ∧ (Switch.new 40 0).debounceDuration ≠ 31 := by
  decide

/-- C21 (amended): for every requested debounce duration d the effective
window is d itself when 1 ≤ d ≤ 31 and 10 otherwise (10 is also the value
used when no duration is given), so it always lies in 1..31; the sample
register is initialised to the all-ones value of the window, 2^window − 1,
and the switch starts as not pressed. -/
theorem C21_switch_window (d now : Nat) :
    (Switch.new d now).debounceDuration = (if 1 ≤ d ∧ d ≤ 31 then d else 10)
    ∧ 1 ≤ (Switch.new d now).debounceDuration
    ∧ (Switch.new d now).debounceDuration ≤ 31
    ∧ (Switch.new d now).buffer = 2 ^ (Switch.new d now).debounceDuration - 1
    ∧ (Switch.new d now).pressed = false := by
  have e : (Switch.new d now).debounceDuration = (if 1 ≤ d ∧ d ≤ 31 then d else 10) := by
    simp only [Switch.new]
    split_ifs <;> omega
  refine ⟨e, ?_, ?_, ?_, rfl⟩
  · rw [e]; split_ifs <;> omega
  · rw [e]; split_ifs <;> omega
  · simp only [Switch.new, Nat.shiftLeft_eq, Nat.one_mul]

/-- C26 (counterexample): in `L2` the pattern 01 (neither 11, the pattern
of `L2`, nor 10, the pattern of `L3`) leads to `L1`, and in `L1` the pattern
10 (neither 01 nor 11) leaves the state at `L1`; neither is Neutral. -/
theorem C26_deviation_does_not_reset :
    (RotaryEncoder.update { RotaryEncoder.new 0 with state := .L2 } false true 5).state
      = RotaryEncoder.State.L1
    ∧ RotaryEncoder.pins false true = 0b01
    ∧ (RotaryEncoder.update { RotaryEncoder.new 0 with state := .L1 } true false 5).state
      = RotaryEncoder.State.L1
    ∧ RotaryEncoder.pins true false = 0b10 := by
  decide

/-- C26 (amended): in every non-Neutral state a sampled pattern that is
neither the pattern of the current state nor the expected next pattern of
its chain enqueues no event (queue and time stamp are unchanged); if it is
the pattern of the preceding state of the chain the machine steps back to
that state, which is Neutral only from `L1` and `R1`; otherwise the state is
unchanged. -/
theorem C26_deviation_steps_back (s : RotaryEncoder) (pinA pinB : Bool) (now : Nat)
    (hs : s.state ≠ RotaryEncoder.State.N)
    (h1 : RotaryEncoder.pins pinA pinB ≠ RotaryEncoder.pattern s.state)
    (h2 : RotaryEncoder.pins pinA pinB
      ≠ RotaryEncoder.pattern (RotaryEncoder.next s.state)) :
    (s.update pinA pinB now).events = s.events
    ∧ (s.update pinA pinB now).tsLastEvent = s.tsLastEvent
    ∧ (RotaryEncoder.pins pinA pinB
          = RotaryEncoder.pattern (RotaryEncoder.previous s.state) →
        (s.update pinA pinB now).state = RotaryEncoder.previous s.state)
    ∧ (RotaryEncoder.pins pinA pinB
          ≠ RotaryEncoder.pattern (RotaryEncoder.previous s.state) →
        (s.update pinA pinB now).state = s.state)
    ∧ ((s.update pinA pinB now).state = RotaryEncoder.State.N ↔
        (s.state = RotaryEncoder.State.L1 ∨ s.state = RotaryEncoder.State.R1)
          ∧ RotaryEncoder.pins pinA pinB = 0b00) := by
  obtain ⟨st, ev, ts⟩ := s
  cases st <;> cases pinA <;> cases pinB <;>
    simp_all [RotaryEncoder.update, RotaryEncoder.pins, RotaryEncoder.pattern,
      RotaryEncoder.next, RotaryEncoder.previous]

/-- C26 (witness): `L2` and the pattern 01. -/
theorem C26_deviation_steps_back_witness :
    (RotaryEncoder.update { RotaryEncoder.new 0 with state := .L2 } false true 5).events
      = ({ RotaryEncoder.new 0 with state := .L2 } : RotaryEncoder).events
    ∧ (RotaryEncoder.update { RotaryEncoder.new 0 with state := .L2 } false true 5).state
      = RotaryEncoder.State.L1 :=
  ⟨(C26_deviation_steps_back { RotaryEncoder.new 0 with state := .L2 } false true 5
      (by decide) (by decide) (by decide)).1,
    (C26_deviation_steps_back { RotaryEncoder.new 0 with state := .L2 } false true 5
      (by decide) (by decide) (by decide)).2.2.1 (by decide)⟩

/-- C27 (counterexample): with calibration 0..4095 and hysteresis 16
(positions are raw/16), position 100 and the reading 815: the reading maps
to 50, the reading plus the hysteresis to 51, and the position becomes 51,
not 99. -/
theorem C27_position_stops_next_to_reading :
    Potentiometer.rawToPos ⟨100, 0, 4095, 16, EventQueue.new, 0⟩ (fun _ => 0) 815 = 50
    ∧ Potentiometer.rawToPos ⟨100, 0, 4095, 16, EventQueue.new, 0⟩ (fun _ => 0) (815 + 16) = 51
    ∧ (Potentiometer.update ⟨100, 0, 4095, 16, EventQueue.new, 0⟩ (fun _ => 0) 815
        7).position = 51 := by
  decide

/-- C27 (amended): when a raw reading maps to a position n different from
the current position p (a byte): if the reading offset by the hysteresis
(raw + hysteresis when n < p, raw − hysteresis when n > p) still maps to n,
the position becomes n; otherwise it becomes the position next to n on the
side of p (n + 1 when n < p, n − 1 when n > p), one step short of the
reading. -/
theorem C27_hysteresis_step (p : Potentiometer) (divZero : Nat → Nat) (adc now n : Nat)
    (hp : p.position < 256) (hn : n = p.rawToPos divZero (adc % 65536)) :
    (n < p.position →
      (p.rawToPos divZero (adc % 65536 + p.hysteresis) = n →
        (p.update divZero adc now).position = n)
      ∧ (p.rawToPos divZero (adc % 65536 + p.hysteresis) ≠ n →
        (p.update divZero adc now).position = n + 1))
    ∧ (n > p.position →
      (p.rawToPos divZero (usub (adc % 65536) p.hysteresis) = n →
        (p.update divZero adc now).position = n)
      ∧ (p.rawToPos divZero (usub (adc % 65536) p.hysteresis) ≠ n →
        (p.update divZero adc now).position = n - 1)) := by
  have hu := Potentiometer.update_position p divZero adc now
  have hlt : n < 256 := by
    rw [hn]; unfold Potentiometer.rawToPos; exact Nat.mod_lt _ (by decide)
  rw [← hn] at hu
  constructor
  · intro h
    rw [if_pos h] at hu
    constructor
    · intro h2
      rw [hu, if_pos (Or.inr h2)]
    · intro h2
      rw [hu, if_neg (fun h3 => h3.elim (fun h4 => by omega) h2)]
      omega
  · intro h
    rw [if_neg (by omega), if_pos h] at hu
    constructor
    · intro h2
      rw [hu, if_pos (Or.inr h2)]
    · intro h2
      rw [hu, if_neg (fun h3 => h3.elim (fun h4 => by omega) h2)]
      omega

/-- C27 (witness): position 100, calibration 0..4095, hysteresis 16 and the
reading 815 (n = 50): the offset reading maps to 51, the position becomes
51. -/
theorem C27_hysteresis_step_witness :
    (Potentiometer.update ⟨100, 0, 4095, 16, EventQueue.new, 0⟩ (fun _ => 0) 815 7).position
      = 50 + 1 :=
  ((C27_hysteresis_step ⟨100, 0, 4095, 16, EventQueue.new, 0⟩ (fun _ => 0) 815 7 50
    (by decide) (by decide)).1 (by decide)).2 (by decide)

/-- C28 (evaluation at the failing input): the constructor stores its
arguments as they are (as 16-bit values): for (adcMin, adcMax, hysteresis) =
(0, 65535, 0) the stored `adcMax` is 65535 > 4095; for (300, 100, 0) the
stored `adcMin` 300 exceeds the stored `adcMax` 100; for (0, 4095, 1000) the
stored hysteresis 1000 exceeds (4095 − 0 + 1)/256 = 16; for (1, 0, 0) the
divisor `adcMax − adcMin + 1` of `rawToPos` is 0. -/
theorem C28_constructor_stores_unchecked_calibration (adcMin adcMax hysteresis now : Nat) :
    (Potentiometer.new adcMin adcMax hysteresis now).adcMin = adcMin % 65536
    ∧ (Potentiometer.new adcMin adcMax hysteresis now).adcMax = adcMax % 65536
    ∧ (Potentiometer.new adcMin adcMax hysteresis now).hysteresis = hysteresis % 65536
    ∧ (Potentiometer.new 0 65535 0 0).adcMax = 65535
    ∧ (Potentiometer.new 300 100 0 0).adcMin = 300
    ∧ (Potentiometer.new 300 100 0 0).adcMax = 100
    ∧ (Potentiometer.new 0 4095 1000 0).hysteresis = 1000
    ∧ toU32 ((Potentiometer.new 1 0 0 0).adcMax + U32 - (Potentiometer.new 1 0 0 0).adcMin + 1)
      = 0 := by
  refine ⟨rfl, rfl, rfl, ?_, ?_, ?_, ?_, ?_⟩ <;> decide

/-! ## Macro list -/

namespace MacroList

theorem addTo_full (macroRef : Nat) (slots : List MacroSlot)
    (h : ∀ s ∈ slots, s.occupied = true) : addTo macroRef slots = none := by
  induction slots with
  | nil => rfl
  | cons slot slots ih =>
    have h1 : slot.occupied = true := h slot (List.mem_cons_self _ _)
    simp [addTo, h1, ih (fun s hs => h s (List.mem_cons_of_mem _ hs))]

theorem addTo_free (macroRef : Nat) (slots : List MacroSlot)
    (h : ∃ s ∈ slots, s.occupied = false) :
    ∃ (i : Nat) (hi : i < slots.length), (slots.get ⟨i, hi⟩).occupied = false
      ∧ (∀ (j : Nat) (hj : j < slots.length), j < i → (slots.get ⟨j, hj⟩).occupied = true)
      ∧ addTo macroRef slots = some (slots.set i ⟨true, macroRef, 0⟩) := by
  induction slots with
  | nil => simp at h
  | cons slot slots ih =>
    by_cases h1 : slot.occupied = true
    · have h2 : ∃ s ∈ slots, s.occupied = false := by
        obtain ⟨s, hs, hf⟩ := h
        rcases List.mem_cons.mp hs with rfl | hs
        · rw [h1] at hf; exact absurd hf (by decide)
        · exact ⟨s, hs, hf⟩
      obtain ⟨i, hi, f1, f2, f3⟩ := ih h2
      refine ⟨i + 1, by simp; omega, by simpa using f1, ?_, ?_⟩
      · intro j hj hlt
        cases j with
        | zero => simpa using h1
        | succ j =>
          have := f2 j (by simp at hj; omega) (by omega)
          simpa using this
      · simp [addTo, h1, f3]
    · have h2 : slot.occupied = false := by
        cases hc : slot.occupied
        · rfl
        · exact absurd hc h1
      refine ⟨0, by simp, by simpa using h2, ?_, ?_⟩
      · intro j _ hlt; omega
      · simp [addTo, h2]

end MacroList

/-- C22: `add(macro)` on a list whose slots are all occupied returns false
and leaves the list, hence every slot's occupied flag, macro reference and
tick counter, unchanged; on a list with at least one free slot it returns
true and the list afterwards differs from the one before only in the first
free slot i (every slot before i is occupied), which is occupied and holds
the macro. -/
theorem C22_macro_list_add (l : MacroList) (macroRef : Nat) :
    ((∀ s ∈ l.macros, s.occupied = true) → l.add macroRef = (false, l))
    ∧ ((∃ s ∈ l.macros, s.occupied = false) →
        (l.add macroRef).1 = true
        ∧ ∃ (i : Nat) (hi : i < l.macros.length),
            (l.macros.get ⟨i, hi⟩).occupied = false
            ∧ (∀ (j : Nat) (hj : j < l.macros.length), j < i →
                (l.macros.get ⟨j, hj⟩).occupied = true)
            ∧ (l.add macroRef).2.macros.length = l.macros.length
            ∧ (∀ j, j ≠ i → (l.add macroRef).2.macros[j]? = l.macros[j]?)
            ∧ ((l.add macroRef).2.macros[i]?.map MacroSlot.occupied) = some true
            ∧ ((l.add macroRef).2.macros[i]?.map MacroSlot.macroRef) = some macroRef) := by
  constructor
  · intro h
    simp [MacroList.add, MacroList.addTo_full macroRef l.macros h]
  · intro h
    obtain ⟨i, hi, f1, f2, f3⟩ := MacroList.addTo_free macroRef l.macros h
    have e : l.add macroRef = (true, ⟨l.macros.set i ⟨true, macroRef, 0⟩⟩) := by
      simp [MacroList.add, f3]
    rw [e]
    refine ⟨rfl, i, hi, f1, f2, by simp, ?_, ?_, ?_⟩
    · intro j hj
      simp [List.getElem?_set_ne (Ne.symm hj)]
    · simp [List.getElem?_set_self hi]
    · simp [List.getElem?_set_self hi]

/-- C22 (witness): a list of 32 occupied slots, and the same list with
slot 5 free. -/
theorem C22_macro_list_add_witness :
    (MacroList.add ⟨List.replicate 32 ⟨true, 7, 3⟩⟩ 9)
      = (false, ⟨List.replicate 32 ⟨true, 7, 3⟩⟩)
    ∧ (MacroList.add ⟨(List.replicate 32 ⟨true, 7, 3⟩).set 5 ⟨false, 0, 0⟩⟩ 9).1 = true :=
  ⟨(C22_macro_list_add ⟨List.replicate 32 ⟨true, 7, 3⟩⟩ 9).1 (by decide),
    ((C22_macro_list_add ⟨(List.replicate 32 ⟨true, 7, 3⟩).set 5 ⟨false, 0, 0⟩⟩ 9).2
      (by decide)).1⟩

/-! ## EEPROM: memory address bits in the bus address -/

set_option maxRecDepth 100000 in
theorem or_low_bits :
    ∀ k, k < 4 → ∀ b, b < 128 → ∀ o, o < 8 → b % 2 ^ k = 0 → o < 2 ^ k →
      b ||| o = b + o := by
  decide

theorem addressBits_cases (ty : EepRomType) :
    ((PARAMS ty).addressBytes = 1 ∨ (PARAMS ty).addressBytes = 2)
    ∧ (PARAMS ty).addressBits - 8 * (PARAMS ty).addressBytes < 4
    ∧ (PARAMS ty).addressBits ≤ 8 * (PARAMS ty).addressBytes + 3
    ∧ (PARAMS ty).addressBits ≤ 17 := by
  cases ty <;> simp [PARAMS]

theorem bytesValue_addressCmds (nb a : Nat) (h : nb = 1 ∨ nb = 2) :
    bytesValue (EepRom.addressCmds nb a) = a % 2 ^ (8 * nb) := by
  have e : ∀ x : Nat, x &&& 0xff = x % 256 := fun x => Nat.and_pow_two_sub_one_eq_mod x 8
  rcases h with rfl | rfl
  · simp [bytesValue, EepRom.addressCmds, List.range_succ, e]
  · simp [bytesValue, EepRom.addressCmds, List.range_succ, e, Nat.shiftRight_eq_div_pow]
    omega

/-- C25: for every EEPROM type, every memory address a below the capacity
and every base bus address below 128 whose lowest addressBits −
8·addressBytes bits are zero: `calcI2cAddress(a)` is the base address with
the bits of a above 8·addressBytes in its low bits (base + a / 2^(8·addressBytes),
which is also base OR these bits), it is below 128, and these low bits
together with the address bytes sent on the bus, most significant first,
give back a; for the types whose address fits into the address bytes the
bus address is the base address. Example of the header: on a 24C08 the
address 0b1110001111 gives the low bits 11 and the address byte
0b10001111. -/
theorem C25_bus_address_carries_high_bits (s : EepRom) (a : Nat)
    (ha : a < EepRom.getCapacity s.type) (hb : s.i2cAddress < 128)
    (hlow : s.i2cAddress
      % 2 ^ ((PARAMS s.type).addressBits - 8 * (PARAMS s.type).addressBytes) = 0) :
    s.calcI2cAddress a = s.i2cAddress + a / 2 ^ (8 * (PARAMS s.type).addressBytes)
    ∧ s.calcI2cAddress a = s.i2cAddress ||| a / 2 ^ (8 * (PARAMS s.type).addressBytes)
    ∧ a / 2 ^ (8 * (PARAMS s.type).addressBytes)
      < 2 ^ ((PARAMS s.type).addressBits - 8 * (PARAMS s.type).addressBytes)
    ∧ s.calcI2cAddress a < 128
    ∧ (s.calcI2cAddress a - s.i2cAddress) * 2 ^ (8 * (PARAMS s.type).addressBytes)
        + bytesValue (EepRom.addressCmds (PARAMS s.type).addressBytes a) = a
    ∧ ((PARAMS s.type).addressBits ≤ 8 * (PARAMS s.type).addressBytes →
        s.calcI2cAddress a = s.i2cAddress)
    ∧ (s.type = EepRomType.EEPROM_24C08 → a = 0b1110001111 →
        s.calcI2cAddress a - s.i2cAddress = 0b11
        ∧ EepRom.addressCmds (PARAMS s.type).addressBytes a
          = [⟨false, false, false, 0b10001111⟩]) := by
  obtain ⟨hnb, hk, hk2, hbits⟩ := addressBits_cases s.type
  rw [getCapacity_eq] at ha
  have hdm : a / 2 ^ (8 * (PARAMS s.type).addressBytes)
        * 2 ^ (8 * (PARAMS s.type).addressBytes)
      + a % 2 ^ (8 * (PARAMS s.type).addressBytes) = a := Nat.div_add_mod' a _
  -- the overflowing bits
  have hov : a / 2 ^ (8 * (PARAMS s.type).addressBytes)
      < 2 ^ ((PARAMS s.type).addressBits - 8 * (PARAMS s.type).addressBytes) := by
    rcases Nat.lt_or_ge (8 * (PARAMS s.type).addressBytes) (PARAMS s.type).addressBits
      with h | h
    · rw [Nat.div_lt_iff_lt_mul (Nat.two_pow_pos _), ← Nat.pow_add,
        Nat.sub_add_cancel h.le]
      exact ha
    · have : (PARAMS s.type).addressBits - 8 * (PARAMS s.type).addressBytes = 0 := by omega
      rw [this, Nat.pow_zero, Nat.lt_one_iff]
      apply Nat.div_eq_of_lt
      exact lt_of_lt_of_le ha (Nat.pow_le_pow_right (by decide) h)
  have hle8 : 2 ^ ((PARAMS s.type).addressBits - 8 * (PARAMS s.type).addressBytes) ≤ 8 := by
    calc 2 ^ ((PARAMS s.type).addressBits - 8 * (PARAMS s.type).addressBytes)
        ≤ 2 ^ 3 := Nat.pow_le_pow_right (by decide) (by omega)
      _ = 8 := by decide
  have hfit : (PARAMS s.type).addressBits ≤ 8 * (PARAMS s.type).addressBytes →
      a / 2 ^ (8 * (PARAMS s.type).addressBytes) = 0 := by
    intro h
    apply Nat.div_eq_of_lt
    exact lt_of_lt_of_le ha (Nat.pow_le_pow_right (by decide) h)
  have hcalc0 : s.calcI2cAddress a
      = if (PARAMS s.type).addressBits > 8 * (PARAMS s.type).addressBytes then
          (s.i2cAddress ||| (a / 2 ^ (8 * (PARAMS s.type).addressBytes)) % 256) % 256
        else s.i2cAddress := by
    unfold EepRom.calcI2cAddress
    simp only [Nat.shiftRight_eq_div_pow]
  have hbv := bytesValue_addressCmds (PARAMS s.type).addressBytes a hnb
  have hor := or_low_bits _ hk _ hb _ (lt_of_lt_of_le hov hle8) hlow hov
  have hlt : s.i2cAddress + a / 2 ^ (8 * (PARAMS s.type).addressBytes) < 128 := by
    obtain ⟨q, hq⟩ := Nat.dvd_of_mod_eq_zero hlow
    have h128 : (128 : Nat)
        = 2 ^ ((PARAMS s.type).addressBits - 8 * (PARAMS s.type).addressBytes)
          * 2 ^ (7 - ((PARAMS s.type).addressBits - 8 * (PARAMS s.type).addressBytes)) := by
      rw [← Nat.pow_add, Nat.add_sub_cancel' (by omega)]
    generalize 2 ^ ((PARAMS s.type).addressBits - 8 * (PARAMS s.type).addressBytes) = K
      at hov hq h128
    generalize 2 ^ (7 - ((PARAMS s.type).addressBits - 8 * (PARAMS s.type).addressBytes)) = M
      at h128
    generalize a / 2 ^ (8 * (PARAMS s.type).addressBytes) = ov at hov
    rw [hq, h128] at hb
    have hqM : q < M := Nat.lt_of_mul_lt_mul_left hb
    rw [hq, h128]
    calc K * q + ov < K * q + K := Nat.add_lt_add_left hov _
      _ = K * (q + 1) := by rw [Nat.mul_add, Nat.mul_one]
      _ ≤ K * M := Nat.mul_le_mul_left K hqM
  generalize a / 2 ^ (8 * (PARAMS s.type).addressBytes) = ov at *
  have hcalc : s.calcI2cAddress a = s.i2cAddress + ov := by
    rw [hcalc0]
    split_ifs with h
    · rw [Nat.mod_eq_of_lt (by omega : ov < 256), hor, Nat.mod_eq_of_lt (by omega)]
    · have := hfit (by omega)
      omega
  refine ⟨hcalc, by rw [hcalc, hor], hov, by rw [hcalc]; exact hlt, ?_, ?_, ?_⟩
  · rw [hcalc, Nat.add_sub_cancel_left, hbv]
    exact hdm
  · intro h
    have := hfit h
    rw [hcalc]
    omega
  · intro hty h2
    subst h2
    rw [hty] at hdm ⊢
    refine ⟨?_, by decide⟩
    rw [hcalc, Nat.add_sub_cancel_left]
    simp only [PARAMS] at hdm
    omega

/-- C25 (witness): the 24C08 at the base address 0b1010000 and the address
0b1110001111 of the header. -/
theorem C25_bus_address_carries_high_bits_witness :
    (EepRom.new .EEPROM_24C08 0b1010000).calcI2cAddress 0b1110001111 = 0b1010011
    ∧ EepRom.addressCmds (PARAMS EepRomType.EEPROM_24C08).addressBytes 0b1110001111
      = [⟨false, false, false, 0b10001111⟩] :=
  ⟨(C25_bus_address_carries_high_bits (EepRom.new .EEPROM_24C08 0b1010000) 0b1110001111
      (by decide) (by decide) (by decide)).1,
    ((C25_bus_address_carries_high_bits (EepRom.new .EEPROM_24C08 0b1010000) 0b1110001111
      (by decide) (by decide) (by decide)).2.2.2.2.2.2 rfl rfl).2⟩

/-! ## EEPROM: result and state -/

theorem checkParameters_ne_zero (ty : EepRomType) (A L l : Nat)
    (h : checkParameters ty A L = some l) : l ≠ 0 := by
  unfold checkParameters at h
  simp only at h
  split_ifs at h <;> simp_all

/-- What a fill step of a write leaves: idle with Success when it finds all
bytes transmitted, otherwise transmitting with the result untouched. -/
theorem writeFillTxFifo_result (s : EepRom) (F : Nat) :
    ((s.writeFillTxFifo F).state = State.IDLE
        ∧ (s.writeFillTxFifo F).result = Result.SUCCESS
        ∧ s.op.bytesTransmitted = s.op.length
        ∧ (s.writeFillTxFifo F).op = s.op)
    ∨ ((s.writeFillTxFifo F).state = State.WRITE_TRANSMITTING
        ∧ (s.writeFillTxFifo F).result = s.result
        ∧ s.op.bytesTransmitted ≠ s.op.length) := by
  by_cases h : s.op.bytesTransmitted = s.op.length
  · left
    rw [writeFillTxFifo_finished s F h]
    exact ⟨rfl, rfl, h, rfl⟩
  · right
    rw [writeFillTxFifo_unfinished s F h]
    exact ⟨rfl, rfl, h⟩

/-- The same for a fill step of a read. -/
theorem readFillTxFifo_result (s : EepRom) (F : Nat) :
    ((s.readFillTxFifo F).state = State.IDLE
        ∧ (s.readFillTxFifo F).result = Result.SUCCESS
        ∧ s.op.bytesTransmitted = s.op.length
        ∧ (s.readFillTxFifo F).op = s.op)
    ∨ ((s.readFillTxFifo F).state = State.READ_RECEIVING
        ∧ (s.readFillTxFifo F).result = s.result
        ∧ s.op.bytesTransmitted ≠ s.op.length) := by
  by_cases h : s.op.bytesTransmitted = s.op.length
  · left
    unfold readFillTxFifo
    rw [if_pos h]
    exact ⟨rfl, rfl, h, rfl⟩
  · right
    unfold readFillTxFifo
    rw [if_neg h]
    dsimp only
    refine ⟨rfl, ?_, h⟩
    split_ifs <;> rfl

/-- A fill step of a write that starts with the result Ongoing ends with the
result Ongoing exactly when it does not end idle. -/
theorem writeFillTxFifo_keeps_invariant (s : EepRom) (F : Nat)
    (h : s.result = Result.ONGOING) :
    (s.writeFillTxFifo F).result = Result.ONGOING
      ↔ (s.writeFillTxFifo F).state ≠ State.IDLE := by
  rcases writeFillTxFifo_result s F with ⟨g1, g2, _, _⟩ | ⟨g1, g2, _⟩
  · rw [g1, g2]; decide
  · rw [g1, g2, h]; decide

/-- The same for a fill step of a read. -/
theorem readFillTxFifo_keeps_invariant (s : EepRom) (F : Nat)
    (h : s.result = Result.ONGOING) :
    (s.readFillTxFifo F).result = Result.ONGOING
      ↔ (s.readFillTxFifo F).state ≠ State.IDLE := by
  rcases readFillTxFifo_result s F with ⟨g1, g2, _, _⟩ | ⟨g1, g2, _⟩
  · rw [g1, g2]; decide
  · rw [g1, g2, h]; decide

/-- The invariant is kept by every call and interrupt. -/
theorem perform_keeps_invariant (s : EepRom) (c : Call)
    (h : s.result = Result.ONGOING ↔ s.state ≠ State.IDLE) :
    (s.perform c).result = Result.ONGOING ↔ (s.perform c).state ≠ State.IDLE := by
  cases c with
  | startReading dest A L F =>
    simp only [perform]
    cases hc : checkParameters s.type A L with
    | none => rw [startReading_of_none s dest A L F hc]; exact h
    | some l =>
      by_cases hs : s.state = State.IDLE
      · rw [startReading_of_some s dest A L F l hc hs]
        exact readFillTxFifo_keeps_invariant _ F rfl
      · have e : s.startReading dest A L F = (false, s) := by
          simp [startReading, hc, hs]
        rw [e]; exact h
  | startWriting src A L F =>
    simp only [perform]
    cases hc : checkParameters s.type A L with
    | none => rw [startWriting_of_none s src A L F hc]; exact h
    | some l =>
      by_cases hs : s.state = State.IDLE
      · rw [startWriting_of_some s src A L F l hc hs]
        exact writeFillTxFifo_keeps_invariant _ F rfl
      · have e : s.startWriting src A L F = (false, s) := by
          simp [startWriting, hc, hs]
        rw [e]; exact h
  | irq irq =>
    simp only [perform]
    cases irq with
    | i2c intr rxFifo F =>
      simp only [handle, i2cCallbackHelper]
      split_ifs with h1 h2
      · simp only [i2cCallback]
        cases hst : s.state with
        | IDLE => simpa [hst] using h
        | READ_RETRY_DELAY => simpa [hst] using h
        | WRITE_RETRY_DELAY => simpa [hst] using h
        | WRITE_TRANSMITTING =>
          have hres : s.result = Result.ONGOING := h.mpr (by rw [hst]; decide)
          simp only
          split_ifs
          · simp [hres]
          · exact writeFillTxFifo_keeps_invariant _ F (by first | rfl | exact hres)
          · simp [hres]
        | READ_RECEIVING =>
          have hres : s.result = Result.ONGOING := h.mpr (by rw [hst]; decide)
          simp only
          split_ifs
          · simp [hres]
          · exact readFillTxFifo_keeps_invariant _ F (by first | rfl | exact hres)
          · simp [hres]
      · exact h
      · exact h
    | alarm F =>
      simp only [handle]
      split_ifs with h1
      · simp only [alarmCallback]
        cases hst : s.state with
        | IDLE => simpa [hst] using h
        | READ_RECEIVING => simpa [hst] using h
        | WRITE_TRANSMITTING => simpa [hst] using h
        | WRITE_RETRY_DELAY =>
          have hres : s.result = Result.ONGOING := h.mpr (by rw [hst]; decide)
          simp only
          exact writeFillTxFifo_keeps_invariant _ F (by first | rfl | exact hres)
        | READ_RETRY_DELAY =>
          have hres : s.result = Result.ONGOING := h.mpr (by rw [hst]; decide)
          simp only
          exact readFillTxFifo_keeps_invariant _ F (by first | rfl | exact hres)
      · exact h
  | cancel =>
    simp only [perform, cancel]
    split_ifs <;> simp

/-- In every state reached from a new channel the result is Ongoing exactly
when the state is not Idle. -/
theorem runCalls_invariant (s : EepRom) (calls : List Call)
    (h : s.result = Result.ONGOING ↔ s.state ≠ State.IDLE) :
    (s.runCalls calls).result = Result.ONGOING
      ↔ (s.runCalls calls).state ≠ State.IDLE := by
  induction calls generalizing s with
  | nil => exact h
  | cons c cs ih => exact ih (s.perform c) (perform_keeps_invariant s c h)

/-- An abort interrupt leaves the result as it is. -/
theorem handle_abort_result (s : EepRom) (intr : Intr) (rxFifo : List Nat) (F : Nat)
    (h : intr.txAbrt = true) :
    (s.handle (.i2c intr rxFifo F)).result = s.result := by
  simp only [handle, i2cCallbackHelper, i2cCallback, h, if_true]
  split_ifs
  · cases hst : s.state <;> rfl
  · rfl
  · rfl

/-- An interrupt either leaves the result as it is, or its handler ran a
fill step that found all bytes processed and ended idle with Success. -/
theorem handle_result (s : EepRom) (irq : Irq) :
    (s.handle irq).result = s.result
    ∨ ∃ (r : EepRom) (F : Nat), r.op.bytesTransmitted = r.op.length
        ∧ (s.handle irq = r.writeFillTxFifo F ∨ s.handle irq = r.readFillTxFifo F)
        ∧ (s.handle irq).result = Result.SUCCESS
        ∧ (s.handle irq).state = State.IDLE := by
  have hw : ∀ (r : EepRom) (F : Nat),
      (r.writeFillTxFifo F).result = r.result
      ∨ ∃ (r0 : EepRom) (F0 : Nat), r0.op.bytesTransmitted = r0.op.length
        ∧ (r.writeFillTxFifo F = r0.writeFillTxFifo F0
            ∨ r.writeFillTxFifo F = r0.readFillTxFifo F0)
        ∧ (r.writeFillTxFifo F).result = Result.SUCCESS
        ∧ (r.writeFillTxFifo F).state = State.IDLE := by
    intro r F
    rcases writeFillTxFifo_result r F with ⟨g1, g2, g3, _⟩ | ⟨_, g2, _⟩
    · exact Or.inr ⟨r, F, g3, Or.inl rfl, g2, g1⟩
    · exact Or.inl g2
  have hr : ∀ (r : EepRom) (F : Nat),
      (r.readFillTxFifo F).result = r.result
      ∨ ∃ (r0 : EepRom) (F0 : Nat), r0.op.bytesTransmitted = r0.op.length
        ∧ (r.readFillTxFifo F = r0.writeFillTxFifo F0
            ∨ r.readFillTxFifo F = r0.readFillTxFifo F0)
        ∧ (r.readFillTxFifo F).result = Result.SUCCESS
        ∧ (r.readFillTxFifo F).state = State.IDLE := by
    intro r F
    rcases readFillTxFifo_result r F with ⟨g1, g2, g3, _⟩ | ⟨_, g2, _⟩
    · exact Or.inr ⟨r, F, g3, Or.inr rfl, g2, g1⟩
    · exact Or.inl g2
  cases irq with
  | i2c intr rxFifo F =>
    simp only [handle, i2cCallbackHelper]
    split_ifs with h1 h2
    · simp only [i2cCallback]
      cases hst : s.state with
      | IDLE => exact Or.inl rfl
      | READ_RETRY_DELAY => exact Or.inl rfl
      | WRITE_RETRY_DELAY => exact Or.inl rfl
      | WRITE_TRANSMITTING =>
        simp only
        split_ifs
        · exact Or.inl rfl
        · exact hw _ F
        · exact Or.inl rfl
      | READ_RECEIVING =>
        simp only
        split_ifs
        · exact Or.inl rfl
        · exact hr _ F
        · exact Or.inl rfl
    · exact Or.inl rfl
    · exact Or.inl rfl
  | alarm F =>
    simp only [handle]
    split_ifs with h1
    · simp only [alarmCallback]
      cases hst : s.state with
      | IDLE => exact Or.inl rfl
      | READ_RECEIVING => exact Or.inl rfl
      | WRITE_TRANSMITTING => exact Or.inl rfl
      | WRITE_RETRY_DELAY => exact hw _ F
      | READ_RETRY_DELAY => exact hr _ F
    · exact Or.inl rfl

/-- A call of `startReading` or `startWriting` on a channel whose result is
Ongoing leaves the result Ongoing. -/
theorem start_keeps_ongoing (s : EepRom) (data : List Nat) (A L F : Nat)
    (h : s.result = Result.ONGOING) :
    (s.startReading data A L F).2.result = Result.ONGOING
    ∧ (s.startWriting data A L F).2.result = Result.ONGOING := by
  constructor
  · cases hc : checkParameters s.type A L with
    | none => rw [startReading_of_none s data A L F hc]; exact h
    | some l =>
      by_cases hs : s.state = State.IDLE
      · rw [startReading_of_some s data A L F l hc hs]
        rcases readFillTxFifo_result
          { s with op := ⟨data, l, A, 0, 0⟩, result := Result.ONGOING } F with
          ⟨_, _, h3, _⟩ | ⟨_, h2, _⟩
        · exact absurd h3.symm (checkParameters_ne_zero _ _ _ _ hc)
        · exact h2
      · have e : s.startReading data A L F = (false, s) := by
          simp [startReading, hc, hs]
        rw [e]; exact h
  · cases hc : checkParameters s.type A L with
    | none => rw [startWriting_of_none s data A L F hc]; exact h
    | some l =>
      by_cases hs : s.state = State.IDLE
      · rw [startWriting_of_some s data A L F l hc hs]
        rcases writeFillTxFifo_result
          { s with op := ⟨data, l, A, 0, 0⟩, result := Result.ONGOING } F with
          ⟨_, _, h3, _⟩ | ⟨_, h2, _⟩
        · exact absurd h3.symm (checkParameters_ne_zero _ _ _ _ hc)
        · exact h2
      · have e : s.startWriting data A L F = (false, s) := by
          simp [startWriting, hc, hs]
        rw [e]; exact h

/-- C23: in every state reached from a new channel by any sequence of
`startReading` / `startWriting` calls, interrupts (transfer complete, abort,
retry alarm) and `cancel` calls, the result is Ongoing exactly when the state
is not Idle. In every state `s`, an interrupt that signals an abort leaves
the result unchanged; and a call or interrupt `c` that takes the result
away from Ongoing is either `cancel`, which leaves Cancelled and Idle, or an
interrupt whose handler ran a fill step (`writeFillTxFifo` or
`readFillTxFifo`) on a request with `bytesTransmitted = length`, which
leaves Success and Idle. -/
theorem C23_result_ongoing_iff_not_idle (type : EepRomType) (i2cAddress : Nat)
    (calls : List Call) (s : EepRom) (c : Call)
    (intr : Intr) (rxFifo : List Nat) (F : Nat) :
    (((EepRom.new type i2cAddress).runCalls calls).result = Result.ONGOING
      ↔ ((EepRom.new type i2cAddress).runCalls calls).state ≠ State.IDLE)
    ∧ (intr.txAbrt = true → (s.handle (.i2c intr rxFifo F)).result = s.result)
    ∧ (s.result = Result.ONGOING → (s.perform c).result ≠ Result.ONGOING →
        (c = Call.cancel ∧ (s.perform c).result = Result.CANCELLED
          ∧ (s.perform c).state = State.IDLE)
        ∨ (∃ (irq : Irq) (r : EepRom) (F0 : Nat), c = Call.irq irq
            ∧ r.op.bytesTransmitted = r.op.length
            ∧ (s.perform c = r.writeFillTxFifo F0 ∨ s.perform c = r.readFillTxFifo F0)
            ∧ (s.perform c).result = Result.SUCCESS
            ∧ (s.perform c).state = State.IDLE)) := by
  refine ⟨runCalls_invariant _ calls (by simp [EepRom.new]),
    handle_abort_result s intr rxFifo F, ?_⟩
  intro hres hne
  cases c with
  | startReading dest A L F1 =>
    exact absurd (start_keeps_ongoing s dest A L F1 hres).1 hne
  | startWriting src A L F1 =>
    exact absurd (start_keeps_ongoing s src A L F1 hres).2 hne
  | irq irq =>
    right
    rcases handle_result s irq with h1 | ⟨r, F0, h1, h2, h3, h4⟩
    · exact absurd (h1.trans hres) hne
    · exact ⟨irq, r, F0, rfl, h1, h2, h3, h4⟩
  | cancel =>
    left
    refine ⟨rfl, ?_, ?_⟩ <;> simp only [perform, cancel] <;> split_ifs <;> rfl

/-- C23 (witness): a 24C128 channel writing three bytes: after the write is
started the result is Ongoing and the state WriteTransmitting; the
transfer-complete interrupt then runs the fill step that finds 3 of 3 bytes
transmitted and leaves Success and Idle. -/
theorem C23_result_ongoing_iff_not_idle_witness :
    ((EepRom.new EepRomType.EEPROM_24C128 0x50).runCalls
        [Call.startWriting [1, 2, 3] 0 3 16]).result = Result.ONGOING
    ∧ ((EepRom.new EepRomType.EEPROM_24C128 0x50).runCalls
        [Call.startWriting [1, 2, 3] 0 3 16]).state ≠ State.IDLE
    ∧ (((EepRom.new EepRomType.EEPROM_24C128 0x50).runCalls
        [Call.startWriting [1, 2, 3] 0 3 16]).perform (Call.irq txEmptyIrq)).result
        = Result.SUCCESS :=
  have h := C23_result_ongoing_iff_not_idle EepRomType.EEPROM_24C128 0x50
    [Call.startWriting [1, 2, 3] 0 3 16]
    ((EepRom.new EepRomType.EEPROM_24C128 0x50).runCalls [Call.startWriting [1, 2, 3] 0 3 16])
    (Call.irq txEmptyIrq) ⟨false, false, true⟩ [] 16
  have h1 : ((EepRom.new EepRomType.EEPROM_24C128 0x50).runCalls
      [Call.startWriting [1, 2, 3] 0 3 16]).result = Result.ONGOING := by decide
  ⟨h1, h.1.mp h1, by
    rcases h.2.2 h1 (by decide) with ⟨h2, _⟩ | ⟨_, _, _, _, _, _, h3, _⟩
    · exact absurd h2 (by decide)
    · exact h3⟩

/-! ## EEPROM: retry after an abort -/

/-- A fill step of a write sends address bytes exactly when no byte has been
transmitted yet or the current address is the first of a page. -/
theorem writeFillPlan_starting (ty : EepRomType) (op : Op) (F : Nat) :
    (writeFillPlan ty op F).starting = true
      ↔ (op.bytesTransmitted = 0
          ∨ uadd op.memAddress op.bytesTransmitted % (PARAMS ty).pageSize = 0) := by
  unfold writeFillPlan
  dsimp only
  split_ifs with h
  · simp [h]
  · simp [h]

/-- The abort branch of the interrupt handler while reading, and the fill
step run by the retry alarm: address bytes and a RESTART are sent only when
no byte has been received yet. -/
theorem read_retry_after_abort (s : EepRom) (intr : Intr) (rxFifo : List Nat)
    (F F2 : Nat)
    (hst : s.state = State.READ_RECEIVING) (hirq : s.irqEnabled = true)
    (hinst : s.i2cIrqInst = true) (habrt : intr.txAbrt = true)
    (htl : s.op.bytesTransmitted ≠ s.op.length) :
    (s.handle (.i2c intr rxFifo F)).state = State.READ_RETRY_DELAY
    ∧ (s.handle (.i2c intr rxFifo F)).result = s.result
    ∧ (s.handle (.i2c intr rxFifo F)).op
        = { s.op with bytesEnqueued := s.op.bytesTransmitted }
    ∧ (s.op.bytesTransmitted ≠ 0 →
        ((s.handle (.i2c intr rxFifo F)).handle (.alarm F2)).tar = s.tar
        ∧ ∀ c ∈ ((s.handle (.i2c intr rxFifo F)).handle (.alarm F2)).txFifo,
            c.cmd = true ∧ c.restart = false) := by
  have e : s.handle (.i2c intr rxFifo F) =
      { s with
        txFifo := [], irqEnabled := false, intr_mask := ⟨false, false, false⟩
        i2cIrqInst := false
        op := { s.op with bytesEnqueued := s.op.bytesTransmitted }
        state := State.READ_RETRY_DELAY
        alarm := true } := by
    simp only [handle, hirq, if_true, i2cCallbackHelper, hinst, i2cCallback, hst, habrt]
  rw [e]
  refine ⟨rfl, rfl, rfl, ?_⟩
  intro ht0
  simp only [handle, if_true, alarmCallback]
  unfold readFillTxFifo
  simp only [if_neg htl, ht0, decide_False, Bool.false_and, Bool.false_eq_true, if_false,
    List.nil_append]
  refine ⟨trivial, ?_⟩
  intro c hc
  simp only [List.mem_map] at hc
  obtain ⟨i, _, rfl⟩ := hc
  exact ⟨rfl, rfl⟩

/-- C24 (what the code does): a channel in WriteTransmitting with an
unfinished write takes an abort interrupt: the enqueued count is reset to the
transmitted count, the state becomes WriteRetryDelay, the alarm is armed and
the result is unchanged. The fill step run by the alarm then opens a new
transaction (address bytes of `memAddress + bytesTransmitted`, bus address
set from it) only when no byte was transmitted yet or that address is the
first of a page; after an abort in the middle of a page with earlier bytes
confirmed it enqueues payload words only and leaves the bus address as it
was. -/
theorem C24_retry_sends_address_only_at_page_start (s : EepRom) (intr : Intr)
    (rxFifo : List Nat) (F F2 : Nat)
    (hst : s.state = State.WRITE_TRANSMITTING) (hirq : s.irqEnabled = true)
    (hinst : s.i2cIrqInst = true) (habrt : intr.txAbrt = true)
    (htl : s.op.bytesTransmitted ≠ s.op.length) :
    (s.handle (.i2c intr rxFifo F)).state = State.WRITE_RETRY_DELAY
    ∧ (s.handle (.i2c intr rxFifo F)).result = s.result
    ∧ (s.handle (.i2c intr rxFifo F)).alarm = true
    ∧ (s.handle (.i2c intr rxFifo F)).op
        = { s.op with bytesEnqueued := s.op.bytesTransmitted }
    ∧ ((s.op.bytesTransmitted = 0
          ∨ uadd s.op.memAddress s.op.bytesTransmitted % (PARAMS s.type).pageSize = 0) →
        ((s.handle (.i2c intr rxFifo F)).handle (.alarm F2)).txFifo
          = addressCmds (PARAMS s.type).addressBytes
              (uadd s.op.memAddress s.op.bytesTransmitted)
            ++ payloadCmds s.op.data s.op.bytesTransmitted
              (writeFillPlan s.type s.op F2).stopping (writeFillPlan s.type s.op F2).len
        ∧ ((s.handle (.i2c intr rxFifo F)).handle (.alarm F2)).tar
          = s.calcI2cAddress (uadd s.op.memAddress s.op.bytesTransmitted))
    ∧ (s.op.bytesTransmitted ≠ 0 →
        uadd s.op.memAddress s.op.bytesTransmitted % (PARAMS s.type).pageSize ≠ 0 →
        ((s.handle (.i2c intr rxFifo F)).handle (.alarm F2)).txFifo
          = payloadCmds s.op.data s.op.bytesTransmitted
              (writeFillPlan s.type s.op F2).stopping (writeFillPlan s.type s.op F2).len
        ∧ ((s.handle (.i2c intr rxFifo F)).handle (.alarm F2)).tar = s.tar) := by
  have e : s.handle (.i2c intr rxFifo F) =
      { s with
        txFifo := [], irqEnabled := false, intr_mask := ⟨false, false, false⟩
        i2cIrqInst := false
        op := { s.op with bytesEnqueued := s.op.bytesTransmitted }
        state := State.WRITE_RETRY_DELAY
        alarm := true } := by
    simp only [handle, hirq, if_true, i2cCallbackHelper, hinst, i2cCallback, hst, habrt]
  have hp : ∀ x : Nat, writeFillPlan s.type { s.op with bytesEnqueued := x } F2
      = writeFillPlan s.type s.op F2 := fun _ => rfl
  have e2 : (s.handle (.i2c intr rxFifo F)).handle (.alarm F2) =
      writeFillTxFifo
        { s with
          txFifo := [], irqEnabled := false, intr_mask := ⟨false, false, false⟩
          i2cIrqInst := false
          op := { s.op with bytesEnqueued := s.op.bytesTransmitted }
          state := State.WRITE_RETRY_DELAY
          alarm := false } F2 := by
    rw [e]; rfl
  refine ⟨by rw [e], by rw [e], by rw [e], by rw [e], ?_, ?_⟩
  · intro h
    have hs := (writeFillPlan_starting s.type s.op F2).mpr h
    rw [e2, writeFillTxFifo_unfinished]
    · simp only [hp, hs, if_true, List.nil_append]
      exact ⟨trivial, rfl⟩
    · exact htl
  · intro h0 hpg
    have hs : (writeFillPlan s.type s.op F2).starting = false := by
      cases hh : (writeFillPlan s.type s.op F2).starting
      · rfl
      · rcases (writeFillPlan_starting s.type s.op F2).mp hh with h | h
        · exact absurd h h0
        · exact absurd h hpg
    rw [e2, writeFillTxFifo_unfinished]
    · simp only [hp, hs, Bool.false_eq_true, if_false, List.nil_append, List.append_nil]
      exact ⟨trivial, trivial⟩
    · exact htl

/-- C24 (evaluation at the failing input): a 24C128 (64-byte pages) at bus
address 0x50 writes 30 bytes 0xAA at address 0. The first fill step sends the
two address bytes and 14 payload bytes; after the transfer-complete interrupt
the second fill step enqueues the remaining 16 bytes. That step is aborted:
the channel is in WriteRetryDelay with 14 bytes enqueued and 14 transmitted,
the result Ongoing. The fill step run by the retry alarm then puts exactly
16 payload words (bytes 14 to 29, STOP on the last) into the empty queue: no
address bytes for address 14, so the new bus transaction starts with payload
bytes. -/
theorem C24_retry_sends_address_only_at_page_start_witness :
    ((((EepRom.new EepRomType.EEPROM_24C128 0x50).runCalls
          [Call.startWriting (List.replicate 30 0xAA) 0 30 16, Call.irq txEmptyIrq]).handle
        (.i2c ⟨false, false, true⟩ [] 16)).state = State.WRITE_RETRY_DELAY
    ∧ (((EepRom.new EepRomType.EEPROM_24C128 0x50).runCalls
          [Call.startWriting (List.replicate 30 0xAA) 0 30 16, Call.irq txEmptyIrq]).handle
        (.i2c ⟨false, false, true⟩ [] 16)).result = Result.ONGOING
    ∧ (((EepRom.new EepRomType.EEPROM_24C128 0x50).runCalls
          [Call.startWriting (List.replicate 30 0xAA) 0 30 16, Call.irq txEmptyIrq]).handle
        (.i2c ⟨false, false, true⟩ [] 16)).op
        = ⟨List.replicate 30 0xAA, 30, 0, 14, 14⟩)
    ∧ ((((EepRom.new EepRomType.EEPROM_24C128 0x50).runCalls
          [Call.startWriting (List.replicate 30 0xAA) 0 30 16, Call.irq txEmptyIrq]).handle
        (.i2c ⟨false, false, true⟩ [] 16)).handle (.alarm 16)).txFifo
        = List.replicate 15 ⟨false, false, false, 0xAA⟩ ++ [⟨false, true, false, 0xAA⟩]
    ∧ addressCmds 2 14 = [⟨false, false, false, 0⟩, ⟨false, false, false, 14⟩] :=
  have h := C24_retry_sends_address_only_at_page_start
    ((EepRom.new EepRomType.EEPROM_24C128 0x50).runCalls
      [Call.startWriting (List.replicate 30 0xAA) 0 30 16, Call.irq txEmptyIrq])
    ⟨false, false, true⟩ [] 16 16 (by decide) (by decide) (by decide) rfl (by decide)
  ⟨⟨h.1, h.2.1.trans (by decide), h.2.2.2.1.trans (by decide)⟩,
    (h.2.2.2.2.2 (by decide) (by decide)).1.trans (by decide), by decide⟩

/-! ## EEPROM: the size of a fill step -/

/-- The number of receive commands of a fill step of a read: what fits into
the queue after the address bytes, at most what remains of the request. -/
theorem readFillTxFifo_spec (s : EepRom)
    (ht : s.op.bytesTransmitted < s.op.length)
    (hcap : s.op.memAddress + s.op.length ≤ getCapacity s.type)
    (hq : s.txFifo = []) :
    ∃ len : Nat,
      len = min (16 - (if s.op.bytesTransmitted = 0 then (PARAMS s.type).addressBytes else 0))
          (s.op.length - s.op.bytesTransmitted)
      ∧ (s.readFillTxFifo 16).txFifo
        = (if s.op.bytesTransmitted = 0
            then addressCmds (PARAMS s.type).addressBytes s.op.memAddress else [])
          ++ (List.range len).map (fun i =>
              (⟨decide (s.op.bytesTransmitted = 0) && decide (i = 0),
                decide (s.op.bytesTransmitted + len = s.op.length) && decide (i = len - 1),
                true, 0⟩ : DataCmd))
      ∧ (s.readFillTxFifo 16).rx_tl = len - 1
      ∧ (s.readFillTxFifo 16).op.bytesEnqueued = uadd s.op.bytesEnqueued len := by
  obtain ⟨ty, addr, st, res, ⟨data, L, A, e, t⟩, al, inst, en, enable, tar, mask, rxtl, fifo⟩ := s
  simp only at ht hcap hq ⊢
  subst hq
  have hc := getCapacity_le ty
  have hcap2 : A + L ≤ 131072 := le_trans hcap hc
  clear hcap hc
  have hnb : (PARAMS ty).addressBytes = 1 ∨ (PARAMS ty).addressBytes = 2 := by
    cases ty <;> simp [PARAMS]
  have hcur : uadd A t = A + t := by unfold uadd U32; omega
  have hAL : uadd A L = A + L := by unfold uadd U32; omega
  have h2 : usub (A + L) (A + t) = L - t := by unfold usub U32; omega
  have hu : usub 16 (PARAMS ty).addressBytes = 16 - (PARAMS ty).addressBytes := by
    unfold usub U32; omega
  have h1 : ∀ x, x ≤ 16 → uadd (A + t) x = A + t + x := by
    intro x hx; unfold uadd U32; omega
  have hsub1 : ∀ x, 0 < x → x ≤ 16 → usub x 1 = x - 1 := by
    intro x hx hx2; unfold usub U32; omega
  refine ⟨_, rfl, ?_⟩
  unfold readFillTxFifo
  simp only [if_neg (Nat.ne_of_lt ht), hcur, hAL, h2]
  by_cases h0 : t = 0
  · subst h0
    have h1z : uadd A (16 - (PARAMS ty).addressBytes) = A + (16 - (PARAMS ty).addressBytes) := by
      unfold uadd U32; omega
    simp only [decide_True, if_true, hu, Bool.true_and, h1z,
      sendAddress, List.nil_append, Nat.add_zero, Nat.sub_zero, Nat.zero_add]
    by_cases hre : A + L ≤ A + (16 - (PARAMS ty).addressBytes)
    · have hm : min (16 - (PARAMS ty).addressBytes) L = L := by omega
      simp only [ge_iff_le, hre, decide_True, if_true, hm, Bool.true_and,
        hsub1 L (by omega) (by omega)]
      exact ⟨trivial, trivial, trivial⟩
    · have hm : min (16 - (PARAMS ty).addressBytes) L = 16 - (PARAMS ty).addressBytes := by
        omega
      have hne : ¬ (16 - (PARAMS ty).addressBytes = L) := by omega
      simp only [ge_iff_le, hre, decide_False, Bool.false_eq_true, if_false, hm,
        Bool.false_and, hsub1 _ (show 0 < 16 - (PARAMS ty).addressBytes by omega)
          (Nat.sub_le 16 _), hne]
      exact ⟨trivial, trivial, trivial⟩
  · simp only [h0, decide_False, Bool.false_eq_true, if_false, Bool.false_and,
      h1 16 (le_refl 16), List.nil_append, Nat.sub_zero]
    by_cases hre : A + L ≤ A + t + 16
    · have hm : min 16 (L - t) = L - t := by omega
      have he : t + (L - t) = L := by omega
      simp only [ge_iff_le, hre, decide_True, if_true, hm, Bool.true_and,
        hsub1 (L - t) (by omega) (by omega), he]
      exact ⟨trivial, trivial, trivial⟩
    · have hm : min 16 (L - t) = 16 := by omega
      have hne : ¬ (t + 16 = L) := by omega
      simp only [ge_iff_le, hre, decide_False, Bool.false_eq_true, if_false, hm,
        Bool.false_and, hsub1 16 (by omega) (le_refl 16), hne]
      exact ⟨trivial, trivial, trivial⟩

/-- A fill step of an unfinished request (fewer bytes processed than the
length) that lies within the capacity, with the transmit queue empty and 16
entries free, for every EEPROM type. `readFillTxFifo` enqueues at least one
receive command and at most 16 words in all (address bytes included), and
sets the receive threshold to the number of receive commands minus one, a
value in 0..15. `writeFillTxFifo` enqueues the address bytes (when it starts
a transaction) followed by `len` payload words with `len ≥ 1`, at most 16
words in all; `len` after the page-boundary shortening is at most the
queue-limited length `16 − address bytes` and at most the remaining
length. -/
theorem fill_step_fits_queue (s : EepRom)
    (ht : s.op.bytesTransmitted < s.op.length)
    (hcap : s.op.memAddress + s.op.length ≤ getCapacity s.type)
    (hq : s.txFifo = []) :
    (1 ≤ ((s.readFillTxFifo 16).txFifo.filter (fun c => c.cmd)).length
      ∧ (s.readFillTxFifo 16).txFifo.length ≤ 16
      ∧ (s.readFillTxFifo 16).rx_tl + 1
          = ((s.readFillTxFifo 16).txFifo.filter (fun c => c.cmd)).length
      ∧ (s.readFillTxFifo 16).rx_tl ≤ 15)
    ∧ ((s.writeFillTxFifo 16).txFifo
          = (if (writeFillPlan s.type s.op 16).starting
              then addressCmds (PARAMS s.type).addressBytes
                (uadd s.op.memAddress s.op.bytesTransmitted) else [])
            ++ payloadCmds s.op.data s.op.bytesEnqueued
                (writeFillPlan s.type s.op 16).stopping (writeFillPlan s.type s.op 16).len
      ∧ (payloadCmds s.op.data s.op.bytesEnqueued
          (writeFillPlan s.type s.op 16).stopping (writeFillPlan s.type s.op 16).len).length
          = (writeFillPlan s.type s.op 16).len
      ∧ 1 ≤ (writeFillPlan s.type s.op 16).len
      ∧ (s.writeFillTxFifo 16).txFifo.length ≤ 16
      ∧ (writeFillPlan s.type s.op 16).len
          ≤ 16 - (if (writeFillPlan s.type s.op 16).starting
              then (PARAMS s.type).addressBytes else 0)
      ∧ (writeFillPlan s.type s.op 16).len ≤ s.op.length - s.op.bytesTransmitted) := by
  have hnb : (PARAMS s.type).addressBytes = 1 ∨ (PARAMS s.type).addressBytes = 2 := by
    cases s.type <;> simp [PARAMS]
  constructor
  · obtain ⟨len, hlen, hfifo, hrx, _⟩ := readFillTxFifo_spec s ht hcap hq
    have hf : ((s.readFillTxFifo 16).txFifo.filter (fun c => c.cmd)).length = len := by
      rw [hfifo, List.filter_append]
      have e1 : (if s.op.bytesTransmitted = 0
          then addressCmds (PARAMS s.type).addressBytes s.op.memAddress else []).filter
          (fun c => c.cmd) = [] := by
        split_ifs
        · simp [addressCmds, List.filter_eq_nil_iff]
        · rfl
      rw [e1, List.nil_append, List.filter_map]
      simp [Function.comp_def]
    have hl : (s.readFillTxFifo 16).txFifo.length
        = (if s.op.bytesTransmitted = 0 then (PARAMS s.type).addressBytes else 0) + len := by
      rw [hfifo, List.length_append, List.length_map, List.length_range]
      split_ifs
      · rw [addressCmds_length]
      · rfl
    rw [hf, hl, hrx]
    split_ifs at hlen ⊢ <;> omega
  · obtain ⟨_, h1, h2, _, h4, _⟩ := writeFillPlan_spec s.type s.op ht hcap
    have hfifo := congrArg EepRom.txFifo
      (writeFillTxFifo_unfinished s 16 (Nat.ne_of_lt ht))
    simp only [hq, List.nil_append] at hfifo
    have hpl : (payloadCmds s.op.data s.op.bytesEnqueued
        (writeFillPlan s.type s.op 16).stopping (writeFillPlan s.type s.op 16).len).length
        = (writeFillPlan s.type s.op 16).len := by
      simp [payloadCmds]
    refine ⟨hfifo, hpl, h1, ?_, ?_, ?_⟩
    · rw [hfifo, List.length_append, hpl]
      split_ifs at h4 ⊢
      · rw [addressCmds_length]; omega
      · simp only [List.length_nil]; omega
    · split_ifs at h4 ⊢ <;> omega
    · omega

/-- The lemma at work: a 24C128 (2 address bytes, 64-byte pages) with a
request of 100 bytes at address 60, nothing processed yet: the read step
enqueues the 2 address bytes and 14 receive commands with threshold 13; the
write step enqueues the 2 address bytes and, cut at the page boundary, 4
payload bytes. -/
theorem fill_step_fits_queue_example :
    (({ EepRom.new EepRomType.EEPROM_24C128 0x50 with
          op := ⟨List.replicate 100 7, 100, 60, 0, 0⟩ }).readFillTxFifo 16).rx_tl = 13
    ∧ (({ EepRom.new EepRomType.EEPROM_24C128 0x50 with
          op := ⟨List.replicate 100 7, 100, 60, 0, 0⟩ }).readFillTxFifo 16).txFifo.length = 16
    ∧ (({ EepRom.new EepRomType.EEPROM_24C128 0x50 with
          op := ⟨List.replicate 100 7, 100, 60, 0, 0⟩ }).writeFillTxFifo 16).txFifo.length = 6
    ∧ (({ EepRom.new EepRomType.EEPROM_24C128 0x50 with
          op := ⟨List.replicate 100 7, 100, 60, 0, 0⟩ }).readFillTxFifo 16).rx_tl ≤ 15 :=
  ⟨by decide, by decide, by decide,
    (fill_step_fits_queue
      { EepRom.new EepRomType.EEPROM_24C128 0x50 with
        op := ⟨List.replicate 100 7, 100, 60, 0, 0⟩ }
      (by decide) (by decide) rfl).1.2.2.2⟩

/-- C29 (evaluation at the failing input): an idle 24C01 (capacity 128, one
address byte) is asked for 4294967291 bytes at address 10. The 32-bit sum
`memAddress + length` wraps to 5, so the parameter check leaves the length
untrimmed. The first fill step, with the queue empty and 16 entries free,
then takes `len = memAddress + length − currentAddress = 4294967291`:
`readFillTxFifo` sets the receive threshold to 4294967290 and counts
4294967291 requested bytes, `writeFillTxFifo` enqueues one address byte and
4294967291 payload words, far more than the 16 free entries. -/
theorem C29_wrapped_request_overfills_queue :
    checkParameters EepRomType.EEPROM_24C01 10 4294967291 = some 4294967291
    ∧ ((EepRom.new EepRomType.EEPROM_24C01 0x50).startReading [] 10 4294967291 16).2.rx_tl
        = 4294967290
    ∧ ((EepRom.new EepRomType.EEPROM_24C01 0x50).startReading
        [] 10 4294967291 16).2.op.bytesEnqueued = 4294967291
    ∧ (writeFillPlan EepRomType.EEPROM_24C01 ⟨[], 4294967291, 10, 0, 0⟩ 16).len = 4294967291
    ∧ ((EepRom.new EepRomType.EEPROM_24C01 0x50).startWriting
        [] 10 4294967291 16).2.txFifo.length = 1 + 4294967291 := by
  have hp : (writeFillPlan EepRomType.EEPROM_24C01 ⟨[], 4294967291, 10, 0, 0⟩ 16)
      = ⟨true, true, 4294967291⟩ := by decide
  refine ⟨by decide, ?_, ?_, by rw [hp], ?_⟩
  · rw [startReading_of_some _ _ _ _ _ 4294967291 (by decide) rfl]
    unfold readFillTxFifo
    simp [uadd, usub, U32, PARAMS, EepRom.new]
  · rw [startReading_of_some _ _ _ _ _ 4294967291 (by decide) rfl]
    unfold readFillTxFifo
    simp [uadd, usub, U32, PARAMS, EepRom.new, sendAddress]
  · rw [startWriting_of_some _ _ _ _ _ 4294967291 (by decide) rfl,
      writeFillTxFifo_unfinished _ _ (by decide)]
    simp only [EepRom.new, hp, if_true, List.nil_append, List.length_append,
      addressCmds_length, payloadCmds, List.length_map, List.length_range]
    rfl

/-! ## EEPROM: the whole stream of an abort-free write -/

theorem plainWords_append (src : List Nat) (o a b : Nat) :
    plainWords src o a ++ plainWords src (o + a) b = plainWords src o (a + b) := by
  unfold plainWords
  rw [List.range_add, List.map_append, List.map_map]
  congr 1
  apply List.map_congr_left
  intro i _
  simp [Nat.add_assoc]

theorem plainWords_succ (src : List Nat) (o a : Nat) :
    plainWords src o a ++ [⟨false, false, false, src.getD (o + a) 0⟩]
      = plainWords src o (a + 1) := by
  unfold plainWords
  rw [List.range_succ, List.map_append]
  rfl

theorem plainWords_no_stop (src : List Nat) (o k : Nat) :
    ∀ c ∈ plainWords src o k, c.stop = false := by
  intro c hc
  simp only [plainWords, List.mem_map] at hc
  obtain ⟨i, _, rfl⟩ := hc
  rfl

/-- The payload words of a fill step, written out. -/
theorem payloadCmds_eq (src : List Nat) (t : Nat) (st : Bool) (k : Nat) (hk : k < 16) :
    payloadCmds src t st (k + 1)
      = plainWords src t k ++ [⟨false, st, false, src.getD (t + k) 0⟩] := by
  have hu : usub (k + 1) 1 = k := by unfold usub U32; omega
  unfold payloadCmds plainWords
  rw [List.range_succ, List.map_append, hu]
  have e1 : (List.range k).map
        (fun i => (⟨false, st && decide (i = k), false, src.getD (t + i) 0⟩ : DataCmd))
      = (List.range k).map fun i => ⟨false, false, false, src.getD (t + i) 0⟩ := by
    apply List.map_congr_left
    intro i hi
    have : i ≠ k := by
      have := List.mem_range.mp hi
      omega
    simp [this]
  rw [e1]
  simp

/-- The payload bytes of the transactions of the specification are the bytes
of the source from the first offset on, in order. -/
theorem payloadBytes_specTransactions (nb A : Nat) (src : List Nat) :
    ∀ (ks : List Nat) (o : Nat), (∀ k ∈ ks, 0 < k) →
      payloadBytes nb (specTransactions nb A src o ks)
        = (List.range ks.sum).map fun i => src.getD (o + i) 0 := by
  intro ks
  induction ks with
  | nil => intro o _; simp [payloadBytes, specTransactions]
  | cons k ks ih =>
    intro o h
    have hk : 0 < k := h k (by simp)
    have ih2 := ih (o + k) (fun x hx => h x (by simp [hx]))
    unfold payloadBytes at ih2 ⊢
    simp only [specTransactions, List.map_cons, List.flatten_cons, List.sum_cons]
    rw [ih2, List.range_add, List.map_append, List.map_map]
    congr 1
    · unfold specTransaction
      rw [List.append_assoc, List.drop_left' (addressCmds_length _ _)]
      obtain ⟨j, rfl⟩ : ∃ j, k = j + 1 := ⟨k - 1, by omega⟩
      simp only [Nat.add_sub_cancel, List.map_append, List.map_cons, List.map_nil,
        List.range_succ, plainWords, List.map_map]
      rfl
    · apply List.map_congr_left
      intro i _
      simp [Nat.add_assoc]

/-- The words queued by an abort-free write from the state `sn` on, cut at the
STOPs, are the transactions of the specification for some chunks that make up
the bytes from offset `o` to the end. `acc` holds the words of the transaction
under way, which began at offset `o`. -/
theorem stream_is_spec (s : EepRom) (src : List Nat) (A L : Nat)
    (hcap : A + L ≤ getCapacity s.type) :
    ∀ (n : Nat) (sn : EepRom) (acc : List DataCmd) (o : Nat), WriteInv s src A L sn →
      (sn.state = State.IDLE → acc = [] ∧ o = L) →
      (WriteFilled s src A L sn →
        L - sn.op.bytesTransmitted ≤ n ∧ o ≤ sn.op.bytesTransmitted
        ∧ if sn.op.bytesTransmitted = 0
            ∨ (A + sn.op.bytesTransmitted) % (PARAMS s.type).pageSize = 0
          then acc = [] ∧ o = sn.op.bytesTransmitted
          else acc = addressCmds (PARAMS s.type).addressBytes (A + o)
                ++ plainWords src o (sn.op.bytesTransmitted - o)) →
      ∃ ks : List Nat, (∀ k ∈ ks, 0 < k) ∧ o + ks.sum = L
        ∧ transactionsFrom acc (writeStream sn n)
            = specTransactions (PARAMS s.type).addressBytes A src o ks := by
  intro n
  induction n with
  | zero =>
    intro sn acc o hinv hidle hfilled
    rcases hinv.progress with ⟨hst, _, _⟩ | ⟨hf, _⟩
    · obtain ⟨h1, h2⟩ := hidle hst
      exact ⟨[], by simp, by simp [h2], by simp [writeStream, transactionsFrom, h1, specTransactions]⟩
    · have := (hfilled hf).1
      have := hf.unfinished
      omega
  | succ n ih =>
    intro sn acc o hinv hidle hfilled
    unfold writeStream
    by_cases hst : sn.state = State.IDLE
    · obtain ⟨h1, h2⟩ := hidle hst
      rw [if_pos hst]
      exact ⟨[], by simp, by simp [h2], by simp [transactionsFrom, h1, specTransactions]⟩
    · rw [if_neg hst]
      have hf : WriteFilled s src A L sn := by
        rcases hinv.progress with ⟨h, _, _⟩ | ⟨h, _⟩
        · exact absurd h hst
        · exact h
      obtain ⟨hinv2, -, hstep⟩ := write_inv_handle s src A L hcap sn hinv
      have hstep := hstep hf
      have hsp := writeFillPlan_spec s.type sn.op (by rw [hinv.length_eq]; exact hf.unfinished)
        (by rw [hinv.memAddress_eq, hinv.length_eq]; exact hcap)
      rw [hinv.memAddress_eq, hinv.length_eq] at hsp
      obtain ⟨hs1, hs2, hs3, hs4, hs5, hs6⟩ := hsp
      have hbe := hf.bytesEnqueued_eq
      have htx := hf.txFifo_eq
      obtain ⟨hfuel, hot, hacc⟩ := hfilled hf
      have hun := hf.unfinished
      obtain ⟨k, hk⟩ : ∃ k, (writeFillPlan s.type sn.op 16).len = k + 1 :=
        ⟨(writeFillPlan s.type sn.op 16).len - 1, by omega⟩
      rw [hk] at hs3 hs5 hs6 hbe htx
      rw [payloadCmds_eq src _ _ k (by omega)] at htx
      generalize sn.op.bytesTransmitted = t at *
      generalize (writeFillPlan s.type sn.op 16).stopping = stopping at *
      generalize (writeFillPlan s.type sn.op 16).starting = starting at *
      -- the transaction under way with this step's words, the last one apart
      have hW : acc ++ ((if starting = true
            then addressCmds (PARAMS s.type).addressBytes (A + t) else [])
            ++ plainWords src t k)
          = addressCmds (PARAMS s.type).addressBytes (A + o) ++ plainWords src o (t + k - o) := by
        by_cases hc : t = 0 ∨ (A + t) % (PARAMS s.type).pageSize = 0
        · rw [if_pos hc] at hacc
          obtain ⟨ha, ho⟩ := hacc
          rw [ha, ho, if_pos (hs1.mpr hc), List.nil_append, Nat.add_sub_cancel_left]
        · rw [if_neg hc] at hacc
          have hns : ¬ starting = true := fun h => hc (hs1.mp h)
          rw [hacc, if_neg hns, List.nil_append, List.append_assoc]
          have e2 : t + k - o = (t - o) + k := by omega
          have hpa : plainWords src o (t - o) ++ plainWords src t k
              = plainWords src o (t - o + k) := by
            have h := plainWords_append src o (t - o) k
            rw [show o + (t - o) = t by omega] at h
            exact h
          rw [hpa, e2]
      have hns : ∀ c ∈ acc ++ ((if starting = true
            then addressCmds (PARAMS s.type).addressBytes (A + t) else [])
            ++ plainWords src t k), c.stop = false := by
        rw [hW]
        intro c hc
        rcases List.mem_append.mp hc with h | h
        · exact addressCmds_no_stop _ _ c h
        · exact plainWords_no_stop _ _ _ c h
      have hfifo : ∀ rest : List DataCmd, transactionsFrom acc (sn.txFifo ++ rest)
          = transactionsFrom [] ((acc ++ ((if starting = true
              then addressCmds (PARAMS s.type).addressBytes (A + t) else [])
              ++ plainWords src t k))
            ++ (⟨false, stopping, false, src.getD (t + k) 0⟩ :: rest)) := by
        intro rest
        rw [htx]
        have hns2 : ∀ c ∈ acc, c.stop = false :=
          fun c hc => hns c (List.mem_append.mpr (Or.inl hc))
        have h := transactionsFrom_append_of_no_stop acc
          (((if starting = true
              then addressCmds (PARAMS s.type).addressBytes (A + t) else [])
            ++ (plainWords src t k ++ [⟨false, stopping, false, src.getD (t + k) 0⟩]))
            ++ rest) [] hns2
        rw [List.nil_append] at h
        rw [← h]
        congr 1
        simp
      rw [hfifo]
      cases stopping with
      | false =>
        -- the transaction goes on with the next fill step
        have hnot : ¬ (t + (k + 1) = L ∨ (A + t + (k + 1)) % (PARAMS s.type).pageSize = 0) :=
          fun h => Bool.noConfusion (hs6.mpr h)
        rcases hstep with ⟨he, _⟩ | ⟨-, hf2, hbt⟩
        · exact absurd (Or.inl (by omega)) hnot
        · have hcur : (sn.handle txEmptyIrq).op.bytesTransmitted = t + (k + 1) := by
            rw [hbt, hbe]
          have hall : ∀ c ∈ (acc ++ ((if starting = true
              then addressCmds (PARAMS s.type).addressBytes (A + t) else [])
              ++ plainWords src t k)) ++ [⟨false, false, false, src.getD (t + k) 0⟩],
              c.stop = false := by
            intro c hc
            rcases List.mem_append.mp hc with h | h
            · exact hns c h
            · simp only [List.mem_singleton] at h
              rw [h]
          have e : ∀ rest : List DataCmd, (acc ++ ((if starting = true
              then addressCmds (PARAMS s.type).addressBytes (A + t) else [])
              ++ plainWords src t k)) ++ (⟨false, false, false, src.getD (t + k) 0⟩ :: rest)
              = ((acc ++ ((if starting = true
              then addressCmds (PARAMS s.type).addressBytes (A + t) else [])
              ++ plainWords src t k)) ++ [⟨false, false, false, src.getD (t + k) 0⟩])
                ++ rest := by
            intro rest; simp
          rw [e, transactionsFrom_append_of_no_stop _ _ [] hall, List.nil_append]
          refine ih _ _ o hinv2 ?_ ?_
          · intro h
            rw [hf2.state_eq] at h
            exact absurd h (by decide)
          · intro _
            rw [hcur]
            refine ⟨by omega, by omega, ?_⟩
            have hne : ¬ (t + (k + 1) = 0
                ∨ (A + (t + (k + 1))) % (PARAMS s.type).pageSize = 0) := by
              rintro (h | h)
              · omega
              · exact hnot (Or.inr (by rw [Nat.add_assoc]; exact h))
            rw [if_neg hne, hW, List.append_assoc]
            have e3 : t + k = o + (t + k - o) := by omega
            have e4 : t + (k + 1) - o = (t + k - o) + 1 := by omega
            rw [e4, ← plainWords_succ, ← e3]
      | true =>
        -- the transaction ends with this fill step
        rw [transactionsFrom_append_stop _ _ _ [] hns rfl, List.nil_append, hW]
        have htxn : addressCmds (PARAMS s.type).addressBytes (A + o)
              ++ plainWords src o (t + k - o) ++ [⟨false, true, false, src.getD (t + k) 0⟩]
            = specTransaction (PARAMS s.type).addressBytes A src o (t + (k + 1) - o) := by
          unfold specTransaction
          have e3 : t + (k + 1) - o - 1 = t + k - o := by omega
          have e4 : o + (t + k - o) = t + k := by omega
          rw [e3, e4]
        rw [htxn]
        have hb := hs6.mp rfl
        have hnext : ∃ ks : List Nat, (∀ k ∈ ks, 0 < k) ∧ (t + (k + 1)) + ks.sum = L
            ∧ transactionsFrom [] (writeStream (sn.handle txEmptyIrq) n)
              = specTransactions (PARAMS s.type).addressBytes A src (t + (k + 1)) ks := by
          refine ih _ [] (t + (k + 1)) hinv2 ?_ ?_
          · intro h
            refine ⟨rfl, ?_⟩
            rcases hstep with ⟨he, _⟩ | ⟨-, hf2, -⟩
            · omega
            · rw [hf2.state_eq] at h
              exact absurd h (by decide)
          · intro hf3
            rcases hstep with ⟨_, hidle2⟩ | ⟨hlt, _, hbt⟩
            · have := hf3.state_eq
              rw [hidle2] at this
              exact absurd this (by decide)
            · have hcur : (sn.handle txEmptyIrq).op.bytesTransmitted = t + (k + 1) := by
                rw [hbt, hbe]
              rw [hcur]
              refine ⟨by omega, le_refl _, ?_⟩
              have : (A + (t + (k + 1))) % (PARAMS s.type).pageSize = 0 := by
                rcases hb with hb | hb
                · omega
                · rw [← Nat.add_assoc]; exact hb
              rw [if_pos (Or.inr this)]
              exact ⟨rfl, rfl⟩
        obtain ⟨ks, hks1, hks2, hks3⟩ := hnext
        refine ⟨(t + (k + 1) - o) :: ks, ?_, ?_, ?_⟩
        · intro x hx
          rcases List.mem_cons.mp hx with h | h
          · omega
          · exact hks1 x h
        · simp only [List.sum_cons]; omega
        · have e5 : o + (t + (k + 1) - o) = t + (k + 1) := by omega
          simp only [specTransactions, e5]
          rw [hks3]

theorem afterTxEmpty_succ (s : EepRom) (n : Nat) :
    afterTxEmpty s (n + 1) = afterTxEmpty (s.handle txEmptyIrq) n := by
  induction n with
  | zero => rfl
  | succ n ih =>
    show (afterTxEmpty s (n + 1)).handle txEmptyIrq = _
    rw [ih]
    rfl

/-- An abort-free write ends: after at most as many transfer-complete
interrupts as bytes remain, a fill step finds all bytes transmitted and
leaves Idle and Success; until then the channel is transmitting. -/
theorem write_terminates (s : EepRom) (src : List Nat) (A L : Nat)
    (hcap : A + L ≤ getCapacity s.type) :
    ∀ (n : Nat) (sn : EepRom), WriteInv s src A L sn → WriteFilled s src A L sn →
      L - sn.op.bytesTransmitted ≤ n →
      ∃ m, 0 < m ∧ m ≤ n
        ∧ (∀ j, j < m → (afterTxEmpty sn j).state = State.WRITE_TRANSMITTING
            ∧ (afterTxEmpty sn j).result = Result.ONGOING)
        ∧ (afterTxEmpty sn m).state = State.IDLE
        ∧ (afterTxEmpty sn m).result = Result.SUCCESS := by
  intro n
  induction n with
  | zero =>
    intro sn _ hf hfuel
    have := hf.unfinished
    omega
  | succ n ih =>
    intro sn hinv hf hfuel
    have hres : sn.result = Result.ONGOING := by
      rcases hinv.progress with ⟨h, _, _⟩ | ⟨_, h⟩
      · have := hf.state_eq
        rw [h] at this
        exact absurd this (by decide)
      · exact h
    obtain ⟨hinv2, -, hstep⟩ := write_inv_handle s src A L hcap sn hinv
    have hsp := writeFillPlan_spec s.type sn.op (by rw [hinv.length_eq]; exact hf.unfinished)
      (by rw [hinv.memAddress_eq, hinv.length_eq]; exact hcap)
    have hlen := hsp.2.1
    have hbe := hf.bytesEnqueued_eq
    rcases hstep hf with ⟨_, hidle2⟩ | ⟨_, hf2, hbt⟩
    · refine ⟨1, by omega, by omega, ?_, hidle2, ?_⟩
      · intro j hj
        have : j = 0 := by omega
        subst this
        exact ⟨hf.state_eq, hres⟩
      · rcases hinv2.progress with ⟨_, _, h⟩ | ⟨h, _⟩
        · exact h
        · have := h.state_eq
          rw [hidle2] at this
          exact absurd this (by decide)
    · obtain ⟨m, hm1, hm2, hm3, hm4, hm5⟩ := ih (sn.handle txEmptyIrq) hinv2 hf2
        (by rw [hbt, hbe]; omega)
      refine ⟨m + 1, by omega, by omega, ?_, ?_, ?_⟩
      · intro j hj
        cases j with
        | zero => exact ⟨hf.state_eq, hres⟩
        | succ j =>
          rw [afterTxEmpty_succ]
          exact hm3 j (by omega)
      · rw [afterTxEmpty_succ]; exact hm4
      · rw [afterTxEmpty_succ]; exact hm5

/-- A fill step that continues the transaction under way leaves the bus
address alone. -/
theorem continuing_step_keeps_tar (s : EepRom) (src : List Nat) (A L : Nat)
    (hcap : A + L ≤ getCapacity s.type) (sn : EepRom) (hinv : WriteInv s src A L sn)
    (hst : (sn.handle txEmptyIrq).state ≠ State.IDLE)
    (hc : ¬ ((sn.handle txEmptyIrq).op.bytesTransmitted = 0
      ∨ (A + (sn.handle txEmptyIrq).op.bytesTransmitted) % (PARAMS s.type).pageSize = 0)) :
    (sn.handle txEmptyIrq).tar = sn.tar := by
  obtain ⟨hinv2, hid, hstep⟩ := write_inv_handle s src A L hcap sn hinv
  rcases hinv.progress with ⟨h, _, _⟩ | ⟨hf, _⟩
  · rw [hid h]
  · rcases hstep hf with ⟨_, h⟩ | ⟨hlt, hf2, hbt⟩
    · exact absurd h hst
    · have hc2 := getCapacity_le s.type
      have hne : sn.op.bytesEnqueued ≠ sn.op.length := by
        rw [hinv.length_eq]; omega
      have hs : (writeFillPlan sn.type
          { sn.op with bytesTransmitted := sn.op.bytesEnqueued } 16).starting = false := by
        cases hh : (writeFillPlan sn.type
          { sn.op with bytesTransmitted := sn.op.bytesEnqueued } 16).starting
        · rfl
        · exfalso
          apply hc
          rw [hbt]
          rcases (writeFillPlan_starting _ _ _).mp hh with h | h
          · exact Or.inl h
          · right
            simp only [hinv.memAddress_eq, hinv.type_eq] at h
            have e : uadd A sn.op.bytesEnqueued = A + sn.op.bytesEnqueued := by
              unfold uadd U32; omega
            rw [e] at h
            exact h
      rw [handle_txEmptyIrq sn hf.state_eq hf.irqEnabled_eq hf.i2cIrqInst_eq,
        writeFillTxFifo_unfinished _ 16 hne]
      simp only [hs, Bool.false_eq_true, if_false]

/-- C30: an abort-free write of `L > 0` bytes `src` at address `A` (`A + L`
within the capacity, started on an idle channel, transmit queue empty with
16 free entries at every fill step), followed through `n ≥ L`
transfer-complete interrupts. Cut at the STOPs, the words queued by the fill
steps are exactly the transactions that write `src` in consecutive chunks
of positive lengths adding up to `L`: each transaction is the address bytes
of `A +` the offset of its first payload byte, then its payload bytes in
order, STOP on the last. The payload bytes of all transactions together are
`src[0], …, src[L − 1]`, in this order, each once. The fill step that opens
a transaction (at offset `t = 0` or with `A + t` on a page boundary) queues
the address bytes of `A + t` and sets the bus address from `A + t`; a fill
step that continues a transaction leaves the bus address alone. After some
`m ≤ L` interrupts, before which the channel is transmitting with result
Ongoing, the fill step finds all bytes transmitted and leaves state Idle and
result Success. -/
theorem C30_abort_free_write_sends_every_byte_once (s : EepRom) (src : List Nat)
    (A L n : Nat) (hidle : s.state = State.IDLE) (hq : s.txFifo = []) (hL : 0 < L)
    (hcap : A + L ≤ getCapacity s.type) (hn : L ≤ n) :
    (∃ ks : List Nat, (∀ k ∈ ks, 0 < k) ∧ ks.sum = L
      ∧ transactions (writeStream (s.startWriting src A L 16).2 n)
          = specTransactions (PARAMS s.type).addressBytes A src 0 ks)
    ∧ payloadBytes (PARAMS s.type).addressBytes
          (transactions (writeStream (s.startWriting src A L 16).2 n))
        = (List.range L).map (fun i => src.getD i 0)
    ∧ (∀ m : Nat, (afterTxEmpty (s.startWriting src A L 16).2 m).state ≠ State.IDLE →
        ((afterTxEmpty (s.startWriting src A L 16).2 m).op.bytesTransmitted = 0
          ∨ (A + (afterTxEmpty (s.startWriting src A L 16).2 m).op.bytesTransmitted)
              % (PARAMS s.type).pageSize = 0) →
        (afterTxEmpty (s.startWriting src A L 16).2 m).txFifo.take
            (PARAMS s.type).addressBytes
          = addressCmds (PARAMS s.type).addressBytes
              (A + (afterTxEmpty (s.startWriting src A L 16).2 m).op.bytesTransmitted)
        ∧ (afterTxEmpty (s.startWriting src A L 16).2 m).tar
          = s.calcI2cAddress
              (A + (afterTxEmpty (s.startWriting src A L 16).2 m).op.bytesTransmitted))
    ∧ (∀ m : Nat, (afterTxEmpty (s.startWriting src A L 16).2 (m + 1)).state ≠ State.IDLE →
        ¬ ((afterTxEmpty (s.startWriting src A L 16).2 (m + 1)).op.bytesTransmitted = 0
          ∨ (A + (afterTxEmpty (s.startWriting src A L 16).2 (m + 1)).op.bytesTransmitted)
              % (PARAMS s.type).pageSize = 0) →
        (afterTxEmpty (s.startWriting src A L 16).2 (m + 1)).tar
          = (afterTxEmpty (s.startWriting src A L 16).2 m).tar)
    ∧ (∃ m : Nat, 0 < m ∧ m ≤ L
        ∧ (∀ j, j < m →
            (afterTxEmpty (s.startWriting src A L 16).2 j).state = State.WRITE_TRANSMITTING
            ∧ (afterTxEmpty (s.startWriting src A L 16).2 j).result = Result.ONGOING)
        ∧ (afterTxEmpty (s.startWriting src A L 16).2 m).state = State.IDLE
        ∧ (afterTxEmpty (s.startWriting src A L 16).2 m).result = Result.SUCCESS) := by
  have hinv : ∀ m, WriteInv s src A L (afterTxEmpty (s.startWriting src A L 16).2 m) :=
    write_run_invariant s src A L hidle hq hL hcap
  have hinv0 : WriteInv s src A L (s.startWriting src A L 16).2 := hinv 0
  have hf0 : WriteFilled s src A L (s.startWriting src A L 16).2
      ∧ (s.startWriting src A L 16).2.op.bytesTransmitted = 0 := by
    have e := startWriting_of_some s src A L 16 L
      (checkParameters_in_range s.type A L hL hcap) hidle
    have hfo := fill_step_ok { s with op := ⟨src, L, A, 0, 0⟩, result := Result.ONGOING }
      src A L 0 rfl hL hcap hq
    rw [e]
    simp only
    refine ⟨?_, hfo.2.2.2.2.2.1⟩
    rcases hinv0.progress with ⟨h, _, _⟩ | ⟨h, _⟩
    · rw [e] at h
      simp only at h
      rw [hfo.2.2.2.2.2.2.1] at h
      exact absurd h (by decide)
    · rw [e] at h
      exact h
  obtain ⟨hf0, ht0⟩ := hf0
  obtain ⟨ks, hks1, hks2, hks3⟩ := stream_is_spec s src A L hcap n
    (s.startWriting src A L 16).2 [] 0 hinv0
    (fun h => by
      have := hf0.state_eq
      rw [h] at this
      exact absurd this (by decide))
    (fun _ => by
      rw [ht0]
      refine ⟨by omega, le_refl _, ?_⟩
      rw [if_pos (Or.inl rfl)]
      exact ⟨rfl, rfl⟩)
  rw [Nat.zero_add] at hks2
  refine ⟨⟨ks, hks1, hks2, hks3⟩, ?_, ?_, ?_, ?_⟩
  · unfold transactions
    rw [hks3, payloadBytes_specTransactions _ _ _ ks 0 hks1, hks2]
    simp
  · intro m hst hc
    have hi := hinv m
    generalize afterTxEmpty (s.startWriting src A L 16).2 m = sn at *
    rcases hi.progress with ⟨h, _, _⟩ | ⟨hf, _⟩
    · exact absurd h hst
    · have hsp := writeFillPlan_spec s.type sn.op
        (by rw [hi.length_eq]; exact hf.unfinished)
        (by rw [hi.memAddress_eq, hi.length_eq]; exact hcap)
      rw [hi.memAddress_eq] at hsp
      have hs : (writeFillPlan s.type sn.op 16).starting = true := hsp.1.mpr hc
      refine ⟨?_, (hf.tar_eq hs).1⟩
      rw [hf.txFifo_eq, hs]
      simp only [if_true]
      rw [List.take_left' (addressCmds_length _ _)]
  · intro m hst hc
    exact continuing_step_keeps_tar s src A L hcap _ (hinv m) hst hc
  · obtain ⟨m, hm1, hm2, hm3, hm4, hm5⟩ := write_terminates s src A L hcap L
      (s.startWriting src A L 16).2 hinv0 hf0 (by omega)
    exact ⟨m, hm1, hm2, hm3, hm4, hm5⟩

/-- C30 (witness): writing the 70 bytes 1, 2, …, 70 at address 60 of a 24C128
(64-byte pages, 2 address bytes), followed through 70 interrupts: the payload
bytes of the queued transactions are 1, 2, …, 70. -/
theorem C30_abort_free_write_sends_every_byte_once_witness :
    payloadBytes 2
        (transactions (writeStream
          ((EepRom.new EepRomType.EEPROM_24C128 0x50).startWriting
            ((List.range 70).map (fun i => i + 1)) 60 70 16).2 70))
      = (List.range 70).map
          (fun i => ((List.range 70).map (fun i => i + 1)).getD i 0) :=
  (C30_abort_free_write_sends_every_byte_once (EepRom.new EepRomType.EEPROM_24C128 0x50)
    ((List.range 70).map (fun i => i + 1)) 60 70 70 rfl rfl (by decide) (by decide)
    (le_refl _)).2.1

/-! ## EEPROM: a request at the capacity whose end wraps -/

/-- The rule for starting a request, in terms of the capacity-truncated
length of the specification, for requests whose `memAddress + length` does
not wrap: `startReading` and `startWriting` return `false` exactly when that
length is non-zero and the state is not `IDLE`; when they return `false`, and
when that length is zero, the whole channel is unchanged. -/
theorem start_fails_iff_busy_of_no_wrap (s : EepRom) (buf : List Nat) (A L F : Nat)
    (h : A + L < 2 ^ 32) :
    ((s.startReading buf A L F).1 = false
        ↔ (specEffectiveLength s.type A L ≠ 0 ∧ s.state ≠ State.IDLE))
      ∧ ((s.startWriting buf A L F).1 = false
        ↔ (specEffectiveLength s.type A L ≠ 0 ∧ s.state ≠ State.IDLE))
      ∧ ((s.startReading buf A L F).1 = false ∨ specEffectiveLength s.type A L = 0 →
          (s.startReading buf A L F).2 = s)
      ∧ ((s.startWriting buf A L F).1 = false ∨ specEffectiveLength s.type A L = 0 →
          (s.startWriting buf A L F).2 = s) := by
  obtain ⟨h1, h2, h3, h4, _, h6⟩ := start_fails_iff_busy s buf A L F
  rw [h6 h] at h1 h2 h3 h4
  exact ⟨h1, h2, h3, h4⟩

/-- C4 (evaluation at the failing input): a 24C01 (capacity 128) and a
request of 4294967295 bytes at address 128, whose capacity-truncated length
is 0. On a channel that is busy writing three bytes, `startReading` and
`startWriting` return `false`. On an idle channel they return `true` but do
not leave the channel alone: they record a request of 4294967295 bytes at
address 128, set the result to Ongoing and leave the state ReadReceiving
resp. WriteTransmitting. The 32-bit sum `memAddress + length` wraps to 127,
so the parameter check does not trim the length to 0. -/
theorem C4_wrapped_request_at_capacity_is_not_zero_length :
    specEffectiveLength .EEPROM_24C01 128 4294967295 = 0
      ∧ checkParameters .EEPROM_24C01 128 4294967295 = some 4294967295
      ∧ ((EepRom.new .EEPROM_24C01 0x50).startWriting [1, 2, 3] 0 3 16).2.state
          = State.WRITE_TRANSMITTING
      ∧ (((EepRom.new .EEPROM_24C01 0x50).startWriting [1, 2, 3] 0 3 16).2.startReading
          [] 128 4294967295 16).1 = false
      ∧ (((EepRom.new .EEPROM_24C01 0x50).startWriting [1, 2, 3] 0 3 16).2.startWriting
          [] 128 4294967295 16).1 = false
      ∧ ((EepRom.new .EEPROM_24C01 0x50).startReading [] 128 4294967295 16).1 = true
      ∧ ((EepRom.new .EEPROM_24C01 0x50).startReading [] 128 4294967295 16).2.op.length
          = 4294967295
      ∧ ((EepRom.new .EEPROM_24C01 0x50).startReading [] 128 4294967295 16).2.op.memAddress
          = 128
      ∧ ((EepRom.new .EEPROM_24C01 0x50).startReading [] 128 4294967295 16).2.state
          = State.READ_RECEIVING
      ∧ ((EepRom.new .EEPROM_24C01 0x50).startReading [] 128 4294967295 16).2.result
          = Result.ONGOING
      ∧ ((EepRom.new .EEPROM_24C01 0x50).startWriting [] 128 4294967295 16).1 = true
      ∧ ((EepRom.new .EEPROM_24C01 0x50).startWriting [] 128 4294967295 16).2.state
          = State.WRITE_TRANSMITTING
      ∧ ((EepRom.new .EEPROM_24C01 0x50).startWriting [] 128 4294967295 16).2.result
          = Result.ONGOING := by
  have hcp : checkParameters .EEPROM_24C01 128 4294967295 = some 4294967295 := by decide
  have hbusy : ((EepRom.new .EEPROM_24C01 0x50).startWriting [1, 2, 3] 0 3 16).2.state
      = State.WRITE_TRANSMITTING := by decide
  have hty : ((EepRom.new .EEPROM_24C01 0x50).startWriting [1, 2, 3] 0 3 16).2.type
      = EepRomType.EEPROM_24C01 := by decide
  have hcl : checkedLength .EEPROM_24C01 128 4294967295 ≠ 0 := by decide
  have hr := startReading_of_some (EepRom.new .EEPROM_24C01 0x50) [] 128 4294967295 16
    4294967295 hcp rfl
  have hw := startWriting_of_some (EepRom.new .EEPROM_24C01 0x50) [] 128 4294967295 16
    4294967295 hcp rfl
  refine ⟨by decide, hcp, hbusy, ?_, ?_, ?_, ?_, ?_, ?_, ?_, ?_, ?_, ?_⟩
  · refine (start_fails_iff_busy _ [] 128 4294967295 16).1.mpr ⟨?_, ?_⟩
    · rw [hty]; exact hcl
    · rw [hbusy]; decide
  · refine (start_fails_iff_busy _ [] 128 4294967295 16).2.1.mpr ⟨?_, ?_⟩
    · rw [hty]; exact hcl
    · rw [hbusy]; decide
  · rw [hr]
  · rw [hr, readFillTxFifo_length]
  · rw [hr]
    unfold readFillTxFifo
    simp [EepRom.new, sendAddress]
  · rw [hr]
    rcases readFillTxFifo_result
      { EepRom.new .EEPROM_24C01 0x50 with
        op := ⟨[], 4294967295, 128, 0, 0⟩, result := Result.ONGOING } 16 with
      ⟨_, _, h3, _⟩ | ⟨h1, _, _⟩
    · exact absurd h3 (by decide)
    · exact h1
  · rw [hr]
    rcases readFillTxFifo_result
      { EepRom.new .EEPROM_24C01 0x50 with
        op := ⟨[], 4294967295, 128, 0, 0⟩, result := Result.ONGOING } 16 with
      ⟨_, _, h3, _⟩ | ⟨_, h2, _⟩
    · exact absurd h3 (by decide)
    · exact h2
  · rw [hw]
  · rw [hw]
    rcases writeFillTxFifo_result
      { EepRom.new .EEPROM_24C01 0x50 with
        op := ⟨[], 4294967295, 128, 0, 0⟩, result := Result.ONGOING } 16 with
      ⟨_, _, h3, _⟩ | ⟨h1, _, _⟩
    · exact absurd h3 (by decide)
    · exact h1
  · rw [hw]
    rcases writeFillTxFifo_result
      { EepRom.new .EEPROM_24C01 0x50 with
        op := ⟨[], 4294967295, 128, 0, 0⟩, result := Result.ONGOING } 16 with
      ⟨_, _, h3, _⟩ | ⟨_, h2, _⟩
    · exact absurd h3 (by decide)
    · exact h2

end MacroPad
